import Mathlib

/-!
# Clone contexts of libbirch (`LazyMemo`)

A shallow embedding of `libbirch/LazyMemo.cpp`.  Pointers are indices into an
arena: `LazyMemo*` is an index into `Heap.memos`, `LazyAny*` an index into
`Heap.objs`; a nullable pointer is an `Option Nat`.  Every member function is a
function from the heap before the call to an `Outcome` holding the returned
value and the heap after the call.  Recursion along the parent chain is bounded
by a fuel argument; `Outcome.timeout` is the model running out of fuel,
`Outcome.abort` is a failed assertion or the dereference of a null or invalid
pointer.
-/

namespace libbirch

/-- Outcome of a modelled member function. -/
inductive Outcome (α : Type) where
  | ok (x : α)
  | abort
  | timeout
deriving DecidableEq, Repr

/-- Compile-time switches read by `LazyMemo.cpp`.  The two `DELTA` fields hold
the values of `(unsigned)ANCESTRY_MEMO_DELTA` and `(unsigned)CLONE_MEMO_DELTA`. -/
structure Config where
  ENABLE_ANCESTRY_MEMO : Bool
  ANCESTRY_MEMO_DELTA : Nat
  ENABLE_CLONE_MEMO : Bool
  CLONE_MEMO_DELTA : Nat
deriving DecidableEq, Repr

/-- Number of values of the C++ type `unsigned`, the type of the generation
counter (`0u`, `parent->gen + 1u`, `(unsigned)ANCESTRY_MEMO_DELTA`). -/
def UNSIGNED_RANGE : Nat := 4294967296

/-- Modelled from the spec: the object->clone mapping `Map` of libbirch/Map.hpp,
which is not among the sources.  Keys are original objects, values their
clones; insertion is insert-if-absent. -/
structure Map where
  entries : List (Nat × Nat)
deriving DecidableEq, Repr

/-- Lookup in an association list: the first entry for `key`. -/
def lookupEntry : List (Nat × Nat) → Nat → Option Nat
  | [], _ => none
  | (k, v) :: rest, key => if k = key then some v else lookupEntry rest key

/-- Modelled from the spec: `Map::get(key)`, null (here `none`) when the key has
no entry. -/
def Map.get (m : Map) (key : Nat) : Option Nat := lookupEntry m.entries key

/-- Modelled from the spec: `Map::get(key, failed)`, the entry for `key` or
`failed` when there is none. -/
def Map.getD (m : Map) (key failed : Nat) : Nat := (m.get key).getD failed

/-- Modelled from the spec: the insertion step shared by `Map::put` and
`Map::uninitialized_put`: insert-if-absent, returning the value that the
mapping holds for `key` afterwards. -/
def Map.insert (m : Map) (key value : Nat) : Nat × Map :=
  match m.get key with
  | some v => (v, m)
  | none => (value, { entries := (key, value) :: m.entries })

/-- Header of a tracked object (`LazyAny`): the frozen flag, the size
descriptor and the shared and memo reference counts. -/
structure LazyAny where
  frozen : Bool
  size : Nat
  sharedCount : Nat
  memoCount : Nat
deriving DecidableEq, Repr

/-- A clone context. `a` is the ancestry cache (a `Set` of contexts), `m` the
object->clone mapping; `frozen` and `sharedCount` are the flag and the count
that `isFrozen()`, `numShared()`, `incShared()` and `decShared()` work on. -/
structure LazyMemo where
  parent : Option Nat
  forward : Option Nat
  gen : Nat
  m : Map
  a : List Nat
  frozen : Bool
  sharedCount : Nat
deriving DecidableEq, Repr

/-- The arena: contexts and object storage.  An entry `none` of `objs` is an
allocated block in which no object has been constructed yet. -/
structure Heap where
  memos : List LazyMemo
  objs : List (Option LazyAny)
deriving DecidableEq, Repr

/-- The object constructed at address `o`, if any. -/
def Heap.obj (h : Heap) (o : Nat) : Option LazyAny := (h.objs[o]?).join

/-- Replace the context stored at index `i`. -/
def Heap.setMemo (h : Heap) (i : Nat) (t : LazyMemo) : Heap :=
  { h with memos := h.memos.set i t }

/-- Replace the object stored at address `o`. -/
def Heap.setObj (h : Heap) (o : Nat) (x : LazyAny) : Heap :=
  { h with objs := h.objs.set o (some x) }

/-- The mapping of context `c`, `none` for an invalid context pointer. -/
def Heap.mapOf (h : Heap) (c : Nat) : Option Map := (h.memos[c]?).map (fun t => t.m)

/-- `LazyMemo::LazyMemo()`: the root constructor. -/
def LazyMemo.mkRoot : LazyMemo :=
  { parent := none, forward := none, gen := 0, m := { entries := [] }, a := [],
    frozen := false, sharedCount := 0 }

/-- `LazyMemo::LazyMemo(LazyMemo* parent)`: `gen(parent->gen + 1u)` in
`unsigned` arithmetic. -/
def LazyMemo.mkChild (parentPtr : Nat) (parent : LazyMemo) : LazyMemo :=
  { parent := some parentPtr, forward := none, gen := (parent.gen + 1) % UNSIGNED_RANGE,
    m := { entries := [] }, a := [], frozen := false, sharedCount := 0 }

/-- Construct a root context in the arena; returns its pointer. -/
def Heap.newRoot (h : Heap) : Nat × Heap :=
  (h.memos.length, { h with memos := h.memos ++ [LazyMemo.mkRoot] })

/-- Construct a child of `parent` in the arena; returns its pointer. -/
def Heap.newChild (h : Heap) (parent : Nat) : Outcome (Nat × Heap) :=
  match h.memos[parent]? with
  | none => .abort
  | some p => .ok (h.memos.length, { h with memos := h.memos ++ [LazyMemo.mkChild parent p] })

/-- `o->isFrozen()`. -/
def Heap.isFrozen (h : Heap) (o : Nat) : Option Bool := (h.obj o).map (fun x => x.frozen)

/-- `o->incMemo()`. -/
def Heap.incMemo (h : Heap) (o : Nat) : Option Heap :=
  (h.obj o).map (fun x => h.setObj o { x with memoCount := x.memoCount + 1 })

/-- `o->incShared()`. -/
def Heap.incShared (h : Heap) (o : Nat) : Option Heap :=
  (h.obj o).map (fun x => h.setObj o { x with sharedCount := x.sharedCount + 1 })

/-- Modelled from the spec: `o->decShared()` of the counted base class (not among
the sources): decrement, and destruction of the referent when the count
reaches zero. -/
def Heap.decShared (h : Heap) (o : Nat) : Option Heap :=
  match h.obj o with
  | none => none
  | some x =>
    if x.sharedCount = 0 then none
    else if x.sharedCount = 1 then some { h with objs := h.objs.set o none }
    else some (h.setObj o { x with sharedCount := x.sharedCount - 1 })

/-- `allocate(n)`: a fresh block, in which nothing is constructed. -/
def Heap.allocate (h : Heap) (_n : Nat) : Nat × Heap :=
  (h.objs.length, { h with objs := h.objs ++ [none] })

/-- Modelled from the spec: the polymorphic duplicate-into-allocation
`o->clone_(uninit)`, generated per object type and not among the sources.  It
constructs the duplicate of `o` in the block `uninit` and returns that block;
the duplicate is a new, unfrozen object with fresh reference counts.  The
member fields of objects are not represented. -/
def Heap.clone_ (h : Heap) (o uninit : Nat) : Outcome (Nat × Heap) :=
  match h.obj o, h.objs[uninit]? with
  | some src, some none =>
    .ok (uninit, h.setObj uninit
      { frozen := false, size := src.size, sharedCount := 0, memoCount := 0 })
  | _, _ => .abort

/-- `getParent()`: the parent pointer, which must not be null. -/
def Heap.getParent (h : Heap) (self : Nat) : Option Nat :=
  match h.memos[self]? with
  | none => none
  | some t => t.parent

/-- Store a new mapping in context `self`. -/
def Heap.setMap (h : Heap) (self : Nat) (m : Map) : Heap :=
  match h.memos[self]? with
  | none => h
  | some t => h.setMemo self { t with m := m }

/-- Modelled from the spec: `m.uninitialized_put(key, value)` on the mapping of
`self`: insert-if-absent with no reference counting. -/
def Heap.uninitialized_put (h : Heap) (self key value : Nat) : Outcome (Nat × Heap) :=
  match h.mapOf self with
  | none => .abort
  | some m => .ok ((m.insert key value).1, h.setMap self (m.insert key value).2)

/-- Modelled from the spec: `m.put(key, value)` on the mapping of `self`:
insert-if-absent; on insertion the mapping takes a memo reference on the key
and a shared reference on the value (`uninitialized_put` leaves both to the
caller, see the comments in `finish` and `cross`). -/
def Heap.put (h : Heap) (self key value : Nat) : Outcome (Nat × Heap) :=
  match h.mapOf self with
  | none => .abort
  | some m =>
    match m.get key with
    | some v => .ok (v, h)
    | none =>
      match h.incMemo key with
      | none => .abort
      | some h1 =>
        match h1.incShared value with
        | none => .abort
        | some h2 => .ok (value, h2.setMap self (m.insert key value).2)

/-- `a.insert(memo)` on the ancestry cache of `self`. -/
def Heap.insertAncestor (h : Heap) (self memo : Nat) : Heap :=
  match h.memos[self]? with
  | none => h
  | some t => if memo ∈ t.a then h else h.setMemo self { t with a := memo :: t.a }

/-- `LazyMemo::hasAncestor(memo)`. -/
def hasAncestor (cfg : Config) : Nat → Heap → Nat → Nat → Outcome (Bool × Heap)
  | 0, _, _, _ => .timeout
  | fuel + 1, h, self, memo =>
    match h.memos[self]?, h.memos[memo]? with
    | some t, some mm =>
      if t.gen ≤ mm.gen then .ok (false, h)
      else if t.parent = some memo then .ok (true, h)
      else if cfg.ENABLE_ANCESTRY_MEMO = true ∧ t.gen % cfg.ANCESTRY_MEMO_DELTA = 0
          ∧ memo ∈ t.a then .ok (true, h)
      else
        match t.parent with
        | none => .abort
        | some p =>
          match hasAncestor cfg fuel h p memo with
          | .ok (result, h1) =>
            if cfg.ENABLE_ANCESTRY_MEMO = true ∧ result = true
                ∧ t.gen % cfg.ANCESTRY_MEMO_DELTA = 0 then
              .ok (result, h1.insertAncestor self memo)
            else .ok (result, h1)
          | .abort => .abort
          | .timeout => .timeout
    | _, _ => .abort

/-- `LazyMemo::source(o, from)`. -/
def source (cfg : Config) : Nat → Heap → Nat → Nat → Nat → Outcome (Nat × Heap)
  | 0, _, _, _, _ => .timeout
  | fuel + 1, h, self, o, from' =>
    if self = from' then .ok (o, h)
    else
      match h.memos[self]? with
      | none => .abort
      | some t =>
        if cfg.ENABLE_CLONE_MEMO = true ∧ t.gen % cfg.CLONE_MEMO_DELTA = 0 then
          match t.m.get o with
          | some result => .ok (result, h)
          | none =>
            match t.parent with
            | none => .abort
            | some p =>
              match source cfg fuel h p o from' with
              | .ok (result, h1) =>
                match h1.mapOf self with
                | none => .abort
                | some m1 =>
                  h1.put self o (if result ≠ o then m1.getD result result else result)
              | .abort => .abort
              | .timeout => .timeout
        else
          match t.parent with
          | none => .abort
          | some p =>
            match source cfg fuel h p o from' with
            | .ok (result, h1) =>
              match h1.mapOf self with
              | none => .abort
              | some m1 => .ok (m1.getD result result, h1)
            | .abort => .abort
            | .timeout => .timeout

/-- `o->clone_()` without an argument: the duplicate is constructed in a block
that the call allocates itself. -/
def Heap.cloneNew (h : Heap) (o : Nat) : Outcome (Nat × Heap) :=
  match h.obj o with
  | none => .abort
  | some x => (h.allocate x.size).2.clone_ o (h.allocate x.size).1

/-- `LazyMemo::copy(o)`.  The shared pointer `cloned` holds one reference on the
duplicate from its construction to the return.  `SwapClone` and `SwapContext`
set thread-local flags for the constructors of member pointers, which are not
represented. -/
def copy (h : Heap) (self o : Nat) : Outcome (Nat × Heap) :=
  match h.isFrozen o with
  | some true =>
    match h.cloneNew o with
    | .ok (cloned, h1) =>
      match h1.incShared cloned with
      | none => .abort
      | some h2 =>
        match h2.put self o cloned with
        | .ok (result, h3) =>
          match h3.decShared cloned with
          | none => .abort
          | some h4 => .ok (result, h4)
        | .abort => .abort
        | .timeout => .timeout
    | .abort => .abort
    | .timeout => .timeout
  | _ => .abort

/-- The resolution `o = getParent()->source(o, from)` that opens the else
branch of `get`, `pull` and `finish`. -/
def resolve (cfg : Config) (fuel : Nat) (h : Heap) (self o from' : Nat) :
    Outcome (Nat × Heap) :=
  match h.getParent self with
  | none => .abort
  | some p => source cfg fuel h p o from'

/-- `LazyMemo::get(o, from)`. -/
def get (cfg : Config) (fuel : Nat) (h : Heap) (self o from' : Nat) : Outcome (Nat × Heap) :=
  if self = from' then .ok (o, h)
  else
    match resolve cfg fuel h self o from' with
    | .ok (r, h1) =>
      match h1.mapOf self with
      | none => .abort
      | some m1 =>
        match m1.get r with
        | some result => .ok (result, h1)
        | none =>
          match h1.isFrozen r with
          | none => .abort
          | some false => .ok (r, h1)
          | some true => copy h1 self r
    | .abort => .abort
    | .timeout => .timeout

/-- `LazyMemo::pull(o, from)`. -/
def pull (cfg : Config) (fuel : Nat) (h : Heap) (self o from' : Nat) : Outcome (Nat × Heap) :=
  if self = from' then .ok (o, h)
  else
    match resolve cfg fuel h self o from' with
    | .ok (r, h1) =>
      match h1.mapOf self with
      | none => .abort
      | some m1 =>
        match m1.get r with
        | some result => .ok (result, h1)
        | none => .ok (r, h1)
    | .abort => .abort
    | .timeout => .timeout

/-- The not-found branch of `finish` and of `cross`, the same statements in
both: allocate, register the allocation in the mapping, construct the clone in
it, then take the two references.  `SwapClone`, `SwapFinish`, `SwapCross` and
`SwapContext` set thread-local flags for the constructors of member pointers,
which are not represented. -/
def cloneInto (h : Heap) (self o : Nat) : Outcome (Nat × Heap) :=
  match h.obj o with
  | none => .abort
  | some x =>
    match (h.allocate x.size).2.uninitialized_put self o (h.allocate x.size).1 with
    | .ok (uninit, h2) =>
      if uninit ≠ (h.allocate x.size).1 then .abort
      else
        match h2.clone_ o uninit with
        | .ok (result, h3) =>
          if result ≠ uninit then .abort
          else
            match h3.incMemo o with
            | none => .abort
            | some h4 =>
              match h4.incShared result with
              | none => .abort
              | some h5 => .ok (result, h5)
        | .abort => .abort
        | .timeout => .timeout
    | .abort => .abort
    | .timeout => .timeout

/-- `LazyMemo::finish(o, from)`. -/
def finish (cfg : Config) (fuel : Nat) (h : Heap) (self o from' : Nat) :
    Outcome (Nat × Heap) :=
  if self = from' then .ok (o, h)
  else
    match resolve cfg fuel h self o from' with
    | .ok (r, h1) =>
      match h1.mapOf self with
      | none => .abort
      | some m1 =>
        match m1.get r with
        | some result => .ok (result, h1)
        | none => cloneInto h1 self r
    | .abort => .abort
    | .timeout => .timeout

/-- `LazyMemo::cross(o)`. -/
def cross (h : Heap) (self o : Nat) : Outcome (Nat × Heap) :=
  match h.mapOf self with
  | none => .abort
  | some m =>
    match m.get o with
    | some result => .ok (result, h)
    | none => cloneInto h self o

/-! ## Context trees -/

/-- The tree structure of the arena: parent pointer and generation of every
context.  No member function other than the constructors changes it. -/
def Heap.links (h : Heap) : List (Option Nat × Nat) :=
  h.memos.map (fun t => (t.parent, t.gen))

/-- Context `i` is as a constructor leaves it: a root has generation 0, and the
parent of a child was constructed before the child. -/
def Heap.parentOK (h : Heap) (i : Nat) : Bool :=
  match h.memos[i]? with
  | none => true
  | some t =>
    match t.parent with
    | none => t.gen == 0
    | some p => decide (p < i)

/-- Arenas whose parent links are as the two constructors leave them. -/
def Heap.WellFormed (h : Heap) : Prop :=
  ∀ i, i < h.memos.length → h.parentOK i = true

instance Heap.decidableWellFormed (h : Heap) : Decidable h.WellFormed := by
  unfold Heap.WellFormed; infer_instance

/-- Context `i` satisfies the generation invariant: a root has generation 0 and
no parent, a child has the generation of its parent plus one. -/
def Heap.genOK (h : Heap) (i : Nat) : Bool :=
  match h.memos[i]? with
  | none => true
  | some t =>
    match t.parent with
    | none => t.gen == 0
    | some p =>
      match h.memos[p]? with
      | none => false
      | some tp => decide (p < i) && t.gen == tp.gen + 1

/-- Context trees that satisfy the generation invariant. -/
def Heap.Tree (h : Heap) : Prop :=
  ∀ i, i < h.memos.length → h.genOK i = true

instance Heap.decidableTree (h : Heap) : Decidable h.Tree := by
  unfold Heap.Tree; infer_instance

/-- The context reached from `c` by following the parent link `k` times. -/
def ancestorAt (h : Heap) : Nat → Nat → Option Nat
  | 0, c => if c < h.memos.length then some c else none
  | k + 1, c => (h.getParent c).bind (ancestorAt h k)

/-- `b` is a strict ancestor of `a`: it is reached from `a` by following the
parent link one or more times. -/
def StrictAncestor (h : Heap) (b a : Nat) : Prop :=
  ∃ k, 0 < k ∧ ancestorAt h k a = some b

/-- Arenas produced by the two constructors alone, starting from no context. -/
inductive Built : Heap → Prop where
  | empty (objs : List (Option LazyAny)) : Built { memos := [], objs := objs }
  | root (h : Heap) : Built h → Built h.newRoot.2
  | child (h : Heap) (parent c : Nat) (h1 : Heap) :
      Built h → h.newChild parent = .ok (c, h1) → Built h1

/-- A root followed by `n` successive forks, each of the newest context. -/
def forkChain : Nat → Heap
  | 0 => { memos := [LazyMemo.mkRoot], objs := [] }
  | n + 1 =>
    match (forkChain n).newChild n with
    | .ok (_, h) => h
    | _ => forkChain n

/-- The test `gen % (unsigned)CLONE_MEMO_DELTA == 0u` under `ENABLE_CLONE_MEMO`:
contexts of such a generation memoise in `source`. -/
def Config.memoAt (cfg : Config) (gen : Nat) : Prop :=
  cfg.ENABLE_CLONE_MEMO = true ∧ gen % cfg.CLONE_MEMO_DELTA = 0

instance Config.decidableMemoAt (cfg : Config) (gen : Nat) : Decidable (cfg.memoAt gen) := by
  unfold Config.memoAt; infer_instance

/-- The configuration `cfg` with the ancestry cache compiled out. -/
def Config.noAncestryMemo (cfg : Config) : Config :=
  { cfg with ENABLE_ANCESTRY_MEMO := false }

/-- The configuration `cfg` with the clone-memo shortcut compiled out. -/
def Config.noCloneMemo (cfg : Config) : Config :=
  { cfg with ENABLE_CLONE_MEMO := false }

/-- The heap with every ancestry cache emptied: all that `hasAncestor` leaves
alone. -/
def Heap.withoutCaches (h : Heap) : Heap :=
  { h with memos := h.memos.map (fun t => { t with a := [] }) }

/-- The plain parent-chain walk: `hasAncestor` compiled without the cache. -/
def walk (cfg : Config) (fuel : Nat) (h : Heap) (self memo : Nat) : Outcome Bool :=
  match hasAncestor cfg.noAncestryMemo fuel h self memo with
  | .ok (b, _) => .ok b
  | .abort => .abort
  | .timeout => .timeout

/-- Every entry of context `i`'s ancestry cache is a context for which the
plain parent-chain walk from `i` answers true. -/
def Heap.cacheOK (cfg : Config) (h : Heap) (i : Nat) : Bool :=
  match h.memos[i]? with
  | none => true
  | some t => t.a.all (fun x => decide (walk cfg (i + 1) h i x = .ok true))

/-- The ancestry caches hold only answers of the plain walk. -/
def Heap.CacheOK (cfg : Config) (h : Heap) : Prop :=
  ∀ i, i < h.memos.length → h.cacheOK cfg i = true

instance Heap.decidableCacheOK (cfg : Config) (h : Heap) : Decidable (h.CacheOK cfg) := by
  unfold Heap.CacheOK; infer_instance

/-- A sequence of `hasAncestor` queries `(a, b)`, asking `a->hasAncestor(b)`,
run one after the other; returns the answers. -/
def runQueries (cfg : Config) (fuel : Nat) : Heap → List (Nat × Nat) → Outcome (List Bool × Heap)
  | h, [] => .ok ([], h)
  | h, (a, b) :: qs =>
    match hasAncestor cfg fuel h a b with
    | .ok (r, h1) =>
      match runQueries cfg fuel h1 qs with
      | .ok (rs, h2) => .ok (r :: rs, h2)
      | .abort => .abort
      | .timeout => .timeout
    | .abort => .abort
    | .timeout => .timeout

/-- The result of call number `n + 1` in a row of identical `get(o, from)`
calls on `self`, with the heap after it. -/
def getRepeated (cfg : Config) (fuel self o from' : Nat) : Nat → Heap → Outcome (Nat × Heap)
  | 0, h => get cfg fuel h self o from'
  | n + 1, h =>
    match get cfg fuel h self o from' with
    | .ok (_, h1) => getRepeated cfg fuel self o from' n h1
    | .abort => .abort
    | .timeout => .timeout

/-- A call of one of the five resolving member functions. -/
inductive Call where
  | get (self o from' : Nat)
  | pull (self o from' : Nat)
  | finish (self o from' : Nat)
  | cross (self o : Nat)
  | source (self o from' : Nat)
deriving DecidableEq, Repr

/-- Perform one call. -/
def step (cfg : Config) (fuel : Nat) (h : Heap) : Call → Outcome (Nat × Heap)
  | .get self o from' => get cfg fuel h self o from'
  | .pull self o from' => pull cfg fuel h self o from'
  | .finish self o from' => finish cfg fuel h self o from'
  | .cross self o => cross h self o
  | .source self o from' => source cfg fuel h self o from'

/-- Perform a sequence of calls; returns the object each call returned. -/
def run (cfg : Config) (fuel : Nat) : Heap → List Call → Outcome (List Nat × Heap)
  | h, [] => .ok ([], h)
  | h, c :: cs =>
    match step cfg fuel h c with
    | .ok (x, h1) =>
      match run cfg fuel h1 cs with
      | .ok (xs, h2) => .ok (x :: xs, h2)
      | .abort => .abort
      | .timeout => .timeout
    | .abort => .abort
    | .timeout => .timeout

/-- States reachable from `h0` by calls of the five member functions. -/
inductive Reachable (cfg : Config) (fuel : Nat) (h0 : Heap) : Heap → Prop where
  | init : Reachable cfg fuel h0 h0
  | call (h : Heap) (c : Call) (x : Nat) (h1 : Heap) :
      Reachable cfg fuel h0 h → step cfg fuel h c = .ok (x, h1) → Reachable cfg fuel h0 h1

/-- The keys of a mapping. -/
def Map.keys (m : Map) : List Nat := m.entries.map Prod.fst

/-- No context's mapping holds two entries for one key. -/
def Heap.KeysNodup (h : Heap) : Prop :=
  ∀ t, t ∈ h.memos → t.m.keys.Nodup

instance Heap.decidableKeysNodup (h : Heap) : Decidable h.KeysNodup := by
  unfold Heap.KeysNodup; infer_instance

/-- Every key and every value of every mapping is a constructed object. -/
def Heap.MapsValid (h : Heap) : Prop :=
  ∀ t, t ∈ h.memos → ∀ e, e ∈ t.m.entries → (h.obj e.1).isSome = true ∧ (h.obj e.2).isSome = true

instance Heap.decidableMapsValid (h : Heap) : Decidable h.MapsValid := by
  unfold Heap.MapsValid; infer_instance

/-- `b` is `a` or an ancestor of `a`. -/
def OnChain (h : Heap) (b a : Nat) : Prop :=
  ∃ k, ancestorAt h k a = some b

/-- The entry for `key` in the mapping of context `c`. -/
def Heap.entry (h : Heap) (c key : Nat) : Option Nat :=
  (h.mapOf c).bind (fun m => m.get key)

/-- The context whose mapping a call may extend. -/
def Call.self : Call → Nat
  | .get self _ _ => self
  | .pull self _ _ => self
  | .finish self _ _ => self
  | .cross self _ => self
  | .source self _ _ => self

/-- The heap `h1` holds the tree structure of `h`, keeps every entry of every
mapping of `h`, and has no duplicate key if `h` has none. -/
def Grows (h h1 : Heap) : Prop :=
  h1.links = h.links ∧ (h.KeysNodup → h1.KeysNodup) ∧
  ∀ c key v, h.entry c key = some v → h1.entry c key = some v

/-- No context that memoises in `source` holds a mapping entry. -/
def Heap.MemoLevelsEmpty (cfg : Config) (h : Heap) : Prop :=
  ∀ t, t ∈ h.memos → cfg.memoAt t.gen → t.m.entries = []

instance Heap.decidableMemoLevelsEmpty (cfg : Config) (h : Heap) :
    Decidable (h.MemoLevelsEmpty cfg) := by
  unfold Heap.MemoLevelsEmpty; infer_instance

/-- The object a call returns, without the heap. -/
def resultOf : Outcome (Nat × Heap) → Outcome Nat
  | .ok (x, _) => .ok x
  | .abort => .abort
  | .timeout => .timeout

/-- The object argument of a call. -/
def Call.object : Call → Nat
  | .get _ o _ => o
  | .pull _ o _ => o
  | .finish _ o _ => o
  | .cross _ o => o
  | .source _ o _ => o

/-- What a call on `self` lets its caller observe of `self`: the returned
object, the mapping of `self` and the object storage. -/
def viewOf (self : Nat) : Outcome (Nat × Heap) → Outcome (Nat × Option Map × List (Option LazyAny))
  | .ok (x, h) => .ok (x, h.mapOf self, h.objs)
  | .abort => .abort
  | .timeout => .timeout

/-- A three-context chain `0 <- 1 <- 2` with one frozen object at address 0 and
a mutable object at address 1. -/
def exampleHeap : Heap :=
  { memos := [LazyMemo.mkRoot, LazyMemo.mkChild 0 LazyMemo.mkRoot,
      LazyMemo.mkChild 1 (LazyMemo.mkChild 0 LazyMemo.mkRoot)],
    objs := [some { frozen := true, size := 8, sharedCount := 1, memoCount := 0 },
      some { frozen := false, size := 8, sharedCount := 1, memoCount := 0 }] }

/-- The chain `0 <- 1 <- 2 <- 3` built by three forks, with one frozen object at
address 0. -/
def exampleChain : Heap :=
  { forkChain 3 with
    objs := [some { frozen := true, size := 8, sharedCount := 1, memoCount := 0 }] }

/-- Both caches compiled out. -/
def cfgOff : Config :=
  { ENABLE_ANCESTRY_MEMO := false, ANCESTRY_MEMO_DELTA := 1,
    ENABLE_CLONE_MEMO := false, CLONE_MEMO_DELTA := 1 }

/-- Both caches compiled in, with interval 1. -/
def cfgOn : Config :=
  { ENABLE_ANCESTRY_MEMO := true, ANCESTRY_MEMO_DELTA := 1,
    ENABLE_CLONE_MEMO := true, CLONE_MEMO_DELTA := 1 }

/-- Both caches compiled in, with interval 2. -/
def cfgEvery2 : Config :=
  { ENABLE_ANCESTRY_MEMO := true, ANCESTRY_MEMO_DELTA := 2,
    ENABLE_CLONE_MEMO := true, CLONE_MEMO_DELTA := 2 }

/-- No context on the chain of `self`, `self` included, that memoises in `source`
holds an entry for `o`. -/
def NoMemoEntry (cfg : Config) (h : Heap) (self o : Nat) : Prop :=
  ∀ k a t, ancestorAt h k self = some a → h.memos[a]? = some t → cfg.memoAt t.gen →
    t.m.get o = none

/-- The heap after `get(0, root)` on context 3 of `exampleChain` with the
clone-memo shortcut of interval 1: contexts 1 and 2 hold the memo entry
`0 -> 0`. -/
def exampleMemoised : Heap :=
  match get cfgOn 4 exampleChain 3 0 0 with
  | .ok (_, h) => h
  | _ => exampleChain

/-! ## Forward contexts

The atomic operations act on the current state, as they do when one thread
runs. -/

/-- `isFrozen()` of a context. -/
def Heap.isFrozenMemo (h : Heap) (c : Nat) : Option Bool :=
  (h.memos[c]?).map (fun t => t.frozen)

/-- `incShared()` of a context. -/
def Heap.incSharedMemo (h : Heap) (c : Nat) : Option Heap :=
  (h.memos[c]?).map (fun t => h.setMemo c { t with sharedCount := t.sharedCount + 1 })

/-- Modelled from the spec: `decShared()` of a context, a member of the counted
base class (not among the sources): it takes one from the shared count, which
must be positive.  The destruction that follows when the count reaches zero is
the separate step `destructor`. -/
def Heap.decSharedMemo (h : Heap) (c : Nat) : Option Heap :=
  match h.memos[c]? with
  | none => none
  | some t =>
    if t.sharedCount = 0 then none
    else some (h.setMemo c { t with sharedCount := t.sharedCount - 1 })

/-- `forward.compare_exchange_strong(expected, desired)` on context `self`:
whether the exchange took place, the value left in `expected`, and the heap. -/
def Heap.casForward (h : Heap) (self : Nat) (expected desired : Option Nat) :
    Option (Bool × Option Nat × Heap) :=
  match h.memos[self]? with
  | none => none
  | some t =>
    if t.forward = expected then
      some (true, expected, h.setMemo self { t with forward := desired })
    else some (false, t.forward, h)

/-- Modelled from the spec: `create_(parent)`, the virtual constructor that is
generated per context type (not among the sources): it constructs a context
with `LazyMemo(LazyMemo* parent)`. -/
def Heap.create_ (h : Heap) (parent : Nat) : Outcome (Nat × Heap) := h.newChild parent

/-- Modelled from the spec: `freeze()` of a context (not among the sources), as
far as `isFrozen()` shows it: the context is marked as no longer the target of
direct clone insertion. -/
def Heap.freezeMemo (h : Heap) (c : Nat) : Option Heap :=
  (h.memos[c]?).map (fun t => h.setMemo c { t with frozen := true })

/-- `LazyMemo::getForward()`. -/
def getForward : Nat → Heap → Nat → Outcome (Nat × Heap)
  | 0, _, _ => .timeout
  | fuel + 1, h, self =>
    match h.isFrozenMemo self with
    | none => .abort
    | some false => .ok (self, h)
    | some true =>
      match (h.memos[self]?).bind (fun t => t.forward) with
      | some forward1 => getForward fuel h forward1
      | none =>
        match h.create_ self with
        | .ok (forward2, h1) =>
          match h1.incSharedMemo forward2 with
          | none => .abort
          | some h2 =>
            match h2.casForward self none (some forward2) with
            | none => .abort
            | some (true, _, h3) => .ok (forward2, h3)
            | some (false, none, _) => .abort
            | some (false, some forward1, h3) =>
              match h3.decSharedMemo forward2 with
              | none => .abort
              | some h4 => getForward fuel h4 forward1
        | .abort => .abort
        | .timeout => .timeout

/-- `LazyMemo::pullForward()`. -/
def pullForward : Nat → Heap → Nat → Outcome (Nat × Heap)
  | 0, _, _ => .timeout
  | fuel + 1, h, self =>
    match h.isFrozenMemo self with
    | none => .abort
    | some false => .ok (self, h)
    | some true =>
      match (h.memos[self]?).bind (fun t => t.forward) with
      | some forward1 => pullForward fuel h forward1
      | none => .ok (self, h)

/-- `LazyMemo::onDecShared()`. -/
def onDecShared (h : Heap) (self : Nat) : Outcome Heap :=
  match h.memos[self]? with
  | none => .abort
  | some t =>
    match t.forward with
    | none => .ok h
    | some forward1 =>
      if t.sharedCount = 2 then
        match h.casForward self (some forward1) none with
        | none => .abort
        | some (true, _, h1) =>
          match h1.decSharedMemo forward1 with
          | none => .abort
          | some h2 => .ok h2
        | some (false, _, h1) => .ok h1
      else .ok h

/-- `LazyMemo::~LazyMemo()`. -/
def destructor (h : Heap) (self : Nat) : Outcome Heap :=
  match h.memos[self]? with
  | none => .abort
  | some t =>
    match t.forward with
    | none => .ok h
    | some forward1 =>
      match h.decSharedMemo forward1 with
      | none => .abort
      | some h1 => .ok h1

/-- The shared count of context `self` as some owner of references leaves it. -/
def Heap.setShared (h : Heap) (self n : Nat) : Heap :=
  match h.memos[self]? with
  | none => h
  | some t => h.setMemo self { t with sharedCount := n }

/-- The rest of the life of context `self`: `onDecShared` runs once for every
entry of `counts`, each time with `numShared()` equal to that entry, and then
the destructor runs. -/
def lifetime (h : Heap) (self : Nat) : List Nat → Outcome Heap
  | [] => destructor h self
  | n :: counts =>
    match onDecShared (h.setShared self n) self with
    | .ok h1 => lifetime h1 self counts
    | .abort => .abort
    | .timeout => .timeout

/-- The forward link of context `i`, if set, points to a context that was
constructed after `i`. -/
def Heap.forwardOK (h : Heap) (i : Nat) : Bool :=
  match h.memos[i]? with
  | none => true
  | some t =>
    match t.forward with
    | none => true
    | some f => decide (i < f) && decide (f < h.memos.length)

/-- Arenas whose forward links are as `getForward` leaves them. -/
def Heap.ForwardOK (h : Heap) : Prop :=
  ∀ i, i < h.memos.length → h.forwardOK i = true

instance Heap.decidableForwardOK (h : Heap) : Decidable h.ForwardOK := by
  unfold Heap.ForwardOK; infer_instance

/-- `x` is reached from `c` by following forward links, each of them read in a
frozen context. -/
inductive ForwardPath (h : Heap) : Nat → Nat → Prop where
  | here (c : Nat) : ForwardPath h c c
  | next (c f x : Nat) (t : LazyMemo) : h.memos[c]? = some t → t.frozen = true →
      t.forward = some f → ForwardPath h f x → ForwardPath h c x

/-- Context `x` ends a forward chain: it is not frozen, or it is frozen with a
null forward link. -/
def Heap.EndsChain (h : Heap) (x : Nat) : Prop :=
  ∃ t, h.memos[x]? = some t ∧ (t.frozen = false ∨ t.forward = none)

/-- The heap in which the frozen context `e` has been given its forward: a new
context constructed with parent `e`, holding one shared reference for the
link. -/
def Heap.withForward (h : Heap) (e : Nat) (te : LazyMemo) : Heap :=
  { memos := (h.memos ++ [{ LazyMemo.mkChild e te with sharedCount := 1 }]).set e
      ({ te with forward := some h.memos.length }),
    objs := h.objs }

/-- The result of call number `n + 1` in a row of `getForward()` calls on
`self`, with the heap after it. -/
def getForwardRepeated (fuel self : Nat) : Nat → Heap → Outcome (Nat × Heap)
  | 0, h => getForward fuel h self
  | n + 1, h =>
    match getForward fuel h self with
    | .ok (_, h1) => getForwardRepeated fuel self n h1
    | .abort => .abort
    | .timeout => .timeout

/-- One frozen root context without a forward, held by one shared reference. -/
def exampleFrozen : Heap :=
  { memos := [{ LazyMemo.mkRoot with frozen := true, sharedCount := 1 }], objs := [] }

/-- The heap `exampleFrozen` after `getForward()` on context 0. -/
def exampleForwarded : Heap := exampleFrozen.withForward 0
  { LazyMemo.mkRoot with frozen := true, sharedCount := 1 }

/-- The heap `exampleForwarded` after the forward context 1 has been frozen. -/
def exampleForwardFrozen : Heap :=
  match exampleForwarded.freezeMemo 1 with
  | some h => h
  | none => exampleForwarded

/-- The heap `exampleForwarded` at a moment when two shared references to
context 0 are counted. -/
def exampleLinked : Heap := exampleForwarded.setShared 0 2

/-! ## Cycle collector -/

/-- Modelled from the spec: the bit-flag word of a tracked object.  The flag
constants are not among the sources; the spec gives six disjoint flags, so the
word is kept as these six bits and the remaining bits `rest`. -/
structure Flags where
  marked : Bool
  possibleRoot : Bool
  buffered : Bool
  scanned : Bool
  reached : Bool
  collected : Bool
  rest : Nat
deriving DecidableEq, Repr

/-- A member of an object as the visitors see it, by static type: a value that
is not a tracked object, a `Shared<T>` handle (with `is_acyclic<T>::value` and
the pointer it holds), a `std::optional`, or an `Array`.  Tuples are not
represented. -/
inductive Field where
  | value : Field
  | shared (acyclic : Bool) (ptr : Option Nat) : Field
  | optional (o : Option Field) : Field
  | array (elems : List Field) : Field
deriving Repr

/-- A tracked object (`Any`) as the cycle collector sees it: the flag word
(`flags` in `Marker`, `f_` in `BiconnectedCollector`), the count that
`decSharedReachable()` works on, and the members. -/
structure Any where
  flags : Flags
  reachable : Int
  fields : List Field
deriving Repr

/-- The state of a collector pass: the objects, by address, and the objects on
which `accept_` has been invoked so far, the latest first. -/
structure Pass where
  objs : List Any
  accepted : List Nat
deriving Repr

/-- Replace the object at address `o`. -/
def Pass.set (p : Pass) (o : Nat) (x : Any) : Pass :=
  { p with objs := p.objs.set o x }

mutual
/-- Modelled from the spec: the children of a member, in the order in which a
traversal reaches them: the referents of the non-null handles of types that can
form cycles, through optionals and arrays. -/
def Field.children : Field → List Nat
  | .value => []
  | .shared true _ => []
  | .shared false none => []
  | .shared false (some o) => [o]
  | .optional none => []
  | .optional (some f) => f.children
  | .array elems => Field.childrenOf elems
/-- The children of a list of members. -/
def Field.childrenOf : List Field → List Nat
  | [] => []
  | f :: fs => f.children ++ Field.childrenOf fs
end

/-- The children of an object. -/
def Any.children (x : Any) : List Nat := Field.childrenOf x.fields

/-- The children of the object at address `o`. -/
def Pass.children (p : Pass) (o : Nat) : List Nat :=
  match p.objs[o]? with
  | none => []
  | some x => x.children

/-- Whether the object at address `o` has COLLECTED set. -/
def Pass.collectedAt (p : Pass) (o : Nat) : Bool :=
  match p.objs[o]? with
  | none => false
  | some x => x.flags.collected

/-- The object with COLLECTED set in its flag word: `f_.exchangeOr(COLLECTED)`. -/
def Any.collect (x : Any) : Any :=
  { x with flags := { x.flags with collected := true } }

/-- Modelled from the spec: `o->accept_(v)` with a `BiconnectedCollector` as
visitor.  The visit-children operation is generated per object type and the
member overloads of the collector are in its header (neither among the
sources): the collector visits every child of the object in turn. -/
def BiconnectedCollector.accept_ (visit : Pass → Nat → Outcome Pass) :
    Pass → List Nat → Outcome Pass
  | p, [] => .ok p
  | p, c :: cs =>
    match visit p c with
    | .ok p1 => BiconnectedCollector.accept_ visit p1 cs
    | .abort => .abort
    | .timeout => .timeout

/-- `BiconnectedCollector::visit(Any* o)`. -/
def BiconnectedCollector.visit : Nat → Pass → Nat → Outcome Pass
  | 0, _, _ => .timeout
  | fuel + 1, p, o =>
    match p.objs[o]? with
    | none => .abort
    | some x =>
      if x.flags.collected = true then .ok (p.set o x.collect)
      else
        BiconnectedCollector.accept_ (BiconnectedCollector.visit fuel)
          { objs := p.objs.set o x.collect, accepted := o :: p.accepted } x.children

/-- Every child of every object is an object of the graph. -/
def Pass.Closed (p : Pass) : Prop :=
  ∀ o, o < p.objs.length → ∀ c ∈ p.children o, c < p.objs.length

instance Pass.decidableClosed (p : Pass) : Decidable p.Closed := by
  unfold Pass.Closed; infer_instance

/-- `x` is reachable from `o`: it is `o`, or it is reachable from a child of
`o`. -/
inductive Reaches (p : Pass) : Nat → Nat → Prop where
  | here (o : Nat) : o < p.objs.length → Reaches p o o
  | step (o c x : Nat) : c ∈ p.children o → Reaches p c x → Reaches p o x

/-- Modelled from the spec: `decSharedReachable()` (not among the sources)
takes one from the reachable count of the object. -/
def Any.decSharedReachable (x : Any) : Any :=
  { x with reachable := x.reachable - 1 }

/-- The overload `visit(Arg& arg, Args&... args)` of `Marker`, called with one
argument that is an object; this is the overload that `visit(*ptr)` selects in
`visit(Shared<T>&)`: the overload `visit(Arg&)` is disabled for objects, and
`visit(T*)` takes a pointer.  Its body is `visit(arg); visit(args...);` where
`visit(arg)` selects the same overload again and `visit(args...)` is
`visit()`. -/
def Marker.visitArgs : Nat → Pass → Nat → Outcome Pass
  | 0, _, _ => .timeout
  | fuel + 1, p, o =>
    match Marker.visitArgs fuel p o with
    | .ok p1 => .ok p1
    | .abort => .abort
    | .timeout => .timeout

/-- The overloads of `Marker::visit` for members: `visit(Arg&)` for values
that are not objects, `visit(Shared<T>&)`, `visit(std::optional<T>&)` and
`visit(Array<T,F>&)`. -/
def Marker.visitField : Nat → Pass → Field → Outcome Pass
  | 0, _, _ => .timeout
  | _ + 1, p, .value => .ok p
  | fuel + 1, p, .shared acyclic ptr =>
    if acyclic = true then .ok p
    else
      match ptr with
      | none => .ok p
      | some o => Marker.visitArgs fuel p o
  | _ + 1, p, .optional none => .ok p
  | fuel + 1, p, .optional (some f) => Marker.visitField fuel p f
  | fuel + 1, p, .array elems =>
    elems.foldl (fun acc e =>
      match acc with
      | .ok p1 => Marker.visitField fuel p1 e
      | .abort => .abort
      | .timeout => .timeout) (.ok p)

/-- Modelled from the spec: `o->accept_(v)` with a `Marker` as visitor (the
visit-children operation is generated per object type, not among the
sources): the marker visits every member of the object in turn. -/
def Marker.accept_ (fuel : Nat) : Pass → List Field → Outcome Pass
  | p, [] => .ok p
  | p, f :: fs =>
    match Marker.visitField fuel p f with
    | .ok p1 => Marker.accept_ fuel p1 fs
    | .abort => .abort
    | .timeout => .timeout

/-- The flag word with MARKED set: `flags.exchangeOr(MARKED)`. -/
def Any.mark (x : Any) : Any :=
  { x with flags := { x.flags with marked := true } }

/-- The flag word after
`flags.maskAnd(~(POSSIBLE_ROOT|BUFFERED|SCANNED|REACHED|COLLECTED))`. -/
def Any.clearTransient (x : Any) : Any :=
  { x with
    flags :=
      { x.flags with
        possibleRoot := false
        buffered := false
        scanned := false
        reached := false
        collected := false } }

/-- `Marker::visit(T* o)`. -/
def Marker.visit (fuel : Nat) (p : Pass) (o : Nat) : Outcome Pass :=
  match p.objs[o]? with
  | none => .abort
  | some x =>
    if x.decSharedReachable.flags.marked = true then .ok (p.set o x.decSharedReachable.mark)
    else
      Marker.accept_ fuel
        { objs := p.objs.set o x.decSharedReachable.mark.clearTransient,
          accepted := o :: p.accepted } x.fields

/-- A flag word with no flag set. -/
def Flags.clear : Flags :=
  { marked := false, possibleRoot := false, buffered := false, scanned := false,
    reached := false, collected := false, rest := 0 }

/-- A handle to the object at address `o`, of a type that can form cycles. -/
def Field.to (o : Nat) : Field := .shared false (some o)

/-- Four objects: 0 refers to 1 and 2, both of which refer to 0 and to each
other; 3 refers to 0 and is referred to by none. -/
def exampleGraph : Pass :=
  { objs := [{ flags := Flags.clear, reachable := 2, fields := [Field.to 1, .value, Field.to 2] },
      { flags := Flags.clear, reachable := 2,
        fields := [.array [Field.to 2, .optional (some (Field.to 0))]] },
      { flags := Flags.clear, reachable := 2, fields := [Field.to 1, Field.to 0, Field.to 1] },
      { flags := Flags.clear, reachable := 1, fields := [Field.to 0] }],
    accepted := [] }

/-- An object with one handle to a second object, which has no members. -/
def exampleEdge : Pass :=
  { objs := [{ flags := Flags.clear, reachable := 1, fields := [Field.to 1] },
      { flags := Flags.clear, reachable := 1, fields := [] }],
    accepted := [] }

/-- An object with two handles to a second object, which has no members. -/
def exampleTwoRefs : Pass :=
  { objs := [{ flags := Flags.clear, reachable := 1, fields := [Field.to 1, Field.to 1] },
      { flags := Flags.clear, reachable := 2, fields := [] }],
    accepted := [] }

/-- Two objects that refer only to each other; `external` is the number of
strong references to object 0 from outside the pair. -/
def examplePair (external : Int) : Pass :=
  { objs := [{ flags := Flags.clear, reachable := 1 + external, fields := [Field.to 1] },
      { flags := Flags.clear, reachable := 1, fields := [Field.to 0] }],
    accepted := [] }

/-- The pass state `q` differs from `p` at most in COLLECTED flags that are set
in `q`, and in the record of visits. -/
def Pass.Extends (p q : Pass) : Prop :=
  q.objs.length = p.objs.length ∧
  ∀ (i : Nat) (x : Any), p.objs[i]? = some x →
    q.objs[i]? = some x ∨ q.objs[i]? = some x.collect

/-- From `p` to `q` the collector has invoked `accept_` on the objects `new`,
once each: they are the objects that have COLLECTED in `q` and not in `p`, and
every child of each of them has COLLECTED in `q`. -/
def Pass.Swept (p q : Pass) (new : List Nat) : Prop :=
  p.Extends q ∧ q.accepted = new ++ p.accepted ∧ new.Nodup ∧
  (∀ i, i ∈ new ↔ (p.collectedAt i = false ∧ q.collectedAt i = true)) ∧
  (∀ i, i ∈ new → ∀ c, c ∈ p.children i → q.collectedAt c = true)

/-! ## Ranges -/

/-- The range of `int64_t`. -/
def INT64_MIN : Int := -9223372036854775808

/-- The largest `int64_t`. -/
def INT64_MAX : Int := 9223372036854775807

/-- Whether `x` is a value of `int64_t`. -/
def isInt64 (x : Int) : Prop := INT64_MIN ≤ x ∧ x ≤ INT64_MAX

instance decidableIsInt64 (x : Int) : Decidable (isInt64 x) := by
  unfold isInt64; infer_instance

/-- The `int64_t` value of an arithmetic result: two's complement wrap-around,
which is what the compiled code computes where the language leaves signed
overflow undefined. -/
def wrapInt64 (x : Int) : Int :=
  (x + 9223372036854775808) % 18446744073709551616 - 9223372036854775808

/-- Modelled from the spec: `Range<>` with run-time offset and length (its
header is not among the sources), as constructed by `Range<>(offset, length)`. -/
structure Range where
  offset : Int
  length : Int
deriving DecidableEq, Repr

/-- `make_range(start, end)`. -/
def make_range (start end' : Int) : Range :=
  { offset := start,
    length := max (0 : Int) (wrapInt64 (wrapInt64 (end' - start) + 1)) }

/-- One object that holds a handle to itself. -/
def exampleSelf : Pass :=
  { objs := [{ flags := Flags.clear, reachable := 1, fields := [Field.to 0] }],
    accepted := [] }

/-! ## The compiler's Cloner (`bi::Cloner`)

The headers of the node classes are not among the sources.  Modelled from the
spec: a node has the members that `Cloner.cpp` reads, its constructor takes
them in the order in which `Cloner.cpp` passes them and stores each in the
member of the same name, and `o->accept(this)` calls the `clone` overload for
the class of `o`.  A name is the `Name*` pointer, an annotation the value of
the enumeration, a location the `Location*` pointer, null or not.  The static
distinction between `Expression*`, `Statement*` and `Type*` is not
represented. -/

/-- A node of the abstract syntax tree: one constructor for each class that
`Cloner.cpp` clones, with the arguments of its constructor. -/
inductive Node where
  | EmptyExpression (loc : Option Nat) : Node
  | ExpressionList (head : Node) (tail : Node) (loc : Option Nat) : Node
  | LiteralBool (str : String) (loc : Option Nat) : Node
  | LiteralInt64 (str : String) (loc : Option Nat) : Node
  | LiteralDouble (str : String) (loc : Option Nat) : Node
  | LiteralString (str : String) (loc : Option Nat) : Node
  | Parentheses (single : Node) (loc : Option Nat) : Node
  | Sequence (single : Node) (loc : Option Nat) : Node
  | Cast (returnType : Node) (single : Node) (loc : Option Nat) : Node
  | Call (single : Node) (args : Node) (loc : Option Nat) : Node
  | BinaryCall (left : Node) (name : Nat) (right : Node) (loc : Option Nat) : Node
  | UnaryCall (name : Nat) (single : Node) (loc : Option Nat) : Node
  | Assign (left : Node) (name : Nat) (right : Node) (loc : Option Nat) : Node
  | Slice (single : Node) (brackets : Node) (loc : Option Nat) : Node
  | Query (single : Node) (loc : Option Nat) : Node
  | Get (single : Node) (loc : Option Nat) : Node
  | GetReturn (single : Node) (loc : Option Nat) : Node
  | Spin (single : Node) (loc : Option Nat) : Node
  | LambdaFunction (params : Node) (returnType : Node) (braces : Node) (loc : Option Nat) : Node
  | Span (single : Node) (loc : Option Nat) : Node
  | Index (single : Node) (loc : Option Nat) : Node
  | Range (left : Node) (right : Node) (loc : Option Nat) : Node
  | Member (left : Node) (right : Node) (loc : Option Nat) : Node
  | This (loc : Option Nat) : Node
  | Super (loc : Option Nat) : Node
  | Global (single : Node) (loc : Option Nat) : Node
  | Nil (loc : Option Nat) : Node
  | Parameter ( annotation : Nat) (name : Nat) (type : Node) (value : Node) (loc : Option Nat)
      : Node
  | Generic ( annotation : Nat) (name : Nat) (type : Node) (loc : Option Nat) : Node
  | NamedExpression (name : Nat) (typeArgs : Node) (loc : Option Nat) : Node
  | EmptyStatement (loc : Option Nat) : Node
  | Braces (single : Node) (loc : Option Nat) : Node
  | StatementList (head : Node) (tail : Node) (loc : Option Nat) : Node
  | Assume (left : Node) (name : Nat) (right : Node) (loc : Option Nat) : Node
  | GlobalVariable ( annotation : Nat) (name : Nat) (type : Node) (brackets : Node)
      (args : Node) (value : Node) (loc : Option Nat) : Node
  | MemberVariable ( annotation : Nat) (name : Nat) (type : Node) (brackets : Node)
      (args : Node) (value : Node) (loc : Option Nat) : Node
  | LocalVariable ( annotation : Nat) (name : Nat) (type : Node) (brackets : Node) (args : Node)
      (value : Node) (loc : Option Nat) : Node
  | Function ( annotation : Nat) (name : Nat) (typeParams : Node) (params : Node)
      (returnType : Node) (braces : Node) (loc : Option Nat) : Node
  | Fiber ( annotation : Nat) (name : Nat) (typeParams : Node) (params : Node)
      (returnType : Node) (braces : Node) (loc : Option Nat) : Node
  | Program (name : Nat) (params : Node) (braces : Node) (loc : Option Nat) : Node
  | MemberFunction ( annotation : Nat) (name : Nat) (typeParams : Node) (params : Node)
      (returnType : Node) (braces : Node) (loc : Option Nat) : Node
  | MemberFiber ( annotation : Nat) (name : Nat) (typeParams : Node) (params : Node)
      (returnType : Node) (braces : Node) (loc : Option Nat) : Node
  | BinaryOperator ( annotation : Nat) (left : Node) (name : Nat) (right : Node)
      (returnType : Node) (braces : Node) (loc : Option Nat) : Node
  | UnaryOperator ( annotation : Nat) (name : Nat) (single : Node) (returnType : Node)
      (braces : Node) (loc : Option Nat) : Node
  | AssignmentOperator (single : Node) (braces : Node) (loc : Option Nat) : Node
  | ConversionOperator (returnType : Node) (braces : Node) (loc : Option Nat) : Node
  | Class ( annotation : Nat) (name : Nat) (typeParams : Node) (params : Node) (base : Node)
      (alias' : Bool) (args : Node) (braces : Node) (loc : Option Nat) : Node
  | Basic ( annotation : Nat) (name : Nat) (typeParams : Node) (base : Node) (alias' : Bool)
      (loc : Option Nat) : Node
  | ExpressionStatement (single : Node) (loc : Option Nat) : Node
  | If (cond : Node) (braces : Node) (falseBraces : Node) (loc : Option Nat) : Node
  | For ( annotation : Nat) (index : Node) (from' : Node) (to' : Node) (braces : Node)
      (loc : Option Nat) : Node
  | Parallel ( annotation : Nat) (index : Node) (from' : Node) (to' : Node) (braces : Node)
      (loc : Option Nat) : Node
  | While (cond : Node) (braces : Node) (loc : Option Nat) : Node
  | DoWhile (braces : Node) (cond : Node) (loc : Option Nat) : Node
  | Block (braces : Node) (loc : Option Nat) : Node
  | Assert (cond : Node) (loc : Option Nat) : Node
  | Return (single : Node) (loc : Option Nat) : Node
  | Yield (single : Node) (loc : Option Nat) : Node
  | Raw (name : Nat) (raw : String) (loc : Option Nat) : Node
  | EmptyType (loc : Option Nat) : Node
  | TypeList (head : Node) (tail : Node) (loc : Option Nat) : Node
  | NamedType (name : Nat) (typeArgs : Node) (loc : Option Nat) : Node
  | MemberType (left : Node) (right : Node) (loc : Option Nat) : Node
  | ArrayType (single : Node) (ndims : Int) (loc : Option Nat) : Node
  | TupleType (single : Node) (loc : Option Nat) : Node
  | FunctionType (params : Node) (returnType : Node) (loc : Option Nat) : Node
  | FiberType (returnType : Node) (yieldType : Node) (loc : Option Nat) : Node
  | OptionalType (single : Node) (loc : Option Nat) : Node
deriving Repr

/-- `bi::Cloner::clone`, one case for each overload. -/
def Cloner.clone : Node → Node
  | .EmptyExpression loc => .EmptyExpression loc
  | .ExpressionList head tail loc => .ExpressionList (Cloner.clone head) (Cloner.clone tail) loc
  | .LiteralBool str loc => .LiteralBool str loc
  | .LiteralInt64 str loc => .LiteralInt64 str loc
  | .LiteralDouble str loc => .LiteralDouble str loc
  | .LiteralString str loc => .LiteralString str loc
  | .Parentheses single loc => .Parentheses (Cloner.clone single) loc
  | .Sequence single loc => .Sequence (Cloner.clone single) loc
  | .Cast returnType single loc => .Cast (Cloner.clone returnType) (Cloner.clone single) loc
  | .Call single args loc => .Call (Cloner.clone single) (Cloner.clone args) loc
  | .BinaryCall left name right loc => .BinaryCall (Cloner.clone left) name (Cloner.clone right)
      loc
  | .UnaryCall name single loc => .UnaryCall name (Cloner.clone single) loc
  | .Assign left name right loc => .Assign (Cloner.clone left) name (Cloner.clone right) loc
  | .Slice single brackets loc => .Slice (Cloner.clone single) (Cloner.clone brackets) loc
  | .Query single loc => .Query (Cloner.clone single) loc
  | .Get single loc => .Get (Cloner.clone single) loc
  | .GetReturn single loc => .GetReturn (Cloner.clone single) loc
  | .Spin single loc => .Spin (Cloner.clone single) loc
  | .LambdaFunction params returnType braces loc => .LambdaFunction (Cloner.clone params)
      (Cloner.clone returnType) (Cloner.clone braces) loc
  | .Span single loc => .Span (Cloner.clone single) loc
  | .Index single loc => .Index (Cloner.clone single) loc
  | .Range left right loc => .Range (Cloner.clone left) (Cloner.clone right) loc
  | .Member left right loc => .Member (Cloner.clone left) (Cloner.clone right) loc
  | .This loc => .This loc
  | .Super loc => .Super loc
  | .Global single loc => .Global (Cloner.clone single) loc
  | .Nil loc => .Nil loc
  | .Parameter annotation name type value loc => .Parameter annotation name (Cloner.clone type)
      (Cloner.clone value) loc
  | .Generic annotation name type loc => .Generic annotation name (Cloner.clone type) loc
  | .NamedExpression name typeArgs loc => .NamedExpression name (Cloner.clone typeArgs) loc
  | .EmptyStatement _ => .EmptyStatement none
  | .Braces single loc => .Braces (Cloner.clone single) loc
  | .StatementList head tail loc => .StatementList (Cloner.clone head) (Cloner.clone tail) loc
  | .Assume left name right loc => .Assume (Cloner.clone left) name (Cloner.clone right) loc
  | .GlobalVariable annotation name type brackets args value loc => .GlobalVariable annotation
      name (Cloner.clone type) (Cloner.clone brackets) (Cloner.clone args) (Cloner.clone value)
      loc
  | .MemberVariable annotation name type brackets args value loc => .MemberVariable annotation
      name (Cloner.clone type) (Cloner.clone brackets) (Cloner.clone args) (Cloner.clone value)
      loc
  | .LocalVariable annotation name type brackets args value loc => .LocalVariable annotation
      name (Cloner.clone type) (Cloner.clone brackets) (Cloner.clone args) (Cloner.clone value)
      loc
  | .Function annotation name typeParams params returnType braces loc => .Function annotation
      name (Cloner.clone typeParams) (Cloner.clone params) (Cloner.clone returnType)
      (Cloner.clone braces) loc
  | .Fiber annotation name typeParams params returnType braces loc => .Fiber annotation name
      (Cloner.clone typeParams) (Cloner.clone params) (Cloner.clone returnType)
      (Cloner.clone braces) loc
  | .Program name params braces loc => .Program name (Cloner.clone params) (Cloner.clone braces)
      loc
  | .MemberFunction annotation name typeParams params returnType braces loc => .MemberFunction
      annotation name (Cloner.clone typeParams) (Cloner.clone params) (Cloner.clone returnType)
      (Cloner.clone braces) loc
  | .MemberFiber annotation name typeParams params returnType braces loc => .MemberFiber
      annotation name (Cloner.clone typeParams) (Cloner.clone params) (Cloner.clone returnType)
      (Cloner.clone braces) loc
  | .BinaryOperator annotation left name right returnType braces loc => .BinaryOperator
      annotation (Cloner.clone left) name (Cloner.clone right) (Cloner.clone returnType)
      (Cloner.clone braces) loc
  | .UnaryOperator annotation name single returnType braces loc => .UnaryOperator annotation
      name (Cloner.clone single) (Cloner.clone returnType) (Cloner.clone braces) loc
  | .AssignmentOperator single braces loc => .AssignmentOperator (Cloner.clone single)
      (Cloner.clone braces) loc
  | .ConversionOperator returnType braces loc => .ConversionOperator (Cloner.clone returnType)
      (Cloner.clone braces) loc
  | .Class annotation name typeParams params base alias' args braces loc => .Class annotation
      name (Cloner.clone typeParams) (Cloner.clone params) (Cloner.clone base) alias'
      (Cloner.clone args) (Cloner.clone braces) loc
  | .Basic annotation name typeParams base alias' loc => .Basic annotation name
      (Cloner.clone typeParams) (Cloner.clone base) alias' loc
  | .ExpressionStatement single loc => .ExpressionStatement (Cloner.clone single) loc
  | .If cond braces falseBraces loc => .If (Cloner.clone cond) (Cloner.clone braces)
      (Cloner.clone falseBraces) loc
  | .For annotation index from' to' braces loc => .For annotation (Cloner.clone index)
      (Cloner.clone from') (Cloner.clone to') (Cloner.clone braces) loc
  | .Parallel annotation index from' to' braces loc => .Parallel annotation (Cloner.clone index)
      (Cloner.clone from') (Cloner.clone to') (Cloner.clone braces) loc
  | .While cond braces loc => .While (Cloner.clone cond) (Cloner.clone braces) loc
  | .DoWhile braces cond loc => .DoWhile (Cloner.clone braces) (Cloner.clone cond) loc
  | .Block braces loc => .Block (Cloner.clone braces) loc
  | .Assert cond loc => .Assert (Cloner.clone cond) loc
  | .Return single loc => .Return (Cloner.clone single) loc
  | .Yield single loc => .Yield (Cloner.clone single) loc
  | .Raw name raw loc => .Raw name raw loc
  | .EmptyType loc => .EmptyType loc
  | .TypeList head tail loc => .TypeList (Cloner.clone head) (Cloner.clone tail) loc
  | .NamedType name typeArgs loc => .NamedType name (Cloner.clone typeArgs) loc
  | .MemberType left right loc => .MemberType (Cloner.clone left) (Cloner.clone right) loc
  | .ArrayType single ndims loc => .ArrayType (Cloner.clone single) ndims loc
  | .TupleType single loc => .TupleType (Cloner.clone single) loc
  | .FunctionType params returnType loc => .FunctionType (Cloner.clone params)
      (Cloner.clone returnType) loc
  | .FiberType returnType yieldType loc => .FiberType (Cloner.clone returnType)
      (Cloner.clone yieldType) loc
  | .OptionalType single loc => .OptionalType (Cloner.clone single) loc

/-- The class of a node. -/
def Node.kind : Node → String
  | .EmptyExpression _ => "EmptyExpression"
  | .ExpressionList _ _ _ => "ExpressionList"
  | .LiteralBool _ _ => "Literal<bool>"
  | .LiteralInt64 _ _ => "Literal<int64_t>"
  | .LiteralDouble _ _ => "Literal<double>"
  | .LiteralString _ _ => "Literal<const char*>"
  | .Parentheses _ _ => "Parentheses"
  | .Sequence _ _ => "Sequence"
  | .Cast _ _ _ => "Cast"
  | .Call _ _ _ => "Call"
  | .BinaryCall _ _ _ _ => "BinaryCall"
  | .UnaryCall _ _ _ => "UnaryCall"
  | .Assign _ _ _ _ => "Assign"
  | .Slice _ _ _ => "Slice"
  | .Query _ _ => "Query"
  | .Get _ _ => "Get"
  | .GetReturn _ _ => "GetReturn"
  | .Spin _ _ => "Spin"
  | .LambdaFunction _ _ _ _ => "LambdaFunction"
  | .Span _ _ => "Span"
  | .Index _ _ => "Index"
  | .Range _ _ _ => "Range"
  | .Member _ _ _ => "Member"
  | .This _ => "This"
  | .Super _ => "Super"
  | .Global _ _ => "Global"
  | .Nil _ => "Nil"
  | .Parameter _ _ _ _ _ => "Parameter"
  | .Generic _ _ _ _ => "Generic"
  | .NamedExpression _ _ _ => "NamedExpression"
  | .EmptyStatement _ => "EmptyStatement"
  | .Braces _ _ => "Braces"
  | .StatementList _ _ _ => "StatementList"
  | .Assume _ _ _ _ => "Assume"
  | .GlobalVariable _ _ _ _ _ _ _ => "GlobalVariable"
  | .MemberVariable _ _ _ _ _ _ _ => "MemberVariable"
  | .LocalVariable _ _ _ _ _ _ _ => "LocalVariable"
  | .Function _ _ _ _ _ _ _ => "Function"
  | .Fiber _ _ _ _ _ _ _ => "Fiber"
  | .Program _ _ _ _ => "Program"
  | .MemberFunction _ _ _ _ _ _ _ => "MemberFunction"
  | .MemberFiber _ _ _ _ _ _ _ => "MemberFiber"
  | .BinaryOperator _ _ _ _ _ _ _ => "BinaryOperator"
  | .UnaryOperator _ _ _ _ _ _ => "UnaryOperator"
  | .AssignmentOperator _ _ _ => "AssignmentOperator"
  | .ConversionOperator _ _ _ => "ConversionOperator"
  | .Class _ _ _ _ _ _ _ _ _ => "Class"
  | .Basic _ _ _ _ _ _ => "Basic"
  | .ExpressionStatement _ _ => "ExpressionStatement"
  | .If _ _ _ _ => "If"
  | .For _ _ _ _ _ _ => "For"
  | .Parallel _ _ _ _ _ _ => "Parallel"
  | .While _ _ _ => "While"
  | .DoWhile _ _ _ => "DoWhile"
  | .Block _ _ => "Block"
  | .Assert _ _ => "Assert"
  | .Return _ _ => "Return"
  | .Yield _ _ => "Yield"
  | .Raw _ _ _ => "Raw"
  | .EmptyType _ => "EmptyType"
  | .TypeList _ _ _ => "TypeList"
  | .NamedType _ _ _ => "NamedType"
  | .MemberType _ _ _ => "MemberType"
  | .ArrayType _ _ _ => "ArrayType"
  | .TupleType _ _ => "TupleType"
  | .FunctionType _ _ _ => "FunctionType"
  | .FiberType _ _ _ => "FiberType"
  | .OptionalType _ _ => "OptionalType"

/-- The children of a node, in the order of the constructor arguments. -/
def Node.children : Node → List Node
  | .EmptyExpression _ => []
  | .ExpressionList head tail _ => [head, tail]
  | .LiteralBool _ _ => []
  | .LiteralInt64 _ _ => []
  | .LiteralDouble _ _ => []
  | .LiteralString _ _ => []
  | .Parentheses single _ => [single]
  | .Sequence single _ => [single]
  | .Cast returnType single _ => [returnType, single]
  | .Call single args _ => [single, args]
  | .BinaryCall left _ right _ => [left, right]
  | .UnaryCall _ single _ => [single]
  | .Assign left _ right _ => [left, right]
  | .Slice single brackets _ => [single, brackets]
  | .Query single _ => [single]
  | .Get single _ => [single]
  | .GetReturn single _ => [single]
  | .Spin single _ => [single]
  | .LambdaFunction params returnType braces _ => [params, returnType, braces]
  | .Span single _ => [single]
  | .Index single _ => [single]
  | .Range left right _ => [left, right]
  | .Member left right _ => [left, right]
  | .This _ => []
  | .Super _ => []
  | .Global single _ => [single]
  | .Nil _ => []
  | .Parameter _ _ type value _ => [type, value]
  | .Generic _ _ type _ => [type]
  | .NamedExpression _ typeArgs _ => [typeArgs]
  | .EmptyStatement _ => []
  | .Braces single _ => [single]
  | .StatementList head tail _ => [head, tail]
  | .Assume left _ right _ => [left, right]
  | .GlobalVariable _ _ type brackets args value _ => [type, brackets, args, value]
  | .MemberVariable _ _ type brackets args value _ => [type, brackets, args, value]
  | .LocalVariable _ _ type brackets args value _ => [type, brackets, args, value]
  | .Function _ _ typeParams params returnType braces _ =>
      [typeParams, params, returnType, braces]
  | .Fiber _ _ typeParams params returnType braces _ => [typeParams, params, returnType, braces]
  | .Program _ params braces _ => [params, braces]
  | .MemberFunction _ _ typeParams params returnType braces _ =>
      [typeParams, params, returnType, braces]
  | .MemberFiber _ _ typeParams params returnType braces _ =>
      [typeParams, params, returnType, braces]
  | .BinaryOperator _ left _ right returnType braces _ => [left, right, returnType, braces]
  | .UnaryOperator _ _ single returnType braces _ => [single, returnType, braces]
  | .AssignmentOperator single braces _ => [single, braces]
  | .ConversionOperator returnType braces _ => [returnType, braces]
  | .Class _ _ typeParams params base _ args braces _ =>
      [typeParams, params, base, args, braces]
  | .Basic _ _ typeParams base _ _ => [typeParams, base]
  | .ExpressionStatement single _ => [single]
  | .If cond braces falseBraces _ => [cond, braces, falseBraces]
  | .For _ index from' to' braces _ => [index, from', to', braces]
  | .Parallel _ index from' to' braces _ => [index, from', to', braces]
  | .While cond braces _ => [cond, braces]
  | .DoWhile braces cond _ => [braces, cond]
  | .Block braces _ => [braces]
  | .Assert cond _ => [cond]
  | .Return single _ => [single]
  | .Yield single _ => [single]
  | .Raw _ _ _ => []
  | .EmptyType _ => []
  | .TypeList head tail _ => [head, tail]
  | .NamedType _ typeArgs _ => [typeArgs]
  | .MemberType left right _ => [left, right]
  | .ArrayType single _ _ => [single]
  | .TupleType single _ => [single]
  | .FunctionType params returnType _ => [params, returnType]
  | .FiberType returnType yieldType _ => [returnType, yieldType]
  | .OptionalType single _ => [single]

/-- The source location of a node. -/
def Node.loc : Node → Option Nat
  | .EmptyExpression loc => loc
  | .ExpressionList _ _ loc => loc
  | .LiteralBool _ loc => loc
  | .LiteralInt64 _ loc => loc
  | .LiteralDouble _ loc => loc
  | .LiteralString _ loc => loc
  | .Parentheses _ loc => loc
  | .Sequence _ loc => loc
  | .Cast _ _ loc => loc
  | .Call _ _ loc => loc
  | .BinaryCall _ _ _ loc => loc
  | .UnaryCall _ _ loc => loc
  | .Assign _ _ _ loc => loc
  | .Slice _ _ loc => loc
  | .Query _ loc => loc
  | .Get _ loc => loc
  | .GetReturn _ loc => loc
  | .Spin _ loc => loc
  | .LambdaFunction _ _ _ loc => loc
  | .Span _ loc => loc
  | .Index _ loc => loc
  | .Range _ _ loc => loc
  | .Member _ _ loc => loc
  | .This loc => loc
  | .Super loc => loc
  | .Global _ loc => loc
  | .Nil loc => loc
  | .Parameter _ _ _ _ loc => loc
  | .Generic _ _ _ loc => loc
  | .NamedExpression _ _ loc => loc
  | .EmptyStatement loc => loc
  | .Braces _ loc => loc
  | .StatementList _ _ loc => loc
  | .Assume _ _ _ loc => loc
  | .GlobalVariable _ _ _ _ _ _ loc => loc
  | .MemberVariable _ _ _ _ _ _ loc => loc
  | .LocalVariable _ _ _ _ _ _ loc => loc
  | .Function _ _ _ _ _ _ loc => loc
  | .Fiber _ _ _ _ _ _ loc => loc
  | .Program _ _ _ loc => loc
  | .MemberFunction _ _ _ _ _ _ loc => loc
  | .MemberFiber _ _ _ _ _ _ loc => loc
  | .BinaryOperator _ _ _ _ _ _ loc => loc
  | .UnaryOperator _ _ _ _ _ loc => loc
  | .AssignmentOperator _ _ loc => loc
  | .ConversionOperator _ _ loc => loc
  | .Class _ _ _ _ _ _ _ _ loc => loc
  | .Basic _ _ _ _ _ loc => loc
  | .ExpressionStatement _ loc => loc
  | .If _ _ _ loc => loc
  | .For _ _ _ _ _ loc => loc
  | .Parallel _ _ _ _ _ loc => loc
  | .While _ _ loc => loc
  | .DoWhile _ _ loc => loc
  | .Block _ loc => loc
  | .Assert _ loc => loc
  | .Return _ loc => loc
  | .Yield _ loc => loc
  | .Raw _ _ loc => loc
  | .EmptyType loc => loc
  | .TypeList _ _ loc => loc
  | .NamedType _ _ loc => loc
  | .MemberType _ _ loc => loc
  | .ArrayType _ _ loc => loc
  | .TupleType _ loc => loc
  | .FunctionType _ _ loc => loc
  | .FiberType _ _ loc => loc
  | .OptionalType _ loc => loc

/-- The attributes of a node other than its children and its location: name,
annotation, literal or raw string, number of dimensions, alias. -/
structure Attributes where
  name : Option Nat
  annotation : Option Nat
  str : Option String
  ndims : Option Int
  alias' : Option Bool
deriving DecidableEq, Repr

/-- The own attributes of a node. -/
def Node.attributes : Node → Attributes
  | .EmptyExpression _ => ⟨none, none, none, none, none⟩
  | .ExpressionList _ _ _ => ⟨none, none, none, none, none⟩
  | .LiteralBool str _ => ⟨none, none, some str, none, none⟩
  | .LiteralInt64 str _ => ⟨none, none, some str, none, none⟩
  | .LiteralDouble str _ => ⟨none, none, some str, none, none⟩
  | .LiteralString str _ => ⟨none, none, some str, none, none⟩
  | .Parentheses _ _ => ⟨none, none, none, none, none⟩
  | .Sequence _ _ => ⟨none, none, none, none, none⟩
  | .Cast _ _ _ => ⟨none, none, none, none, none⟩
  | .Call _ _ _ => ⟨none, none, none, none, none⟩
  | .BinaryCall _ name _ _ => ⟨some name, none, none, none, none⟩
  | .UnaryCall name _ _ => ⟨some name, none, none, none, none⟩
  | .Assign _ name _ _ => ⟨some name, none, none, none, none⟩
  | .Slice _ _ _ => ⟨none, none, none, none, none⟩
  | .Query _ _ => ⟨none, none, none, none, none⟩
  | .Get _ _ => ⟨none, none, none, none, none⟩
  | .GetReturn _ _ => ⟨none, none, none, none, none⟩
  | .Spin _ _ => ⟨none, none, none, none, none⟩
  | .LambdaFunction _ _ _ _ => ⟨none, none, none, none, none⟩
  | .Span _ _ => ⟨none, none, none, none, none⟩
  | .Index _ _ => ⟨none, none, none, none, none⟩
  | .Range _ _ _ => ⟨none, none, none, none, none⟩
  | .Member _ _ _ => ⟨none, none, none, none, none⟩
  | .This _ => ⟨none, none, none, none, none⟩
  | .Super _ => ⟨none, none, none, none, none⟩
  | .Global _ _ => ⟨none, none, none, none, none⟩
  | .Nil _ => ⟨none, none, none, none, none⟩
  | .Parameter annotation name _ _ _ => ⟨some name, some annotation, none, none, none⟩
  | .Generic annotation name _ _ => ⟨some name, some annotation, none, none, none⟩
  | .NamedExpression name _ _ => ⟨some name, none, none, none, none⟩
  | .EmptyStatement _ => ⟨none, none, none, none, none⟩
  | .Braces _ _ => ⟨none, none, none, none, none⟩
  | .StatementList _ _ _ => ⟨none, none, none, none, none⟩
  | .Assume _ name _ _ => ⟨some name, none, none, none, none⟩
  | .GlobalVariable annotation name _ _ _ _ _ => ⟨some name, some annotation, none, none, none⟩
  | .MemberVariable annotation name _ _ _ _ _ => ⟨some name, some annotation, none, none, none⟩
  | .LocalVariable annotation name _ _ _ _ _ => ⟨some name, some annotation, none, none, none⟩
  | .Function annotation name _ _ _ _ _ => ⟨some name, some annotation, none, none, none⟩
  | .Fiber annotation name _ _ _ _ _ => ⟨some name, some annotation, none, none, none⟩
  | .Program name _ _ _ => ⟨some name, none, none, none, none⟩
  | .MemberFunction annotation name _ _ _ _ _ => ⟨some name, some annotation, none, none, none⟩
  | .MemberFiber annotation name _ _ _ _ _ => ⟨some name, some annotation, none, none, none⟩
  | .BinaryOperator annotation _ name _ _ _ _ => ⟨some name, some annotation, none, none, none⟩
  | .UnaryOperator annotation name _ _ _ _ => ⟨some name, some annotation, none, none, none⟩
  | .AssignmentOperator _ _ _ => ⟨none, none, none, none, none⟩
  | .ConversionOperator _ _ _ => ⟨none, none, none, none, none⟩
  | .Class annotation name _ _ _ alias' _ _ _ =>
      ⟨some name, some annotation, none, none, some alias'⟩
  | .Basic annotation name _ _ alias' _ => ⟨some name, some annotation, none, none, some alias'⟩
  | .ExpressionStatement _ _ => ⟨none, none, none, none, none⟩
  | .If _ _ _ _ => ⟨none, none, none, none, none⟩
  | .For annotation _ _ _ _ _ => ⟨none, some annotation, none, none, none⟩
  | .Parallel annotation _ _ _ _ _ => ⟨none, some annotation, none, none, none⟩
  | .While _ _ _ => ⟨none, none, none, none, none⟩
  | .DoWhile _ _ _ => ⟨none, none, none, none, none⟩
  | .Block _ _ => ⟨none, none, none, none, none⟩
  | .Assert _ _ => ⟨none, none, none, none, none⟩
  | .Return _ _ => ⟨none, none, none, none, none⟩
  | .Yield _ _ => ⟨none, none, none, none, none⟩
  | .Raw name raw _ => ⟨some name, none, some raw, none, none⟩
  | .EmptyType _ => ⟨none, none, none, none, none⟩
  | .TypeList _ _ _ => ⟨none, none, none, none, none⟩
  | .NamedType name _ _ => ⟨some name, none, none, none, none⟩
  | .MemberType _ _ _ => ⟨none, none, none, none, none⟩
  | .ArrayType _ ndims _ => ⟨none, none, none, some ndims, none⟩
  | .TupleType _ _ => ⟨none, none, none, none, none⟩
  | .FunctionType _ _ _ => ⟨none, none, none, none, none⟩
  | .FiberType _ _ _ => ⟨none, none, none, none, none⟩
  | .OptionalType _ _ => ⟨none, none, none, none, none⟩

/-- No `EmptyStatement` in the tree carries a source location. -/
def Node.emptyStatementsBare : Node → Bool
  | .EmptyExpression _ => true
  | .ExpressionList head tail _ => head.emptyStatementsBare && tail.emptyStatementsBare
  | .LiteralBool _ _ => true
  | .LiteralInt64 _ _ => true
  | .LiteralDouble _ _ => true
  | .LiteralString _ _ => true
  | .Parentheses single _ => single.emptyStatementsBare
  | .Sequence single _ => single.emptyStatementsBare
  | .Cast returnType single _ => returnType.emptyStatementsBare && single.emptyStatementsBare
  | .Call single args _ => single.emptyStatementsBare && args.emptyStatementsBare
  | .BinaryCall left _ right _ => left.emptyStatementsBare && right.emptyStatementsBare
  | .UnaryCall _ single _ => single.emptyStatementsBare
  | .Assign left _ right _ => left.emptyStatementsBare && right.emptyStatementsBare
  | .Slice single brackets _ => single.emptyStatementsBare && brackets.emptyStatementsBare
  | .Query single _ => single.emptyStatementsBare
  | .Get single _ => single.emptyStatementsBare
  | .GetReturn single _ => single.emptyStatementsBare
  | .Spin single _ => single.emptyStatementsBare
  | .LambdaFunction params returnType braces _ => params.emptyStatementsBare &&
      returnType.emptyStatementsBare && braces.emptyStatementsBare
  | .Span single _ => single.emptyStatementsBare
  | .Index single _ => single.emptyStatementsBare
  | .Range left right _ => left.emptyStatementsBare && right.emptyStatementsBare
  | .Member left right _ => left.emptyStatementsBare && right.emptyStatementsBare
  | .This _ => true
  | .Super _ => true
  | .Global single _ => single.emptyStatementsBare
  | .Nil _ => true
  | .Parameter _ _ type value _ => type.emptyStatementsBare && value.emptyStatementsBare
  | .Generic _ _ type _ => type.emptyStatementsBare
  | .NamedExpression _ typeArgs _ => typeArgs.emptyStatementsBare
  | .EmptyStatement loc => loc.isNone
  | .Braces single _ => single.emptyStatementsBare
  | .StatementList head tail _ => head.emptyStatementsBare && tail.emptyStatementsBare
  | .Assume left _ right _ => left.emptyStatementsBare && right.emptyStatementsBare
  | .GlobalVariable _ _ type brackets args value _ => type.emptyStatementsBare &&
      brackets.emptyStatementsBare && args.emptyStatementsBare && value.emptyStatementsBare
  | .MemberVariable _ _ type brackets args value _ => type.emptyStatementsBare &&
      brackets.emptyStatementsBare && args.emptyStatementsBare && value.emptyStatementsBare
  | .LocalVariable _ _ type brackets args value _ => type.emptyStatementsBare &&
      brackets.emptyStatementsBare && args.emptyStatementsBare && value.emptyStatementsBare
  | .Function _ _ typeParams params returnType braces _ => typeParams.emptyStatementsBare &&
      params.emptyStatementsBare && returnType.emptyStatementsBare && braces.emptyStatementsBare
  | .Fiber _ _ typeParams params returnType braces _ => typeParams.emptyStatementsBare &&
      params.emptyStatementsBare && returnType.emptyStatementsBare && braces.emptyStatementsBare
  | .Program _ params braces _ => params.emptyStatementsBare && braces.emptyStatementsBare
  | .MemberFunction _ _ typeParams params returnType braces _ =>
      typeParams.emptyStatementsBare && params.emptyStatementsBare &&
      returnType.emptyStatementsBare && braces.emptyStatementsBare
  | .MemberFiber _ _ typeParams params returnType braces _ => typeParams.emptyStatementsBare &&
      params.emptyStatementsBare && returnType.emptyStatementsBare && braces.emptyStatementsBare
  | .BinaryOperator _ left _ right returnType braces _ => left.emptyStatementsBare &&
      right.emptyStatementsBare && returnType.emptyStatementsBare && braces.emptyStatementsBare
  | .UnaryOperator _ _ single returnType braces _ => single.emptyStatementsBare &&
      returnType.emptyStatementsBare && braces.emptyStatementsBare
  | .AssignmentOperator single braces _ => single.emptyStatementsBare &&
      braces.emptyStatementsBare
  | .ConversionOperator returnType braces _ => returnType.emptyStatementsBare &&
      braces.emptyStatementsBare
  | .Class _ _ typeParams params base _ args braces _ => typeParams.emptyStatementsBare &&
      params.emptyStatementsBare && base.emptyStatementsBare && args.emptyStatementsBare &&
      braces.emptyStatementsBare
  | .Basic _ _ typeParams base _ _ => typeParams.emptyStatementsBare && base.emptyStatementsBare
  | .ExpressionStatement single _ => single.emptyStatementsBare
  | .If cond braces falseBraces _ => cond.emptyStatementsBare && braces.emptyStatementsBare &&
      falseBraces.emptyStatementsBare
  | .For _ index from' to' braces _ => index.emptyStatementsBare && from'.emptyStatementsBare &&
      to'.emptyStatementsBare && braces.emptyStatementsBare
  | .Parallel _ index from' to' braces _ => index.emptyStatementsBare &&
      from'.emptyStatementsBare && to'.emptyStatementsBare && braces.emptyStatementsBare
  | .While cond braces _ => cond.emptyStatementsBare && braces.emptyStatementsBare
  | .DoWhile braces cond _ => braces.emptyStatementsBare && cond.emptyStatementsBare
  | .Block braces _ => braces.emptyStatementsBare
  | .Assert cond _ => cond.emptyStatementsBare
  | .Return single _ => single.emptyStatementsBare
  | .Yield single _ => single.emptyStatementsBare
  | .Raw _ _ _ => true
  | .EmptyType _ => true
  | .TypeList head tail _ => head.emptyStatementsBare && tail.emptyStatementsBare
  | .NamedType _ typeArgs _ => typeArgs.emptyStatementsBare
  | .MemberType left right _ => left.emptyStatementsBare && right.emptyStatementsBare
  | .ArrayType single _ _ => single.emptyStatementsBare
  | .TupleType single _ => single.emptyStatementsBare
  | .FunctionType params returnType _ => params.emptyStatementsBare &&
      returnType.emptyStatementsBare
  | .FiberType returnType yieldType _ => returnType.emptyStatementsBare &&
      yieldType.emptyStatementsBare
  | .OptionalType single _ => single.emptyStatementsBare

/-- A block that holds an empty statement with a source location. -/
def exampleBraces : Node := .Braces (.EmptyStatement (some 7)) (some 3)

/-- The expression statement of a call `f(x)` with source locations. -/
def exampleStatement : Node :=
  .ExpressionStatement
    (.Call (.NamedExpression 1 (.EmptyType none) (some 10))
      (.NamedExpression 2 (.EmptyType none) (some 11)) (some 12))
    (some 13)

/-! ## Threads racing to clone one object

A thread runs the part of `get` that follows the resolution of the object
through the parent: the lookup in the mapping of the context and, when there
is no entry and the object is frozen, `copy`.  The steps of different threads
interleave; the lookup, the construction of the duplicate with its shared
pointer, the `put` and the destruction of the shared pointer are one step
each. -/

/-- Where a thread stands: before the lookup; in `copy` before `clone_`; holding
the shared pointer `cloned` before `m.put`; after `m.put` returned `result`,
before the shared pointer is destroyed; returned. -/
inductive Thread where
  | start : Thread
  | missed : Thread
  | cloned (c : Nat) : Thread
  | inserted (result c : Nat) : Thread
  | returned (result : Nat) : Thread
deriving DecidableEq, Repr

/-- One step of a thread that runs `get` for the resolved object `o` on the
context `self`. -/
def Thread.step (h : Heap) (self o : Nat) : Thread → Outcome (Thread × Heap)
  | .start =>
    match h.mapOf self with
    | none => .abort
    | some m =>
      match m.get o with
      | some result => .ok (.returned result, h)
      | none =>
        match h.isFrozen o with
        | none => .abort
        | some false => .ok (.returned o, h)
        | some true => .ok (.missed, h)
  | .missed =>
    match h.isFrozen o with
    | some true =>
      match h.cloneNew o with
      | .ok (c, h1) =>
        match h1.incShared c with
        | none => .abort
        | some h2 => .ok (.cloned c, h2)
      | .abort => .abort
      | .timeout => .timeout
    | _ => .abort
  | .cloned c =>
    match h.put self o c with
    | .ok (result, h1) => .ok (.inserted result c, h1)
    | .abort => .abort
    | .timeout => .timeout
  | .inserted result c =>
    match h.decShared c with
    | none => .abort
    | some h1 => .ok (.returned result, h1)
  | .returned result => .ok (.returned result, h)

/-- The steps of one thread, run without interruption. -/
def Thread.run (self o : Nat) : Nat → Heap → Thread → Outcome (Thread × Heap)
  | 0, h, t => .ok (t, h)
  | n + 1, h, t =>
    match t.step h self o with
    | .ok (t1, h1) => Thread.run self o n h1 t1
    | .abort => .abort
    | .timeout => .timeout

/-- The threads run as the schedule says: each entry of the schedule lets the
thread of that number take its next step. -/
def runThreads (self o : Nat) : Heap → List Thread → List Nat → Outcome (Heap × List Thread)
  | h, ts, [] => .ok (h, ts)
  | h, ts, i :: schedule =>
    match ts[i]? with
    | none => runThreads self o h ts schedule
    | some t =>
      match t.step h self o with
      | .ok (t1, h1) => runThreads self o h1 (ts.set i t1) schedule
      | .abort => .abort
      | .timeout => .timeout

/-- Whether the thread holds a shared pointer to the block `a`. -/
def Thread.holds : Thread → Nat → Bool
  | .cloned c, a => c == a
  | .inserted _ c, a => c == a
  | _, _ => false

/-- The object that the lookup or `m.put` has given the thread. -/
def Thread.result : Thread → Option Nat
  | .inserted r _ => some r
  | .returned r => some r
  | _ => none

/-- How many of its steps a thread has taken, at least. -/
def Thread.rank : Thread → Nat
  | .start => 0
  | .missed => 1
  | .cloned _ => 2
  | .inserted _ _ => 3
  | .returned _ => 4

/-- The number of shared pointers that threads hold to the block `a`. -/
def holders (ts : List Thread) (a : Nat) : Nat := ts.countP (fun t => t.holds a)

/-- The number of shared references to the block `a`: those of the threads and
that of the mapping entry. -/
def references (ts : List Thread) (entry : Option Nat) (a : Nat) : Nat :=
  holders ts a + (if entry = some a then 1 else 0)

/-- A block allocated for a duplicate of an object of size `size`, with `k`
shared references: destroyed when there is none. -/
def blockOf (size k : Nat) : Option LazyAny :=
  if k = 0 then none
  else some { frozen := false, size := size, sharedCount := k, memoCount := 0 }

/-- What holds at every moment of a race that started in the heap `h0` for the
object `o` of size `size`: the mapping exists, the object is frozen, every
block allocated since the start carries as many shared references as threads
and mapping hold to it, and what a thread was given is the entry of the
mapping. -/
structure RaceInv (h0 : Heap) (c o size : Nat) (h : Heap) (ts : List Thread) : Prop where
  map : ∃ m, h.mapOf c = some m
  key : ∃ x, h.obj o = some x ∧ x.frozen = true ∧ x.size = size
  low : o < h0.objs.length
  len : h0.objs.length ≤ h.objs.length
  held : ∀ t, t ∈ ts → ∀ a, t.holds a = true → h0.objs.length ≤ a ∧ a < h.objs.length
  entry : ∀ w, h.entry c o = some w → h0.objs.length ≤ w ∧ w < h.objs.length
  results : ∀ t, t ∈ ts → ∀ r, t.result = some r → h.entry c o = some r
  blocks : ∀ a, h0.objs.length ≤ a → a < h.objs.length →
    h.objs[a]? = some (blockOf size (references ts (h.entry c o) a))
  old : ∀ a, a < h0.objs.length → a ≠ o → h.objs[a]? = h0.objs[a]?

/-- The context 1, child of the root, with an empty mapping, and one frozen
object at address 0. -/
def exampleRace : Heap :=
  { memos := [LazyMemo.mkRoot, LazyMemo.mkChild 0 LazyMemo.mkRoot],
    objs := [some { frozen := true, size := 8, sharedCount := 1, memoCount := 0 }] }

/-- What the caller of `get` sees of a thread: the object it returned and the
heap; a thread that has not returned yet has not answered. -/
def Thread.outcome : Outcome (Thread × Heap) → Outcome (Nat × Heap)
  | .ok (.returned result, h) => .ok (result, h)
  | .ok (_, _) => .timeout
  | .abort => .abort
  | .timeout => .timeout

/-- A schedule that gives each of three threads four steps, interleaved. -/
def exampleSchedule : List Nat := [0, 1, 2, 0, 1, 2, 2, 1, 0, 1, 0, 2]

/-! ## Elementary facts about the arena -/

theorem Map.insert_none (m : Map) (key value : Nat) (hg : m.get key = none) :
    m.insert key value = (value, { entries := (key, value) :: m.entries }) := by
  unfold Map.insert; rw [hg]

theorem Map.insert_some (m : Map) (key value v : Nat) (hg : m.get key = some v) :
    m.insert key value = (v, m) := by
  unfold Map.insert; rw [hg]

theorem Map.get_cons (k v key : Nat) (es : List (Nat × Nat)) :
    Map.get { entries := (k, v) :: es } key = if k = key then some v else Map.get { entries := es } key := by
  simp [Map.get, lookupEntry]

theorem setMemo_links (h : Heap) (i : Nat) (t t0 : LazyMemo) (ht : h.memos[i]? = some t0)
    (hp : t.parent = t0.parent) (hg : t.gen = t0.gen) : (h.setMemo i t).links = h.links := by
  unfold Heap.links Heap.setMemo
  simp only [List.map_set]
  apply List.ext_getElem?
  intro n
  rw [List.getElem?_set]
  by_cases hn : i = n
  · subst hn
    simp [List.getElem?_map, ht, hp, hg]
    exact (List.getElem?_eq_some.mp ht).1
  · simp [hn]

theorem setMap_objs (h : Heap) (c : Nat) (m : Map) : (h.setMap c m).objs = h.objs := by
  unfold Heap.setMap
  cases h.memos[c]? <;> rfl

theorem setMap_length (h : Heap) (c : Nat) (m : Map) :
    (h.setMap c m).memos.length = h.memos.length := by
  unfold Heap.setMap
  cases h.memos[c]? <;> simp [Heap.setMemo]

theorem setMap_links (h : Heap) (c : Nat) (m : Map) : (h.setMap c m).links = h.links := by
  unfold Heap.setMap
  cases ht : h.memos[c]? with
  | none => rfl
  | some t => exact setMemo_links h c _ t ht rfl rfl

theorem setMap_getElem?_ne (h : Heap) (c i : Nat) (m : Map) (hi : i ≠ c) :
    (h.setMap c m).memos[i]? = h.memos[i]? := by
  unfold Heap.setMap
  cases h.memos[c]? with
  | none => rfl
  | some t => simp [Heap.setMemo, List.getElem?_set, Ne.symm hi]

theorem setMap_getElem?_self (h : Heap) (c : Nat) (m : Map) (t : LazyMemo)
    (ht : h.memos[c]? = some t) : (h.setMap c m).memos[c]? = some { t with m := m } := by
  unfold Heap.setMap
  simp [ht, Heap.setMemo, List.getElem?_set, (List.getElem?_eq_some.mp ht).1]

theorem setMap_mapOf_self (h : Heap) (c : Nat) (m m0 : Map) (hm : h.mapOf c = some m0) :
    (h.setMap c m).mapOf c = some m := by
  unfold Heap.mapOf at hm ⊢
  cases ht : h.memos[c]? with
  | none => simp [ht] at hm
  | some t => simp [setMap_getElem?_self h c m t ht]

theorem links_getElem? (h h1 : Heap) (hl : h1.links = h.links) (i : Nat) :
    (h1.memos[i]?).map (fun t => (t.parent, t.gen)) = (h.memos[i]?).map (fun t => (t.parent, t.gen)) := by
  have := congrArg (fun l => l[i]?) hl
  simpa [Heap.links, List.getElem?_map] using this

theorem links_length (h h1 : Heap) (hl : h1.links = h.links) :
    h1.memos.length = h.memos.length := by
  have := congrArg List.length hl
  simpa [Heap.links] using this

theorem links_some (h h1 : Heap) (hl : h1.links = h.links) (i : Nat) (t : LazyMemo)
    (ht : h.memos[i]? = some t) :
    ∃ t1, h1.memos[i]? = some t1 ∧ t1.parent = t.parent ∧ t1.gen = t.gen := by
  have := links_getElem? h h1 hl i
  rw [ht] at this
  cases h1i : h1.memos[i]? with
  | none => simp [h1i] at this
  | some t1 =>
    simp [h1i] at this
    exact ⟨t1, rfl, this.1, this.2⟩

theorem incMemo_memos (h h1 : Heap) (o : Nat) (hh : h.incMemo o = some h1) :
    h1.memos = h.memos ∧ h1.objs.length = h.objs.length := by
  unfold Heap.incMemo at hh
  cases hx : h.obj o with
  | none => simp [hx] at hh
  | some x =>
    simp [hx] at hh
    subst hh
    simp [Heap.setObj]

theorem incShared_memos (h h1 : Heap) (o : Nat) (hh : h.incShared o = some h1) :
    h1.memos = h.memos ∧ h1.objs.length = h.objs.length := by
  unfold Heap.incShared at hh
  cases hx : h.obj o with
  | none => simp [hx] at hh
  | some x =>
    simp [hx] at hh
    subst hh
    simp [Heap.setObj]

theorem mapOf_congr (h h1 : Heap) (c : Nat) (hm : h1.memos[c]? = h.memos[c]?) :
    h1.mapOf c = h.mapOf c := by
  unfold Heap.mapOf; rw [hm]

/-- What a successful `put` does to the arena. -/
theorem put_spec (h h1 : Heap) (self key value v : Nat) (hp : h.put self key value = .ok (v, h1)) :
    h1.links = h.links ∧ h1.objs.length = h.objs.length ∧
    (∀ i, i ≠ self → h1.memos[i]? = h.memos[i]?) ∧
    h1.entry self key = some v := by
  unfold Heap.put at hp
  cases hm : h.mapOf self with
  | none => simp [hm] at hp
  | some m =>
    simp only [hm] at hp
    cases hg : m.get key with
    | some v0 =>
      simp only [hg] at hp
      injection hp with hp
      injection hp with hv hh
      subst hv; subst hh
      refine ⟨rfl, rfl, fun _ _ => rfl, ?_⟩
      simp [Heap.entry, hm, hg]
    | none =>
      simp only [hg] at hp
      cases h2 : h.incMemo key with
      | none => simp [h2] at hp
      | some ha =>
        simp only [h2] at hp
        cases h3 : ha.incShared value with
        | none => simp [h3] at hp
        | some hb =>
          simp only [h3] at hp
          injection hp with hp
          injection hp with hv hh
          subst hv; subst hh
          obtain ⟨e1, e2⟩ := incMemo_memos _ _ _ h2
          obtain ⟨e3, e4⟩ := incShared_memos _ _ _ h3
          have hmb : hb.mapOf self = some m := by
            rw [← hm]; apply mapOf_congr; rw [e3, e1]
          refine ⟨?_, ?_, ?_, ?_⟩
          · rw [setMap_links]; unfold Heap.links; rw [e3, e1]
          · rw [setMap_objs, e4, e2]
          · intro i hi; rw [setMap_getElem?_ne _ _ _ _ hi, e3, e1]
          · unfold Heap.entry
            rw [setMap_mapOf_self _ _ _ _ hmb]
            rw [Map.insert_none _ _ _ hg]
            simp [Map.get_cons]

/-! ## The resolution `source` -/

/-- Case analysis of a successful `source` call. -/
theorem source_inv (cfg : Config) (fuel : Nat) (h : Heap) (self o from' r : Nat) (h1 : Heap)
    (hs : source cfg (fuel + 1) h self o from' = .ok (r, h1)) :
    (self = from' ∧ r = o ∧ h1 = h) ∨
    (self ≠ from' ∧ ∃ t, h.memos[self]? = some t ∧
      ((cfg.memoAt t.gen ∧ t.m.get o = some r ∧ h1 = h) ∨
       (cfg.memoAt t.gen ∧ t.m.get o = none ∧ ∃ p r0 h0 m1, t.parent = some p ∧
          source cfg fuel h p o from' = .ok (r0, h0) ∧ h0.mapOf self = some m1 ∧
          h0.put self o (if r0 ≠ o then m1.getD r0 r0 else r0) = .ok (r, h1)) ∨
       (¬ cfg.memoAt t.gen ∧ ∃ p r0 m1, t.parent = some p ∧
          source cfg fuel h p o from' = .ok (r0, h1) ∧ h1.mapOf self = some m1 ∧
          r = m1.getD r0 r0))) := by
  unfold source at hs
  by_cases hsf : self = from'
  · left
    simp only [hsf, if_true] at hs
    injection hs with hs
    injection hs with e1 e2
    exact ⟨hsf, e1.symm, e2.symm⟩
  · right
    refine ⟨hsf, ?_⟩
    simp only [hsf, if_false] at hs
    cases ht : h.memos[self]? with
    | none => simp [ht] at hs
    | some t =>
      refine ⟨t, rfl, ?_⟩
      simp only [ht] at hs
      by_cases hm : cfg.ENABLE_CLONE_MEMO = true ∧ t.gen % cfg.CLONE_MEMO_DELTA = 0
      · simp only [hm, and_self, if_true] at hs
        cases hg : t.m.get o with
        | some v =>
          left
          simp only [hg] at hs
          injection hs with hs
          injection hs with e1 e2
          exact ⟨hm, by rw [e1], e2.symm⟩
        | none =>
          right; left
          simp only [hg] at hs
          refine ⟨hm, rfl, ?_⟩
          cases hp : t.parent with
          | none => simp [hp] at hs
          | some p =>
            simp only [hp] at hs
            cases hr : source cfg fuel h p o from' with
            | abort => simp [hr] at hs
            | timeout => simp [hr] at hs
            | ok x =>
              obtain ⟨r0, h0⟩ := x
              simp only [hr] at hs
              cases hm1 : h0.mapOf self with
              | none => simp [hm1] at hs
              | some m1 =>
                simp only [hm1] at hs
                exact ⟨p, r0, h0, m1, rfl, hr, hm1, hs⟩
      · right; right
        simp only [hm, if_false] at hs
        refine ⟨hm, ?_⟩
        cases hp : t.parent with
        | none => simp [hp] at hs
        | some p =>
          simp only [hp] at hs
          cases hr : source cfg fuel h p o from' with
          | abort => simp [hr] at hs
          | timeout => simp [hr] at hs
          | ok x =>
            obtain ⟨r0, h0⟩ := x
            simp only [hr] at hs
            cases hm1 : h0.mapOf self with
            | none => simp [hm1] at hs
            | some m1 =>
              simp only [hm1] at hs
              injection hs with hs
              injection hs with e1 e2
              subst e2
              exact ⟨p, r0, m1, rfl, hr, hm1, e1.symm⟩


theorem source_self (cfg : Config) (fuel : Nat) (h : Heap) (self o : Nat) :
    source cfg (fuel + 1) h self o self = .ok (o, h) := by
  unfold source; simp

theorem source_hit (cfg : Config) (fuel : Nat) (h : Heap) (self o from' r : Nat) (t : LazyMemo)
    (hsf : self ≠ from') (ht : h.memos[self]? = some t) (hm : cfg.memoAt t.gen)
    (hg : t.m.get o = some r) : source cfg (fuel + 1) h self o from' = .ok (r, h) := by
  unfold Config.memoAt at hm
  unfold source; simp only [hsf, if_false, ht, hm, and_self, if_true, hg]

theorem source_plain (cfg : Config) (fuel : Nat) (h : Heap) (self o from' p r0 : Nat)
    (t : LazyMemo) (h1 : Heap) (m1 : Map)
    (hsf : self ≠ from') (ht : h.memos[self]? = some t) (hm : ¬ cfg.memoAt t.gen)
    (hp : t.parent = some p) (hr : source cfg fuel h p o from' = .ok (r0, h1))
    (hm1 : h1.mapOf self = some m1) :
    source cfg (fuel + 1) h self o from' = .ok (m1.getD r0 r0, h1) := by
  unfold Config.memoAt at hm
  unfold source; simp only [hsf, if_false, ht, hm, hp, hr, hm1]

theorem source_miss (cfg : Config) (fuel : Nat) (h : Heap) (self o from' p r0 : Nat)
    (t : LazyMemo) (h0 : Heap) (m1 : Map)
    (hsf : self ≠ from') (ht : h.memos[self]? = some t) (hm : cfg.memoAt t.gen)
    (hg : t.m.get o = none)
    (hp : t.parent = some p) (hr : source cfg fuel h p o from' = .ok (r0, h0))
    (hm1 : h0.mapOf self = some m1) :
    source cfg (fuel + 1) h self o from' =
      h0.put self o (if r0 ≠ o then m1.getD r0 r0 else r0) := by
  unfold Config.memoAt at hm
  unfold source; simp only [hsf, if_false, ht, hm, and_self, if_true, hg, hp, hr, hm1]

/-- `source` leaves the tree structure alone and allocates nothing. -/
theorem source_frame (cfg : Config) : ∀ (fuel : Nat) (h : Heap) (self o from' r : Nat) (h1 : Heap),
    source cfg fuel h self o from' = .ok (r, h1) →
    h1.links = h.links ∧ h1.objs.length = h.objs.length
  | 0, h, self, o, from', r, h1 => by intro hs; simp [source] at hs
  | fuel + 1, h, self, o, from', r, h1 => by
    intro hs
    rcases source_inv cfg fuel h self o from' r h1 hs with
      ⟨_, _, e⟩ | ⟨_, t, _, ⟨_, _, e⟩ | ⟨_, _, p, r0, h0, m1, _, hr, _, hput⟩ |
        ⟨_, p, r0, m1, _, hr, _, _⟩⟩
    · subst e; exact ⟨rfl, rfl⟩
    · subst e; exact ⟨rfl, rfl⟩
    · obtain ⟨a1, a2⟩ := source_frame cfg fuel h p o from' r0 h0 hr
      obtain ⟨b1, b2, _, _⟩ := put_spec _ _ _ _ _ _ hput
      exact ⟨b1.trans a1, b2.trans a2⟩
    · exact source_frame cfg fuel h p o from' r0 h1 hr

theorem wf_parent_lt (h : Heap) (hw : h.WellFormed) (i p : Nat) (t : LazyMemo)
    (ht : h.memos[i]? = some t) (hp : t.parent = some p) : p < i := by
  have hi : i < h.memos.length := (List.getElem?_eq_some.mp ht).1
  have := hw i hi
  unfold Heap.parentOK at this
  simpa [ht, hp] using this

/-- In a well-formed arena `source` on `self` touches no context constructed
after `self`. -/
theorem source_above (cfg : Config) (h : Heap) (hw : h.WellFormed) :
    ∀ (fuel : Nat) (self o from' r : Nat) (h1 : Heap),
    source cfg fuel h self o from' = .ok (r, h1) →
    ∀ i, self < i → h1.memos[i]? = h.memos[i]?
  | 0, self, o, from', r, h1 => by intro hs; simp [source] at hs
  | fuel + 1, self, o, from', r, h1 => by
    intro hs i hi
    rcases source_inv cfg fuel h self o from' r h1 hs with
      ⟨_, _, e⟩ | ⟨_, t, ht, ⟨_, _, e⟩ | ⟨_, _, p, r0, h0, m1, hp, hr, _, hput⟩ |
        ⟨_, p, r0, m1, hp, hr, _, _⟩⟩
    · subst e; rfl
    · subst e; rfl
    · have hlt := wf_parent_lt h hw self p t ht hp
      have a := source_above cfg h hw fuel p o from' r0 h0 hr i (by omega)
      obtain ⟨_, _, b3, _⟩ := put_spec _ _ _ _ _ _ hput
      rw [b3 i (by omega), a]
    · have hlt := wf_parent_lt h hw self p t ht hp
      exact source_above cfg h hw fuel p o from' r0 h1 hr i (by omega)

/-- A second `source` call straight after the first returns the same object and
changes nothing. -/
theorem source_idem (cfg : Config) : ∀ (fuel : Nat) (h : Heap) (self o from' r : Nat) (h1 : Heap),
    source cfg fuel h self o from' = .ok (r, h1) →
    source cfg fuel h1 self o from' = .ok (r, h1)
  | 0, h, self, o, from', r, h1 => by intro hs; simp [source] at hs
  | fuel + 1, h, self, o, from', r, h1 => by
    intro hs
    rcases source_inv cfg fuel h self o from' r h1 hs with
      ⟨e0, e1, e⟩ | ⟨hsf, t, ht, ⟨hm, hg, e⟩ | ⟨hm, hg, p, r0, h0, m1, hp, hr, hm1, hput⟩ |
        ⟨hm, p, r0, m1, hp, hr, hm1, e⟩⟩
    · subst e; exact hs
    · subst e; exact hs
    · -- the entry recorded by `put` answers the second call
      obtain ⟨a1, _⟩ := source_frame cfg fuel h p o from' r0 h0 hr
      obtain ⟨b1, _, _, b4⟩ := put_spec _ _ _ _ _ _ hput
      obtain ⟨t1, ht1, _, tg⟩ := links_some h h1 (b1.trans a1) self t ht
      have hg1 : t1.m.get o = some r := by
        simpa [Heap.entry, Heap.mapOf, ht1] using b4
      exact source_hit cfg fuel h1 self o from' r t1 hsf ht1 (by rw [tg]; exact hm) hg1
    · obtain ⟨a1, _⟩ := source_frame cfg fuel h p o from' r0 h1 hr
      obtain ⟨t1, ht1, tp, tg⟩ := links_some h h1 a1 self t ht
      have ih := source_idem cfg fuel h p o from' r0 h1 hr
      rw [e]
      exact source_plain cfg fuel h1 self o from' p r0 t1 h1 m1 hsf ht1 (by rw [tg]; exact hm)
        (by rw [tp]; exact hp) ih hm1


/-- A `source` call that changes nothing is decided by the contexts up to
`self`: it gives the same answer, again changing nothing, in any arena that
agrees with this one on those contexts. -/
theorem source_transfer (cfg : Config) (h h' : Heap) (hw : h.WellFormed) :
    ∀ (fuel : Nat) (self o from' r : Nat),
    source cfg fuel h self o from' = .ok (r, h) →
    (∀ i, i ≤ self → h'.memos[i]? = h.memos[i]?) →
    source cfg fuel h' self o from' = .ok (r, h')
  | 0, self, o, from', r => by intro hs; simp [source] at hs
  | fuel + 1, self, o, from', r => by
    intro hs hagree
    rcases source_inv cfg fuel h self o from' r h hs with
      ⟨e0, e1, _⟩ | ⟨hsf, t, ht, ⟨hm, hg, _⟩ | ⟨hm, hg, p, r0, h0, m1, hp, hr, hm1, hput⟩ |
        ⟨hm, p, r0, m1, hp, hr, hm1, e⟩⟩
    · subst e0; rw [e1]; exact source_self cfg fuel h' self o
    · have ht' : h'.memos[self]? = some t := by rw [hagree self (le_refl _)]; exact ht
      exact source_hit cfg fuel h' self o from' r t hsf ht' hm hg
    · exfalso
      obtain ⟨_, _, _, b4⟩ := put_spec _ _ _ _ _ _ hput
      simp [Heap.entry, Heap.mapOf, ht, hg] at b4
    · have hlt := wf_parent_lt h hw self p t ht hp
      have ht' : h'.memos[self]? = some t := by rw [hagree self (le_refl _)]; exact ht
      have ih := source_transfer cfg h h' hw fuel p o from' r0 hr
        (fun i hi => hagree i (by omega))
      have hm1' : h'.mapOf self = some m1 := by
        rw [← hm1]; exact mapOf_congr _ _ _ (hagree self (le_refl _))
      rw [e]
      exact source_plain cfg fuel h' self o from' p r0 t h' m1 hsf ht' hm hp ih hm1'

/-! ## Object storage -/

theorem obj_setObj (h : Heap) (a b : Nat) (x : LazyAny) :
    (h.setObj a x).obj b = if a = b then (if a < h.objs.length then some x else none) else h.obj b := by
  unfold Heap.obj Heap.setObj
  simp only [List.getElem?_set]
  by_cases hab : a = b
  · by_cases hl : a < h.objs.length <;> simp [hab, hl] <;> (subst hab; simp [hl])
  · simp [hab]

theorem obj_lt (h : Heap) (a : Nat) (x : LazyAny) (hx : h.obj a = some x) : a < h.objs.length := by
  unfold Heap.obj at hx
  cases ha : h.objs[a]? with
  | none => simp [ha] at hx
  | some y => exact (List.getElem?_eq_some.mp ha).1

theorem obj_allocate (h : Heap) (n a : Nat) : (h.allocate n).2.obj a = h.obj a := by
  unfold Heap.obj Heap.allocate
  simp only [List.getElem?_append]
  by_cases hl : a < h.objs.length
  · simp [hl]
  · simp only [hl, if_false]
    have : h.objs[a]? = none := List.getElem?_eq_none (by omega)
    rw [this]
    by_cases h0 : a - h.objs.length = 0
    · simp [h0]
    · have : [(none : Option LazyAny)][a - h.objs.length]? = none :=
        List.getElem?_eq_none (by simp; omega)
      rw [this]

theorem allocate_block (h : Heap) (n : Nat) :
    (h.allocate n).2.objs[(h.allocate n).1]? = some none := by
  simp [Heap.allocate]

theorem allocate_memos (h : Heap) (n : Nat) : (h.allocate n).2.memos = h.memos := rfl

theorem allocate_fst (h : Heap) (n : Nat) : (h.allocate n).1 = h.objs.length := rfl

theorem allocate_length (h : Heap) (n : Nat) :
    (h.allocate n).2.objs.length = h.objs.length + 1 := by
  simp [Heap.allocate]

theorem setObj_length (h : Heap) (a : Nat) (x : LazyAny) :
    (h.setObj a x).objs.length = h.objs.length := by
  simp [Heap.setObj]

theorem setObj_memos (h : Heap) (a : Nat) (x : LazyAny) : (h.setObj a x).memos = h.memos := rfl

theorem setMap_obj (h : Heap) (c : Nat) (m : Map) (a : Nat) : (h.setMap c m).obj a = h.obj a := by
  unfold Heap.obj; rw [setMap_objs]

/-- A successful `clone_` constructs the duplicate in the given block. -/
theorem clone_spec (h : Heap) (o uninit : Nat) (src : LazyAny) (ho : h.obj o = some src)
    (hu : h.objs[uninit]? = some none) :
    h.clone_ o uninit = .ok (uninit, h.setObj uninit
      { frozen := false, size := src.size, sharedCount := 0, memoCount := 0 }) := by
  unfold Heap.clone_; simp [ho, hu]

theorem incShared_spec (h : Heap) (o : Nat) (x : LazyAny) (ho : h.obj o = some x) :
    h.incShared o = some (h.setObj o { x with sharedCount := x.sharedCount + 1 }) := by
  unfold Heap.incShared; simp [ho]

theorem incMemo_spec (h : Heap) (o : Nat) (x : LazyAny) (ho : h.obj o = some x) :
    h.incMemo o = some (h.setObj o { x with memoCount := x.memoCount + 1 }) := by
  unfold Heap.incMemo; simp [ho]

theorem put_insert (h : Heap) (self key value : Nat) (m : Map) (kx vx : LazyAny)
    (hm : h.mapOf self = some m) (hg : m.get key = none)
    (hk : h.obj key = some kx)
    (hv : (h.setObj key { kx with memoCount := kx.memoCount + 1 }).obj value = some vx) :
    h.put self key value = .ok (value,
      (((h.setObj key { kx with memoCount := kx.memoCount + 1 }).setObj value
        { vx with sharedCount := vx.sharedCount + 1 }).setMap self
          { entries := (key, value) :: m.entries })) := by
  unfold Heap.put
  simp only [hm, hg, incMemo_spec h key kx hk, incShared_spec _ value vx hv,
    Map.insert_none m key value hg]


theorem decShared_spec (h : Heap) (o : Nat) (x : LazyAny) (ho : h.obj o = some x)
    (hc : 2 ≤ x.sharedCount) :
    h.decShared o = some (h.setObj o { x with sharedCount := x.sharedCount - 1 }) := by
  unfold Heap.decShared
  have h0 : ¬ x.sharedCount = 0 := by omega
  have h1 : ¬ x.sharedCount = 1 := by omega
  simp [ho, h0, h1]

theorem setMap_memos_eq (h h' : Heap) (c : Nat) (m : Map) (hm : h'.memos = h.memos) :
    (h'.setMap c m).memos = (h.setMap c m).memos := by
  unfold Heap.setMap
  rw [hm]
  cases h.memos[c]? <;> simp [Heap.setMemo, hm]

/-- `copy` of a frozen object that has no entry yet: it returns a newly
allocated clone, recorded in the mapping of `self`; the original gains one memo
reference, the clone ends with one shared reference (that of the mapping), and
nothing else changes. -/
theorem copy_ok (h : Heap) (self o : Nat) (x : LazyAny) (m : Map)
    (ho : h.obj o = some x) (hf : x.frozen = true)
    (hm : h.mapOf self = some m) (hg : m.get o = none) :
    ∃ h4, copy h self o = .ok (h.objs.length, h4) ∧
      h4.memos = (h.setMap self { entries := (o, h.objs.length) :: m.entries }).memos ∧
      h4.objs.length = h.objs.length + 1 ∧
      h4.obj h.objs.length =
        some { frozen := false, size := x.size, sharedCount := 1, memoCount := 0 } ∧
      h4.obj o = some { x with memoCount := x.memoCount + 1 } ∧
      (∀ a, a ≠ o → a ≠ h.objs.length → h4.obj a = h.obj a) := by
  have hol : o < h.objs.length := obj_lt h o x ho
  have hne : o ≠ h.objs.length := by omega
  have hfz : h.isFrozen o = some true := by simp [Heap.isFrozen, ho, hf]
  have hclone0 := clone_spec (h.allocate x.size).2 o (h.allocate x.size).1 x
    (by rw [obj_allocate]; exact ho) (allocate_block h x.size)
  rw [allocate_fst] at hclone0
  have hclone : h.cloneNew o = .ok (h.objs.length, (h.allocate x.size).2.setObj h.objs.length
      { frozen := false, size := x.size, sharedCount := 0, memoCount := 0 }) := by
    unfold Heap.cloneNew; simp only [ho, allocate_fst]; exact hclone0
  -- the heap after construction of the clone
  generalize hh1 : (h.allocate x.size).2.setObj h.objs.length
    { frozen := false, size := x.size, sharedCount := 0, memoCount := 0 } = h1 at hclone
  have h1k : h1.obj h.objs.length =
      some { frozen := false, size := x.size, sharedCount := 0, memoCount := 0 } := by
    rw [← hh1, obj_setObj]; simp [allocate_length]
  have h1o : ∀ a, a ≠ h.objs.length → h1.obj a = h.obj a := by
    intro a ha
    rw [← hh1, obj_setObj, if_neg (Ne.symm ha), obj_allocate]
  have h1m : h1.memos = h.memos := by rw [← hh1]; rfl
  have h1l : h1.objs.length = h.objs.length + 1 := by
    rw [← hh1, setObj_length, allocate_length]
  have hinc := incShared_spec h1 h.objs.length _ h1k
  generalize hh2 : h1.setObj h.objs.length
    { frozen := false, size := x.size, sharedCount := 0 + 1, memoCount := 0 } = h2 at hinc
  have h2k : h2.obj h.objs.length =
      some { frozen := false, size := x.size, sharedCount := 1, memoCount := 0 } := by
    rw [← hh2, obj_setObj]; simp [h1l]
  have h2o : ∀ a, a ≠ h.objs.length → h2.obj a = h.obj a := by
    intro a ha
    rw [← hh2, obj_setObj, if_neg (Ne.symm ha), h1o a ha]
  have h2m : h2.memos = h.memos := by rw [← hh2, setObj_memos, h1m]
  have h2l : h2.objs.length = h.objs.length + 1 := by rw [← hh2, setObj_length, h1l]
  have h2map : h2.mapOf self = some m := by
    rw [← hm]; exact mapOf_congr _ _ _ (by rw [h2m])
  have hput := put_insert h2 self o h.objs.length m x
    { frozen := false, size := x.size, sharedCount := 1, memoCount := 0 } h2map hg
    (by rw [h2o o hne]; exact ho)
    (by rw [obj_setObj, if_neg hne]; exact h2k)
  generalize hh3 : ((h2.setObj o { x with memoCount := x.memoCount + 1 }).setObj h.objs.length
      { frozen := false, size := x.size, sharedCount := 1 + 1, memoCount := 0 }).setMap self
        { entries := (o, h.objs.length) :: m.entries } = h3 at hput
  have h3k : h3.obj h.objs.length =
      some { frozen := false, size := x.size, sharedCount := 2, memoCount := 0 } := by
    rw [← hh3, setMap_obj, obj_setObj]; simp [setObj_length, h2l]
  have h3o : h3.obj o = some { x with memoCount := x.memoCount + 1 } := by
    rw [← hh3, setMap_obj, obj_setObj, if_neg (Ne.symm hne), obj_setObj]
    simp [h2l]; omega
  have h3a : ∀ a, a ≠ o → a ≠ h.objs.length → h3.obj a = h.obj a := by
    intro a ha1 ha2
    rw [← hh3, setMap_obj, obj_setObj, if_neg (Ne.symm ha2), obj_setObj, if_neg (Ne.symm ha1),
      h2o a ha2]
  have h3m : h3.memos = (h.setMap self { entries := (o, h.objs.length) :: m.entries }).memos := by
    rw [← hh3]; exact setMap_memos_eq _ _ _ _ (by rw [setObj_memos, setObj_memos, h2m])
  have h3l : h3.objs.length = h.objs.length + 1 := by
    rw [← hh3, setMap_objs, setObj_length, setObj_length, h2l]
  have hdec := decShared_spec h3 h.objs.length _ h3k (by simp)
  simp only [Nat.add_one_sub_one] at hdec
  refine ⟨h3.setObj h.objs.length
    { frozen := false, size := x.size, sharedCount := 1, memoCount := 0 }, ?_, ?_, ?_, ?_, ?_, ?_⟩
  · unfold copy
    simp only [hfz, hclone, hinc, hput, hdec]
  · rw [setObj_memos, h3m]
  · rw [setObj_length, h3l]
  · rw [obj_setObj]; simp [h3l]
  · rw [obj_setObj, if_neg (Ne.symm hne)]; exact h3o
  · intro a ha1 ha2
    rw [obj_setObj, if_neg (Ne.symm ha2)]; exact h3a a ha1 ha2

/-! ## `get`, `pull` and `finish` after the resolution -/

theorem parentOK_of_links (h h1 : Heap) (hl : h1.links = h.links) (i : Nat) :
    h1.parentOK i = h.parentOK i := by
  unfold Heap.parentOK
  cases ht : h.memos[i]? with
  | none =>
    have : h1.memos[i]? = none := by
      have := links_getElem? h h1 hl i
      rw [ht] at this
      cases h1i : h1.memos[i]? with
      | none => rfl
      | some t1 => simp [h1i] at this
    rw [this]
  | some t =>
    obtain ⟨t1, ht1, tp, tg⟩ := links_some h h1 hl i t ht
    rw [ht1]
    simp only [tp, tg]

theorem wellFormed_of_links (h h1 : Heap) (hl : h1.links = h.links) (hw : h.WellFormed) :
    h1.WellFormed := by
  intro i hi
  rw [parentOK_of_links h h1 hl i]
  exact hw i (by rw [← links_length h h1 hl]; exact hi)

theorem resolve_inv (cfg : Config) (fuel : Nat) (h : Heap) (self o from' r : Nat) (h1 : Heap)
    (hr : resolve cfg fuel h self o from' = .ok (r, h1)) :
    ∃ t p, h.memos[self]? = some t ∧ t.parent = some p ∧
      source cfg fuel h p o from' = .ok (r, h1) := by
  unfold resolve Heap.getParent at hr
  cases ht : h.memos[self]? with
  | none => simp [ht] at hr
  | some t =>
    simp only [ht] at hr
    cases hp : t.parent with
    | none => simp [hp] at hr
    | some p =>
      simp only [hp] at hr
      exact ⟨t, p, rfl, hp, hr⟩

theorem resolve_eq (cfg : Config) (fuel : Nat) (h : Heap) (self o from' p : Nat) (t : LazyMemo)
    (ht : h.memos[self]? = some t) (hp : t.parent = some p) :
    resolve cfg fuel h self o from' = source cfg fuel h p o from' := by
  unfold resolve Heap.getParent; simp [ht, hp]

/-- The resolution leaves the tree structure and the mapping of `self` alone
and allocates nothing. -/
theorem resolve_frame (cfg : Config) (fuel : Nat) (h : Heap) (hw : h.WellFormed)
    (self o from' r : Nat) (h1 : Heap)
    (hr : resolve cfg fuel h self o from' = .ok (r, h1)) :
    h1.links = h.links ∧ h1.objs.length = h.objs.length ∧
    (∀ i, self ≤ i → h1.memos[i]? = h.memos[i]?) := by
  obtain ⟨t, p, ht, hp, hs⟩ := resolve_inv cfg fuel h self o from' r h1 hr
  obtain ⟨a1, a2⟩ := source_frame cfg fuel h p o from' r h1 hs
  have hlt := wf_parent_lt h hw self p t ht hp
  exact ⟨a1, a2, fun i hi => source_above cfg h hw fuel p o from' r h1 hs i (by omega)⟩

/-- Repeating the resolution straight away gives the same object and changes
nothing. -/
theorem resolve_idem (cfg : Config) (fuel : Nat) (h : Heap) (self o from' r : Nat) (h1 : Heap)
    (hr : resolve cfg fuel h self o from' = .ok (r, h1)) :
    resolve cfg fuel h1 self o from' = .ok (r, h1) := by
  obtain ⟨t, p, ht, hp, hs⟩ := resolve_inv cfg fuel h self o from' r h1 hr
  obtain ⟨a1, _⟩ := source_frame cfg fuel h p o from' r h1 hs
  obtain ⟨t1, ht1, tp, _⟩ := links_some h h1 a1 self t ht
  rw [resolve_eq cfg fuel h1 self o from' p t1 ht1 (by rw [tp]; exact hp)]
  exact source_idem cfg fuel h p o from' r h1 hs

/-- A resolution that changes nothing gives the same answer after the mapping
of `self` or the object storage has changed. -/
theorem resolve_transfer (cfg : Config) (fuel : Nat) (h h' : Heap) (hw : h.WellFormed)
    (self o from' r : Nat)
    (hr : resolve cfg fuel h self o from' = .ok (r, h))
    (hagree : ∀ i, i < self → h'.memos[i]? = h.memos[i]?)
    (hl : h'.links = h.links) :
    resolve cfg fuel h' self o from' = .ok (r, h') := by
  obtain ⟨t, p, ht, hp, hs⟩ := resolve_inv cfg fuel h self o from' r h hr
  obtain ⟨t1, ht1, tp, _⟩ := links_some h h' hl self t ht
  have hlt := wf_parent_lt h hw self p t ht hp
  rw [resolve_eq cfg fuel h' self o from' p t1 ht1 (by rw [tp]; exact hp)]
  exact source_transfer cfg h h' hw fuel p o from' r hs (fun i hi => hagree i (by omega))

/-- Case analysis of a successful `get` call. -/
theorem get_inv (cfg : Config) (fuel : Nat) (h : Heap) (self o from' x : Nat) (h2 : Heap)
    (hg : get cfg fuel h self o from' = .ok (x, h2)) :
    (self = from' ∧ x = o ∧ h2 = h) ∨
    (self ≠ from' ∧ ∃ r h1 m1, resolve cfg fuel h self o from' = .ok (r, h1) ∧
      h1.mapOf self = some m1 ∧
      ((m1.get r = some x ∧ h2 = h1) ∨
       (m1.get r = none ∧ h1.isFrozen r = some false ∧ x = r ∧ h2 = h1) ∨
       (m1.get r = none ∧ h1.isFrozen r = some true ∧ copy h1 self r = .ok (x, h2)))) := by
  unfold get at hg
  by_cases hsf : self = from'
  · left
    simp only [hsf, if_true] at hg
    injection hg with hg
    injection hg with e1 e2
    exact ⟨hsf, e1.symm, e2.symm⟩
  · right
    refine ⟨hsf, ?_⟩
    simp only [hsf, if_false] at hg
    cases hr : resolve cfg fuel h self o from' with
    | abort => simp [hr] at hg
    | timeout => simp [hr] at hg
    | ok y =>
      obtain ⟨r, h1⟩ := y
      simp only [hr] at hg
      cases hm1 : h1.mapOf self with
      | none => simp [hm1] at hg
      | some m1 =>
        simp only [hm1] at hg
        refine ⟨r, h1, m1, rfl, hm1, ?_⟩
        cases hl : m1.get r with
        | some v =>
          left
          simp only [hl] at hg
          injection hg with hg
          injection hg with e1 e2
          exact ⟨by rw [e1], e2.symm⟩
        | none =>
          right
          simp only [hl] at hg
          cases hf : h1.isFrozen r with
          | none => simp [hf] at hg
          | some b =>
            cases b with
            | false =>
              left
              simp only [hf] at hg
              injection hg with hg
              injection hg with e1 e2
              exact ⟨rfl, rfl, e1.symm, e2.symm⟩
            | true =>
              right
              simp only [hf] at hg
              exact ⟨rfl, rfl, hg⟩

theorem get_found (cfg : Config) (fuel : Nat) (h : Heap) (self o from' r x : Nat) (h1 : Heap)
    (m1 : Map) (hsf : self ≠ from') (hr : resolve cfg fuel h self o from' = .ok (r, h1))
    (hm1 : h1.mapOf self = some m1) (hl : m1.get r = some x) :
    get cfg fuel h self o from' = .ok (x, h1) := by
  unfold get; simp only [hsf, if_false, hr, hm1, hl]

theorem get_mutable (cfg : Config) (fuel : Nat) (h : Heap) (self o from' r : Nat) (h1 : Heap)
    (m1 : Map) (hsf : self ≠ from') (hr : resolve cfg fuel h self o from' = .ok (r, h1))
    (hm1 : h1.mapOf self = some m1) (hl : m1.get r = none) (hf : h1.isFrozen r = some false) :
    get cfg fuel h self o from' = .ok (r, h1) := by
  unfold get; simp only [hsf, if_false, hr, hm1, hl, hf]

theorem get_frozen (cfg : Config) (fuel : Nat) (h : Heap) (self o from' r : Nat) (h1 : Heap)
    (m1 : Map) (hsf : self ≠ from') (hr : resolve cfg fuel h self o from' = .ok (r, h1))
    (hm1 : h1.mapOf self = some m1) (hl : m1.get r = none) (hf : h1.isFrozen r = some true) :
    get cfg fuel h self o from' = copy h1 self r := by
  unfold get; simp only [hsf, if_false, hr, hm1, hl, hf]

theorem isFrozen_true (h : Heap) (o : Nat) (hf : h.isFrozen o = some true) :
    ∃ x, h.obj o = some x ∧ x.frozen = true := by
  unfold Heap.isFrozen at hf
  cases hx : h.obj o with
  | none => simp [hx] at hf
  | some x => exact ⟨x, rfl, by simpa [hx] using hf⟩

theorem setMap_memos_getElem?_ne (h h4 : Heap) (c : Nat) (m : Map)
    (hm : h4.memos = (h.setMap c m).memos) (i : Nat) (hi : i ≠ c) :
    h4.memos[i]? = h.memos[i]? := by
  rw [hm]; exact setMap_getElem?_ne h c i m hi

theorem setMap_memos_links (h h4 : Heap) (c : Nat) (m : Map)
    (hm : h4.memos = (h.setMap c m).memos) : h4.links = h.links := by
  rw [← setMap_links h c m]; unfold Heap.links; rw [hm]

theorem setMap_memos_mapOf (h h4 : Heap) (c : Nat) (m m0 : Map)
    (hm : h4.memos = (h.setMap c m).memos) (h0 : h.mapOf c = some m0) :
    h4.mapOf c = some m := by
  rw [← setMap_mapOf_self h c m m0 h0]; unfold Heap.mapOf; rw [hm]

/-- A `get` call straight after a successful `get` call with the same
arguments returns the same object and changes nothing. -/
theorem get_again (cfg : Config) (fuel : Nat) (h : Heap) (hw : h.WellFormed)
    (self o from' x : Nat) (h2 : Heap)
    (hg : get cfg fuel h self o from' = .ok (x, h2)) :
    get cfg fuel h2 self o from' = .ok (x, h2) := by
  rcases get_inv cfg fuel h self o from' x h2 hg with
    ⟨_, _, e⟩ | ⟨hsf, r, h1, m1, hr, hm1, ⟨hl, e⟩ | ⟨hl, hf, ex, e⟩ | ⟨hl, hf, hc⟩⟩
  · subst e; exact hg
  · subst e
    exact get_found cfg fuel h2 self o from' r x h2 m1 hsf
      (resolve_idem cfg fuel h self o from' r h2 hr) hm1 hl
  · subst e; subst ex
    exact get_mutable cfg fuel h2 self o from' x h2 m1 hsf
      (resolve_idem cfg fuel h self o from' x h2 hr) hm1 hl hf
  · obtain ⟨y, hy, hyf⟩ := isFrozen_true h1 r hf
    obtain ⟨h4, hc4, hmem, _, _, _, _⟩ := copy_ok h1 self r y m1 hy hyf hm1 hl
    rw [hc4] at hc
    injection hc with hc
    injection hc with e1 e2
    subst e2
    obtain ⟨a1, _, _⟩ := resolve_frame cfg fuel h hw self o from' r h1 hr
    have hw1 : h1.WellFormed := wellFormed_of_links h h1 a1 hw
    have hr4 : resolve cfg fuel h4 self o from' = .ok (r, h4) :=
      resolve_transfer cfg fuel h1 h4 hw1 self o from' r
        (resolve_idem cfg fuel h self o from' r h1 hr)
        (fun i hi => setMap_memos_getElem?_ne h1 h4 self _ hmem i (by omega))
        (setMap_memos_links h1 h4 self _ hmem)
    have hm4 := setMap_memos_mapOf h1 h4 self _ m1 hmem hm1
    exact get_found cfg fuel h4 self o from' r x h4 _ hsf hr4 hm4
      (by rw [Map.get_cons, if_pos rfl, e1])

/-! ## Totality of the resolution -/

theorem lookupEntry_mem : ∀ (es : List (Nat × Nat)) (k v : Nat),
    lookupEntry es k = some v → (k, v) ∈ es
  | [], k, v => by intro hl; simp [lookupEntry] at hl
  | (k0, v0) :: rest, k, v => by
    intro hl
    unfold lookupEntry at hl
    by_cases hk : k0 = k
    · simp only [hk, if_true] at hl
      injection hl with hl
      subst hk; subst hl
      exact List.mem_cons_self _ _
    · simp only [hk, if_false] at hl
      exact List.mem_cons_of_mem _ (lookupEntry_mem rest k v hl)

theorem obj_isSome_setObj (h : Heap) (a b : Nat) (x : LazyAny) (ha : (h.obj a).isSome = true) :
    ((h.setObj b x).obj a).isSome = true := by
  rw [obj_setObj]
  by_cases hba : b = a
  · subst hba
    cases hx : h.obj b with
    | none => simp [hx] at ha
    | some y => simp [obj_lt h b y hx]
  · simp [hba, ha]

theorem mapsValid_objs (h h1 : Heap) (hm : h1.memos = h.memos)
    (hv : ∀ a, (h.obj a).isSome = true → (h1.obj a).isSome = true) (hmv : h.MapsValid) :
    h1.MapsValid := by
  intro t ht e he
  rw [hm] at ht
  exact ⟨hv _ (hmv t ht e he).1, hv _ (hmv t ht e he).2⟩

theorem mapOf_mem (h : Heap) (c : Nat) (m : Map) (hm : h.mapOf c = some m) :
    ∃ t, t ∈ h.memos ∧ t.m = m := by
  unfold Heap.mapOf at hm
  cases ht : h.memos[c]? with
  | none => simp [ht] at hm
  | some t =>
    simp [ht] at hm
    exact ⟨t, List.getElem?_mem ht, hm⟩

theorem mapsValid_get (h : Heap) (hmv : h.MapsValid) (c : Nat) (m : Map)
    (hm : h.mapOf c = some m) (k v : Nat) (hg : m.get k = some v) :
    (h.obj v).isSome = true := by
  obtain ⟨t, ht, e⟩ := mapOf_mem h c m hm
  subst e
  exact (hmv t ht (k, v) (lookupEntry_mem _ _ _ hg)).2

theorem mapsValid_getD (h : Heap) (hmv : h.MapsValid) (c : Nat) (m : Map)
    (hm : h.mapOf c = some m) (k : Nat) (hk : (h.obj k).isSome = true) :
    (h.obj (m.getD k k)).isSome = true := by
  unfold Map.getD
  cases hg : m.get k with
  | none => simpa using hk
  | some v => simpa using mapsValid_get h hmv c m hm k v hg

theorem mapsValid_setMap (h : Heap) (hmv : h.MapsValid) (c : Nat) (m : Map) (key value : Nat)
    (hm : h.mapOf c = some m) (hk : (h.obj key).isSome = true)
    (hv : (h.obj value).isSome = true) :
    (h.setMap c { entries := (key, value) :: m.entries }).MapsValid := by
  intro t ht e he
  have hobj : ∀ a, (h.setMap c { entries := (key, value) :: m.entries }).obj a = h.obj a :=
    fun a => setMap_obj h c _ a
  rw [hobj, hobj]
  unfold Heap.setMap at ht
  cases htc : h.memos[c]? with
  | none =>
    simp only [htc] at ht
    exact hmv t ht e he
  | some t0 =>
    simp only [htc, Heap.setMemo] at ht
    have tm : t0.m = m := by simpa [Heap.mapOf, htc] using hm
    rcases List.mem_or_eq_of_mem_set ht with h1 | h1
    · exact hmv t h1 e he
    · subst h1
      simp only [List.mem_cons] at he
      rcases he with he | he
      · subst he; exact ⟨hk, hv⟩
      · exact hmv t0 (List.getElem?_mem htc) e (by rw [tm]; exact he)

/-- `put` succeeds on constructed objects and keeps the mappings valid. -/
theorem put_total (h : Heap) (hmv : h.MapsValid) (self key value : Nat) (m : Map)
    (hm : h.mapOf self = some m) (hk : (h.obj key).isSome = true)
    (hv : (h.obj value).isSome = true) :
    ∃ v h1, h.put self key value = .ok (v, h1) ∧ h1.MapsValid ∧ (h1.obj v).isSome = true ∧
      (∀ a, (h.obj a).isSome = true → (h1.obj a).isSome = true) := by
  cases hg : m.get key with
  | some v0 =>
    refine ⟨v0, h, ?_, hmv, mapsValid_get h hmv self m hm key v0 hg, fun _ ha => ha⟩
    unfold Heap.put; simp only [hm, hg]
  | none =>
    cases hkx : h.obj key with
    | none => simp [hkx] at hk
    | some kx =>
      have hv1 := obj_isSome_setObj h value key { kx with memoCount := kx.memoCount + 1 } hv
      cases hvx : (h.setObj key { kx with memoCount := kx.memoCount + 1 }).obj value with
      | none => simp [hvx] at hv1
      | some vx =>
        have hput := put_insert h self key value m kx vx hm hg hkx hvx
        have hmono : ∀ a, (h.obj a).isSome = true →
            (((h.setObj key { kx with memoCount := kx.memoCount + 1 }).setObj value
              { vx with sharedCount := vx.sharedCount + 1 }).obj a).isSome = true :=
          fun a ha => obj_isSome_setObj _ a value _ (obj_isSome_setObj h a key _ ha)
        generalize hh2 : ((h.setObj key { kx with memoCount := kx.memoCount + 1 }).setObj value
              { vx with sharedCount := vx.sharedCount + 1 }) = h2 at hput hmono
        have h2m : h2.memos = h.memos := by rw [← hh2]; rfl
        refine ⟨value, _, hput, ?_, ?_, ?_⟩
        · exact mapsValid_setMap h2 (mapsValid_objs h h2 h2m hmono hmv) self m key value
            (by rw [← hm]; exact mapOf_congr _ _ _ (by rw [h2m])) (hmono key hk) (hmono value hv)
        · rw [setMap_obj]; exact hmono value hv
        · intro a ha
          rw [setMap_obj]; exact hmono a ha


theorem getParent_some (h : Heap) (c p : Nat) (hp : h.getParent c = some p) :
    ∃ t, h.memos[c]? = some t ∧ t.parent = some p := by
  unfold Heap.getParent at hp
  cases ht : h.memos[c]? with
  | none => simp [ht] at hp
  | some t => exact ⟨t, rfl, by simpa [ht] using hp⟩

/-- A context other than `b` that has `b` on its chain has a parent, and `b` is
on the chain of that parent. -/
theorem onChain_step (h : Heap) (b a : Nat) (hc : OnChain h b a) (hne : a ≠ b) :
    ∃ t p, h.memos[a]? = some t ∧ t.parent = some p ∧ OnChain h b p := by
  obtain ⟨k, hk⟩ := hc
  cases k with
  | zero =>
    unfold ancestorAt at hk
    by_cases hl : a < h.memos.length
    · simp [hl] at hk; exact absurd hk hne
    · simp [hl] at hk
  | succ k =>
    unfold ancestorAt at hk
    cases hp : h.getParent a with
    | none => simp [hp] at hk
    | some p =>
      obtain ⟨t, ht, htp⟩ := getParent_some h a p hp
      simp [hp] at hk
      exact ⟨t, p, ht, htp, k, hk⟩

/-- With `from` on the chain of `self`, valid mappings and a constructed object,
`source` returns a constructed object. -/
theorem source_total (cfg : Config) (h : Heap) (hw : h.WellFormed) (from' o : Nat) :
    ∀ (fuel self : Nat), self < fuel → OnChain h from' self → h.MapsValid →
      (h.obj o).isSome = true →
      ∃ r h1, source cfg fuel h self o from' = .ok (r, h1) ∧ h1.MapsValid ∧
        (h1.obj r).isSome = true ∧ (∀ a, (h.obj a).isSome = true → (h1.obj a).isSome = true)
  | 0, self => by intro hf; omega
  | fuel + 1, self => by
    intro hf hc hmv ho
    by_cases hsf : self = from'
    · subst hsf
      exact ⟨o, h, source_self cfg fuel h self o, hmv, ho, fun _ ha => ha⟩
    · obtain ⟨t, p, ht, hp, hcp⟩ := onChain_step h from' self hc hsf
      have hlt := wf_parent_lt h hw self p t ht hp
      obtain ⟨r0, h0, hr, hmv0, hr0, hmono⟩ :=
        source_total cfg h hw from' o fuel p (by omega) hcp hmv ho
      obtain ⟨a1, _⟩ := source_frame cfg fuel h p o from' r0 h0 hr
      obtain ⟨t1, ht1, _, _⟩ := links_some h h0 a1 self t ht
      have hm1 : h0.mapOf self = some t1.m := by simp [Heap.mapOf, ht1]
      by_cases hm : cfg.memoAt t.gen
      · cases hg : t.m.get o with
        | some r =>
          refine ⟨r, h, source_hit cfg fuel h self o from' r t hsf ht hm hg, hmv, ?_,
            fun _ ha => ha⟩
          exact mapsValid_get h hmv self t.m (by simp [Heap.mapOf, ht]) o r hg
        | none =>
          rw [source_miss cfg fuel h self o from' p r0 t h0 t1.m hsf ht hm hg hp hr hm1]
          have hval : (h0.obj (if r0 ≠ o then t1.m.getD r0 r0 else r0)).isSome = true := by
            by_cases hro : r0 ≠ o
            · simp only [hro, if_true, ne_eq, not_false_eq_true]
              exact mapsValid_getD h0 hmv0 self t1.m hm1 r0 hr0
            · simp only [hro, if_false]; exact hr0
          obtain ⟨v, h1, hput, hmv1, hv, hmono1⟩ :=
            put_total h0 hmv0 self o _ t1.m hm1 (hmono o ho) hval
          exact ⟨v, h1, hput, hmv1, hv, fun a ha => hmono1 a (hmono a ha)⟩
      · exact ⟨_, h0, source_plain cfg fuel h self o from' p r0 t h0 t1.m hsf ht hm hp hr hm1,
          hmv0, mapsValid_getD h0 hmv0 self t1.m hm1 r0 hr0, hmono⟩

/-- With `from` on the chain of `self`, valid mappings and a constructed object,
`get` returns. -/
theorem get_total (cfg : Config) (fuel : Nat) (h : Heap) (hw : h.WellFormed)
    (self o from' : Nat) (hf : self < fuel) (hc : OnChain h from' self) (hmv : h.MapsValid)
    (ho : (h.obj o).isSome = true) :
    ∃ x h2, get cfg fuel h self o from' = .ok (x, h2) := by
  by_cases hsf : self = from'
  · exact ⟨o, h, by unfold get; simp [hsf]⟩
  · obtain ⟨t, p, ht, hp, hcp⟩ := onChain_step h from' self hc hsf
    have hlt := wf_parent_lt h hw self p t ht hp
    obtain ⟨r, h1, hs, hmv1, hr1, _⟩ :=
      source_total cfg h hw from' o fuel p (by omega) hcp hmv ho
    have hr : resolve cfg fuel h self o from' = .ok (r, h1) := by
      rw [resolve_eq cfg fuel h self o from' p t ht hp]; exact hs
    obtain ⟨a1, _⟩ := source_frame cfg fuel h p o from' r h1 hs
    obtain ⟨t1, ht1, _, _⟩ := links_some h h1 a1 self t ht
    have hm1 : h1.mapOf self = some t1.m := by simp [Heap.mapOf, ht1]
    cases hl : t1.m.get r with
    | some x => exact ⟨x, h1, get_found cfg fuel h self o from' r x h1 t1.m hsf hr hm1 hl⟩
    | none =>
      cases hy : h1.obj r with
      | none => simp [hy] at hr1
      | some y =>
        cases hfz : y.frozen with
        | false =>
          exact ⟨r, h1, get_mutable cfg fuel h self o from' r h1 t1.m hsf hr hm1 hl
            (by simp [Heap.isFrozen, hy, hfz])⟩
        | true =>
          obtain ⟨h4, hc4, _⟩ := copy_ok h1 self r y t1.m hy hfz hm1 hl
          refine ⟨h1.objs.length, h4, ?_⟩
          rw [get_frozen cfg fuel h self o from' r h1 t1.m hsf hr hm1 hl
            (by simp [Heap.isFrozen, hy, hfz])]
          exact hc4

theorem getRepeated_fixed (cfg : Config) (fuel self o from' x : Nat) (h1 : Heap)
    (hg : get cfg fuel h1 self o from' = .ok (x, h1)) :
    ∀ n, getRepeated cfg fuel self o from' n h1 = .ok (x, h1)
  | 0 => hg
  | n + 1 => by
    unfold getRepeated
    simp only [hg]
    exact getRepeated_fixed cfg fuel self o from' x h1 hg n

/-- C1. Idempotent realization: with `from` equal to `self` or an ancestor of
`self`, `get(o, from)` on `self` returns an object, and every later call in an
unbroken row of such calls returns that same object and leaves the heap exactly
as the first call left it, so no further clone is created. -/
theorem get_idempotent (cfg : Config) (fuel : Nat) (h : Heap) (self o from' : Nat)
    (hw : h.WellFormed) (hmv : h.MapsValid) (ho : (h.obj o).isSome = true)
    (hc : OnChain h from' self) (hf : self < fuel) :
    ∃ x h1, get cfg fuel h self o from' = .ok (x, h1) ∧
      ∀ n, getRepeated cfg fuel self o from' n h1 = .ok (x, h1) := by
  obtain ⟨x, h1, hg⟩ := get_total cfg fuel h hw self o from' hf hc hmv ho
  exact ⟨x, h1, hg, getRepeated_fixed cfg fuel self o from' x h1
    (get_again cfg fuel h hw self o from' x h1 hg)⟩

theorem get_idempotent_witness :
    ∃ x h1, get cfgOn 3 exampleHeap 2 0 0 = .ok (x, h1) ∧
      ∀ n, getRepeated cfgOn 3 2 0 0 n h1 = .ok (x, h1) :=
  get_idempotent cfgOn 3 exampleHeap 2 0 0 (by decide) (by decide) (by decide)
    ⟨2, by decide⟩ (by decide)

/-- Without the clone-memo shortcut `source` changes nothing. -/
theorem source_noMemo (cfg : Config) (hoff : cfg.ENABLE_CLONE_MEMO = false) :
    ∀ (fuel : Nat) (h : Heap) (self o from' r : Nat) (h1 : Heap),
    source cfg fuel h self o from' = .ok (r, h1) → h1 = h
  | 0, h, self, o, from', r, h1 => by intro hs; simp [source] at hs
  | fuel + 1, h, self, o, from', r, h1 => by
    intro hs
    have hno : ∀ g, ¬ cfg.memoAt g := by
      intro g hg; unfold Config.memoAt at hg; rw [hoff] at hg; simp at hg
    rcases source_inv cfg fuel h self o from' r h1 hs with
      ⟨_, _, e⟩ | ⟨_, t, _, ⟨hm, _, _⟩ | ⟨hm, _⟩ | ⟨_, p, r0, m1, _, hr, _, _⟩⟩
    · exact e
    · exact absurd hm (hno _)
    · exact absurd hm (hno _)
    · exact source_noMemo cfg hoff fuel h p o from' r0 h1 hr

theorem resolve_noMemo (cfg : Config) (hoff : cfg.ENABLE_CLONE_MEMO = false)
    (fuel : Nat) (h : Heap) (self o from' r : Nat) (h1 : Heap)
    (hr : resolve cfg fuel h self o from' = .ok (r, h1)) : h1 = h := by
  obtain ⟨t, p, _, _, hs⟩ := resolve_inv cfg fuel h self o from' r h1 hr
  exact source_noMemo cfg hoff fuel h p o from' r h1 hs

/-- The mapping of `self` exists after a successful resolution and is the one
from before the call. -/
theorem resolve_mapOf (cfg : Config) (fuel : Nat) (h : Heap) (hw : h.WellFormed)
    (self o from' r : Nat) (h1 : Heap)
    (hr : resolve cfg fuel h self o from' = .ok (r, h1)) :
    ∃ m1, h.mapOf self = some m1 ∧ h1.mapOf self = some m1 := by
  obtain ⟨t, p, ht, _, _⟩ := resolve_inv cfg fuel h self o from' r h1 hr
  obtain ⟨_, _, a3⟩ := resolve_frame cfg fuel h hw self o from' r h1 hr
  refine ⟨t.m, by simp [Heap.mapOf, ht], ?_⟩
  rw [mapOf_congr h h1 self (a3 self (le_refl _))]
  simp [Heap.mapOf, ht]

/-- C2. Postcondition of `get(o, from)` on `self`: for `self == from` it
returns `o` and changes nothing; otherwise, with `r` the object returned by the
resolution `getParent()->source(o, from)` and `m1` the mapping of `self` (which
the resolution leaves as it was), it returns the entry of `m1` for `r` when
there is one; with no entry and `r` not frozen it returns `r` and adds no
entry; with no entry and `r` frozen it returns a newly allocated clone of `r`
and records `r -> clone` in the mapping of `self`, changing no other context. -/
theorem get_postcondition (cfg : Config) (fuel : Nat) (h : Heap) (self o from' r : Nat)
    (h1 : Heap) (hw : h.WellFormed) (hne : self ≠ from')
    (hr : resolve cfg fuel h self o from' = .ok (r, h1)) :
    get cfg fuel h self o self = .ok (o, h) ∧
    ∃ m1, h.mapOf self = some m1 ∧ h1.mapOf self = some m1 ∧
      (∀ x, m1.get r = some x → get cfg fuel h self o from' = .ok (x, h1)) ∧
      (m1.get r = none → h1.isFrozen r = some false →
        get cfg fuel h self o from' = .ok (r, h1)) ∧
      (m1.get r = none → h1.isFrozen r = some true →
        ∃ h2 y, get cfg fuel h self o from' = .ok (h1.objs.length, h2) ∧
          h2.mapOf self = some { entries := (r, h1.objs.length) :: m1.entries } ∧
          h2.objs.length = h1.objs.length + 1 ∧
          h1.obj r = some y ∧
          h2.obj h1.objs.length =
            some { frozen := false, size := y.size, sharedCount := 1, memoCount := 0 } ∧
          (∀ i, i ≠ self → h2.memos[i]? = h1.memos[i]?)) := by
  refine ⟨by unfold get; simp, ?_⟩
  obtain ⟨m1, hm, hm1⟩ := resolve_mapOf cfg fuel h hw self o from' r h1 hr
  refine ⟨m1, hm, hm1, ?_, ?_, ?_⟩
  · intro x hl
    exact get_found cfg fuel h self o from' r x h1 m1 hne hr hm1 hl
  · intro hl hf
    exact get_mutable cfg fuel h self o from' r h1 m1 hne hr hm1 hl hf
  · intro hl hf
    obtain ⟨y, hy, hyf⟩ := isFrozen_true h1 r hf
    obtain ⟨h4, hc4, hmem, hlen, hk, _, _⟩ := copy_ok h1 self r y m1 hy hyf hm1 hl
    refine ⟨h4, y, ?_, setMap_memos_mapOf h1 h4 self _ m1 hmem hm1, hlen, hy, hk, ?_⟩
    · rw [get_frozen cfg fuel h self o from' r h1 m1 hne hr hm1 hl hf]; exact hc4
    · intro i hi
      exact setMap_memos_getElem?_ne h1 h4 self _ hmem i hi

theorem get_postcondition_witness :
    get cfgOff 3 exampleHeap 2 0 2 = .ok (0, exampleHeap) ∧
    ∃ m1, exampleHeap.mapOf 2 = some m1 ∧ exampleHeap.mapOf 2 = some m1 ∧
      (∀ x, m1.get 0 = some x → get cfgOff 3 exampleHeap 2 0 0 = .ok (x, exampleHeap)) ∧
      (m1.get 0 = none → exampleHeap.isFrozen 0 = some false →
        get cfgOff 3 exampleHeap 2 0 0 = .ok (0, exampleHeap)) ∧
      (m1.get 0 = none → exampleHeap.isFrozen 0 = some true →
        ∃ h2 y, get cfgOff 3 exampleHeap 2 0 0 = .ok (exampleHeap.objs.length, h2) ∧
          h2.mapOf 2 = some { entries := (0, exampleHeap.objs.length) :: m1.entries } ∧
          h2.objs.length = exampleHeap.objs.length + 1 ∧
          exampleHeap.obj 0 = some y ∧
          h2.obj exampleHeap.objs.length =
            some { frozen := false, size := y.size, sharedCount := 1, memoCount := 0 } ∧
          (∀ i, i ≠ 2 → h2.memos[i]? = exampleHeap.memos[i]?)) :=
  get_postcondition cfgOff 3 exampleHeap 2 0 0 0 exampleHeap (by decide) (by decide) (by decide)

/-- C7. `pull` never allocates: for `self == from` it returns `o` and changes
nothing; otherwise, with `r` the object returned by the resolution
`getParent()->source(o, from)`, it returns the entry for `r` in the mapping of
`self` when there is one and `r` itself when there is none, with no test of
the frozen flag; the mapping of `self` after the call is the one from before
the call, no object is allocated, and without the clone-memo shortcut the whole
heap is unchanged. -/
theorem pull_never_allocates (cfg : Config) (fuel : Nat) (h : Heap) (self o from' r : Nat)
    (h1 : Heap) (hw : h.WellFormed) (hne : self ≠ from')
    (hr : resolve cfg fuel h self o from' = .ok (r, h1)) :
    pull cfg fuel h self o self = .ok (o, h) ∧
    ∃ m1, h.mapOf self = some m1 ∧
      pull cfg fuel h self o from' = .ok ((m1.get r).getD r, h1) ∧
      h1.mapOf self = some m1 ∧
      h1.objs.length = h.objs.length ∧
      (cfg.ENABLE_CLONE_MEMO = false → h1 = h) := by
  refine ⟨by unfold pull; simp, ?_⟩
  obtain ⟨m1, hm, hm1⟩ := resolve_mapOf cfg fuel h hw self o from' r h1 hr
  obtain ⟨_, a2, _⟩ := resolve_frame cfg fuel h hw self o from' r h1 hr
  refine ⟨m1, hm, ?_, hm1, a2, fun hoff => resolve_noMemo cfg hoff fuel h self o from' r h1 hr⟩
  unfold pull
  simp only [hne, if_false, hr, hm1]
  cases hl : m1.get r <;> simp

theorem pull_never_allocates_witness :
    pull cfgOff 3 exampleHeap 2 0 2 = .ok (0, exampleHeap) ∧
    ∃ m1, exampleHeap.mapOf 2 = some m1 ∧
      pull cfgOff 3 exampleHeap 2 0 0 = .ok ((m1.get 0).getD 0, exampleHeap) ∧
      exampleHeap.mapOf 2 = some m1 ∧
      exampleHeap.objs.length = exampleHeap.objs.length ∧
      (cfgOff.ENABLE_CLONE_MEMO = false → exampleHeap = exampleHeap) :=
  pull_never_allocates cfgOff 3 exampleHeap 2 0 0 0 exampleHeap (by decide) (by decide)
    (by decide)

/-! ## `finish` and `cross` -/

theorem uninitialized_put_insert (h : Heap) (self key value : Nat) (m : Map)
    (hm : h.mapOf self = some m) (hg : m.get key = none) :
    h.uninitialized_put self key value =
      .ok (value, h.setMap self { entries := (key, value) :: m.entries }) := by
  unfold Heap.uninitialized_put
  simp only [hm, Map.insert_none m key value hg]

theorem entry_of_mapOf (h : Heap) (c key : Nat) (m : Map) (hm : h.mapOf c = some m) :
    h.entry c key = m.get key := by
  unfold Heap.entry; simp [hm]

/-- The not-found branch of `finish` and `cross`, step by step: the block is
registered in the mapping while nothing is constructed in it, the clone is then
constructed in that block, the original gains one memo reference and the clone
one shared reference. -/
theorem cloneInto_ok (h : Heap) (self o : Nat) (y : LazyAny) (m : Map)
    (ho : h.obj o = some y) (hm : h.mapOf self = some m) (hg : m.get o = none) :
    ∃ h2 h3 h5,
      (h.allocate y.size).2.uninitialized_put self o h.objs.length = .ok (h.objs.length, h2) ∧
      h2.entry self o = some h.objs.length ∧
      h2.objs[h.objs.length]? = some none ∧
      h2.clone_ o h.objs.length = .ok (h.objs.length, h3) ∧
      h3.obj o = some y ∧
      h3.obj h.objs.length =
        some { frozen := false, size := y.size, sharedCount := 0, memoCount := 0 } ∧
      cloneInto h self o = .ok (h.objs.length, h5) ∧
      h5.memos = (h.setMap self { entries := (o, h.objs.length) :: m.entries }).memos ∧
      h5.objs.length = h.objs.length + 1 ∧
      h5.obj o = some { y with memoCount := y.memoCount + 1 } ∧
      h5.obj h.objs.length =
        some { frozen := false, size := y.size, sharedCount := 0 + 1, memoCount := 0 } ∧
      (∀ a, a ≠ o → a ≠ h.objs.length → h5.obj a = h.obj a) := by
  have hol : o < h.objs.length := obj_lt h o y ho
  have hne : o ≠ h.objs.length := by omega
  have hmA : (h.allocate y.size).2.mapOf self = some m := hm
  have hput := uninitialized_put_insert (h.allocate y.size).2 self o h.objs.length m hmA hg
  generalize hh2 : (h.allocate y.size).2.setMap self
    { entries := (o, h.objs.length) :: m.entries } = h2 at hput
  have h2obj : ∀ a, h2.obj a = h.obj a := by
    intro a; rw [← hh2, setMap_obj, obj_allocate]
  have h2blk : h2.objs[h.objs.length]? = some none := by
    rw [← hh2, setMap_objs]; exact allocate_block h y.size
  have h2m : h2.memos = (h.setMap self { entries := (o, h.objs.length) :: m.entries }).memos := by
    rw [← hh2]; exact setMap_memos_eq _ _ _ _ rfl
  have h2l : h2.objs.length = h.objs.length + 1 := by
    rw [← hh2, setMap_objs, allocate_length]
  have h2e : h2.entry self o = some h.objs.length := by
    rw [entry_of_mapOf h2 self o _ (setMap_memos_mapOf h h2 self _ m h2m hm), Map.get_cons,
      if_pos rfl]
  have hclone := clone_spec h2 o h.objs.length y (by rw [h2obj]; exact ho) h2blk
  generalize hh3 : h2.setObj h.objs.length
    { frozen := false, size := y.size, sharedCount := 0, memoCount := 0 } = h3 at hclone
  have h3k : h3.obj h.objs.length =
      some { frozen := false, size := y.size, sharedCount := 0, memoCount := 0 } := by
    rw [← hh3, obj_setObj]; simp [h2l]
  have h3o : ∀ a, a ≠ h.objs.length → h3.obj a = h.obj a := by
    intro a ha
    rw [← hh3, obj_setObj, if_neg (Ne.symm ha), h2obj]
  have h3m : h3.memos = h2.memos := by rw [← hh3]; rfl
  have h3l : h3.objs.length = h.objs.length + 1 := by rw [← hh3, setObj_length, h2l]
  have hincM := incMemo_spec h3 o y (by rw [h3o o hne]; exact ho)
  generalize hh4 : h3.setObj o { y with memoCount := y.memoCount + 1 } = h4 at hincM
  have h4k : h4.obj h.objs.length =
      some { frozen := false, size := y.size, sharedCount := 0, memoCount := 0 } := by
    rw [← hh4, obj_setObj, if_neg hne]; exact h3k
  have h4o : h4.obj o = some { y with memoCount := y.memoCount + 1 } := by
    rw [← hh4, obj_setObj]; simp [h3l]; omega
  have h4a : ∀ a, a ≠ o → a ≠ h.objs.length → h4.obj a = h.obj a := by
    intro a ha1 ha2
    rw [← hh4, obj_setObj, if_neg (Ne.symm ha1), h3o a ha2]
  have h4l : h4.objs.length = h.objs.length + 1 := by rw [← hh4, setObj_length, h3l]
  have h4m : h4.memos = h2.memos := by rw [← hh4, setObj_memos, h3m]
  have hincS := incShared_spec h4 h.objs.length _ h4k
  refine ⟨h2, h3, h4.setObj h.objs.length
    { frozen := false, size := y.size, sharedCount := 0 + 1, memoCount := 0 },
    hput, h2e, h2blk, hclone, by rw [h3o o hne]; exact ho, h3k, ?_, ?_, ?_, ?_, ?_, ?_⟩
  · unfold cloneInto
    simp only [ho, allocate_fst, hput, hclone, hincM, hincS, ne_eq, not_true_eq_false,
      if_false]
  · rw [setObj_memos, h4m, h2m]
  · rw [setObj_length, h4l]
  · rw [obj_setObj, if_neg (Ne.symm hne)]; exact h4o
  · rw [obj_setObj]; simp [h4l]
  · intro a ha1 ha2
    rw [obj_setObj, if_neg (Ne.symm ha2)]; exact h4a a ha1 ha2

theorem objs_ext (h h' : Heap) (hl : h'.objs.length = h.objs.length)
    (ho : ∀ a, h'.obj a = h.obj a) : h'.objs = h.objs := by
  apply List.ext_getElem?
  intro a
  by_cases ha : a < h.objs.length
  · have h1 := ho a
    unfold Heap.obj at h1
    rw [List.getElem?_eq_getElem ha, List.getElem?_eq_getElem (by omega : a < h'.objs.length)]
      at h1
    rw [List.getElem?_eq_getElem ha, List.getElem?_eq_getElem (by omega : a < h'.objs.length)]
    simpa using h1
  · rw [List.getElem?_eq_none (by omega), List.getElem?_eq_none (by omega)]

theorem obj_congr (h h' : Heap) (ho : h'.objs = h.objs) (a : Nat) : h'.obj a = h.obj a := by
  unfold Heap.obj; rw [ho]

/-- `cross` reads only the mapping of `self` and the object storage. -/
theorem cross_local (h h' : Heap) (self o : Nat) (hm : h'.mapOf self = h.mapOf self)
    (ho : h'.objs = h.objs) :
    viewOf self (cross h' self o) = viewOf self (cross h self o) := by
  unfold cross
  rw [hm]
  cases hmm : h.mapOf self with
  | none => rfl
  | some m =>
    simp only []
    cases hg : m.get o with
    | some x => simp [viewOf, hm, ho, hmm]
    | none =>
      simp only []
      cases hy : h.obj o with
      | none =>
        have hy' : h'.obj o = none := by rw [obj_congr h h' ho]; exact hy
        unfold cloneInto; simp [hy, hy', viewOf]
      | some y =>
        have hy' : h'.obj o = some y := by rw [obj_congr h h' ho]; exact hy
        obtain ⟨_, _, h5, _, _, _, _, _, _, hc, hmem, hlen, h5o, h5k, h5a⟩ :=
          cloneInto_ok h self o y m hy hmm hg
        obtain ⟨_, _, k5, _, _, _, _, _, _, kc, kmem, klen, k5o, k5k, k5a⟩ :=
          cloneInto_ok h' self o y m hy' (by rw [hm, hmm]) hg
        have hlen' : h'.objs.length = h.objs.length := by rw [ho]
        rw [hc, kc]
        have e1 : k5.mapOf self = h5.mapOf self := by
          rw [setMap_memos_mapOf h' k5 self _ m kmem (by rw [hm, hmm]),
            setMap_memos_mapOf h h5 self _ m hmem hmm, hlen']
        have e2 : k5.objs = h5.objs := by
          apply objs_ext
          · rw [klen, hlen, hlen']
          · intro a
            by_cases ha1 : a = o
            · rw [ha1, k5o, h5o]
            · by_cases ha2 : a = h.objs.length
              · rw [ha2, h5k, ← hlen', k5k]
              · rw [k5a a ha1 (by rw [hlen']; exact ha2), h5a a ha1 ha2, obj_congr h h' ho]
        simp [viewOf, e1, e2, hlen']

/-- C9. `cross(o)` performs no parent traversal and is idempotent: what it
returns and what it does to the mapping of `self` and to the object storage is
the same in every heap with the same mapping of `self` and the same object
storage, whatever the parent links and the other mappings are; on a context
with no entry for `o` the first call returns a newly allocated clone, records
`o -> clone`, and raises the memo count of `o` and the shared count of the
clone by one each, touching no other object and no other context; a later call
returns that clone and changes nothing. -/
theorem cross_idempotent (h : Heap) (self o : Nat) (y : LazyAny) (m : Map)
    (hm : h.mapOf self = some m) (hg : m.get o = none) (ho : h.obj o = some y) :
    (∀ h', h'.mapOf self = h.mapOf self → h'.objs = h.objs →
      viewOf self (cross h' self o) = viewOf self (cross h self o)) ∧
    ∃ h5, cross h self o = .ok (h.objs.length, h5) ∧
      h5.mapOf self = some { entries := (o, h.objs.length) :: m.entries } ∧
      h5.objs.length = h.objs.length + 1 ∧
      h5.obj o = some { y with memoCount := y.memoCount + 1 } ∧
      h5.obj h.objs.length =
        some { frozen := false, size := y.size, sharedCount := 0 + 1, memoCount := 0 } ∧
      (∀ a, a ≠ o → a ≠ h.objs.length → h5.obj a = h.obj a) ∧
      (∀ i, i ≠ self → h5.memos[i]? = h.memos[i]?) ∧
      cross h5 self o = .ok (h.objs.length, h5) := by
  refine ⟨fun h' e1 e2 => cross_local h h' self o e1 e2, ?_⟩
  obtain ⟨_, _, h5, _, _, _, _, _, _, hc, hmem, hlen, h5o, h5k, h5a⟩ :=
    cloneInto_ok h self o y m ho hm hg
  have hm5 := setMap_memos_mapOf h h5 self _ m hmem hm
  refine ⟨h5, ?_, hm5, hlen, h5o, h5k, h5a,
    fun i hi => setMap_memos_getElem?_ne h h5 self _ hmem i hi, ?_⟩
  · unfold cross; simp only [hm, hg]; exact hc
  · unfold cross; simp only [hm5, Map.get_cons, if_pos]

theorem cross_idempotent_witness :
    (∀ h', h'.mapOf 1 = exampleHeap.mapOf 1 → h'.objs = exampleHeap.objs →
      viewOf 1 (cross h' 1 0) = viewOf 1 (cross exampleHeap 1 0)) ∧
    ∃ h5, cross exampleHeap 1 0 = .ok (exampleHeap.objs.length, h5) ∧
      h5.mapOf 1 = some { entries := (0, exampleHeap.objs.length) :: ([] : List (Nat × Nat)) } ∧
      h5.objs.length = exampleHeap.objs.length + 1 ∧
      h5.obj 0 = some { frozen := true, size := 8, sharedCount := 1, memoCount := 0 + 1 } ∧
      h5.obj exampleHeap.objs.length =
        some { frozen := false, size := 8, sharedCount := 0 + 1, memoCount := 0 } ∧
      (∀ a, a ≠ 0 → a ≠ exampleHeap.objs.length → h5.obj a = exampleHeap.obj a) ∧
      (∀ i, i ≠ 1 → h5.memos[i]? = exampleHeap.memos[i]?) ∧
      cross h5 1 0 = .ok (exampleHeap.objs.length, h5) :=
  cross_idempotent exampleHeap 1 0 { frozen := true, size := 8, sharedCount := 1, memoCount := 0 }
    { entries := [] } (by decide) (by decide) (by decide)

/-! ## `hasAncestor` -/

/-- One unfolding of `hasAncestor` on valid pointers. -/
theorem hasAncestor_step (cfg : Config) (fuel : Nat) (h : Heap) (self memo : Nat)
    (t mm : LazyMemo) (ht : h.memos[self]? = some t) (hmm : h.memos[memo]? = some mm) :
    hasAncestor cfg (fuel + 1) h self memo =
      if t.gen ≤ mm.gen then .ok (false, h)
      else if t.parent = some memo then .ok (true, h)
      else if cfg.ENABLE_ANCESTRY_MEMO = true ∧ t.gen % cfg.ANCESTRY_MEMO_DELTA = 0
          ∧ memo ∈ t.a then .ok (true, h)
      else
        match t.parent with
        | none => .abort
        | some p =>
          match hasAncestor cfg fuel h p memo with
          | .ok (result, h1) =>
            if cfg.ENABLE_ANCESTRY_MEMO = true ∧ result = true
                ∧ t.gen % cfg.ANCESTRY_MEMO_DELTA = 0 then
              .ok (result, h1.insertAncestor self memo)
            else .ok (result, h1)
          | .abort => .abort
          | .timeout => .timeout := by
  rw [hasAncestor]; simp only [ht, hmm]

theorem wf_root_gen (h : Heap) (hw : h.WellFormed) (i : Nat) (t : LazyMemo)
    (ht : h.memos[i]? = some t) (hp : t.parent = none) : t.gen = 0 := by
  have hi : i < h.memos.length := (List.getElem?_eq_some.mp ht).1
  have := hw i hi
  unfold Heap.parentOK at this
  simpa [ht, hp] using this

/-- Without the cache, `hasAncestor` on contexts of a well-formed arena returns
an answer and changes nothing. -/
theorem walk_total (cfg : Config) (hoff : cfg.ENABLE_ANCESTRY_MEMO = false) (h : Heap)
    (hw : h.WellFormed) (memo : Nat) (hb : memo < h.memos.length) :
    ∀ (fuel self : Nat), self < fuel → self < h.memos.length →
      ∃ b, hasAncestor cfg fuel h self memo = .ok (b, h)
  | 0, self => by intro hf; omega
  | fuel + 1, self => by
    intro hf hs
    have ht := List.getElem?_eq_getElem hs
    have hmm := List.getElem?_eq_getElem hb
    rw [hasAncestor_step cfg fuel h self memo _ _ ht hmm]
    by_cases h1 : (h.memos[self]).gen ≤ (h.memos[memo]).gen
    · exact ⟨false, by simp only [h1, if_true]⟩
    · by_cases h2 : (h.memos[self]).parent = some memo
      · exact ⟨true, by simp only [h1, h2, if_true, if_false]⟩
      · simp only [h1, h2, hoff, if_false, false_and, Bool.false_eq_true]
        cases hp : (h.memos[self]).parent with
        | none =>
          exfalso
          have := wf_root_gen h hw self _ ht hp
          omega
        | some p =>
          have hlt := wf_parent_lt h hw self p _ ht hp
          obtain ⟨b, hb'⟩ := walk_total cfg hoff h hw memo hb fuel p (by omega) (by omega)
          exact ⟨b, by simp only [hb']⟩

/-- More fuel does not change a result of `hasAncestor`. -/
theorem hasAncestor_fuel_succ (cfg : Config) (memo : Nat) :
    ∀ (fuel : Nat) (h : Heap) (self : Nat) (x : Bool × Heap),
      hasAncestor cfg fuel h self memo = .ok x → hasAncestor cfg (fuel + 1) h self memo = .ok x
  | 0, h, self, x => by intro hs; simp [hasAncestor] at hs
  | fuel + 1, h, self, x => by
    intro hs
    cases ht : h.memos[self]? with
    | none => rw [hasAncestor] at hs; simp [ht] at hs
    | some t =>
      cases hmm : h.memos[memo]? with
      | none => rw [hasAncestor] at hs; simp [ht, hmm] at hs
      | some mm =>
        rw [hasAncestor_step cfg fuel h self memo t mm ht hmm] at hs
        rw [hasAncestor_step cfg (fuel + 1) h self memo t mm ht hmm]
        by_cases h1 : t.gen ≤ mm.gen
        · simp only [h1, if_true] at hs ⊢; exact hs
        · by_cases h2 : t.parent = some memo
          · simp only [h1, h2, if_true, if_false] at hs ⊢; exact hs
          · by_cases h3 : cfg.ENABLE_ANCESTRY_MEMO = true ∧ t.gen % cfg.ANCESTRY_MEMO_DELTA = 0
                ∧ memo ∈ t.a
            · simp only [h1, h2, h3, and_self, if_true, if_false] at hs ⊢; exact hs
            · simp only [h1, h2, h3, if_false] at hs ⊢
              cases hp : t.parent with
              | none => simp [hp] at hs
              | some p =>
                simp only [hp] at hs ⊢
                cases hr : hasAncestor cfg fuel h p memo with
                | abort => simp [hr] at hs
                | timeout => simp [hr] at hs
                | ok y =>
                  rw [hasAncestor_fuel_succ cfg memo fuel h p y hr]
                  simp only [hr] at hs
                  exact hs

theorem hasAncestor_fuel_le (cfg : Config) (memo : Nat) (h : Heap) (self : Nat)
    (x : Bool × Heap) (fuel : Nat) (hs : hasAncestor cfg fuel h self memo = .ok x) :
    ∀ fuel', fuel ≤ fuel' → hasAncestor cfg fuel' h self memo = .ok x := by
  intro fuel' hle
  induction fuel' with
  | zero =>
    have : fuel = 0 := by omega
    subst this; exact hs
  | succ n ih =>
    by_cases hn : fuel = n + 1
    · subst hn; exact hs
    · exact hasAncestor_fuel_succ cfg memo n h self x (ih (by omega))

theorem withoutCaches_links (h h1 : Heap) (hc : h1.withoutCaches = h.withoutCaches) :
    h1.links = h.links := by
  have := congrArg (fun k => k.memos.map (fun t => (t.parent, t.gen))) hc
  simpa [Heap.withoutCaches, Heap.links, List.map_map, Function.comp] using this

theorem insertAncestor_withoutCaches (h : Heap) (self memo : Nat) :
    (h.insertAncestor self memo).withoutCaches = h.withoutCaches := by
  unfold Heap.insertAncestor
  cases ht : h.memos[self]? with
  | none => rfl
  | some t =>
    simp only []
    by_cases hm : memo ∈ t.a
    · simp [hm]
    · simp only [hm, if_false]
      unfold Heap.withoutCaches Heap.setMemo
      simp only [List.map_set]
      congr 1
      apply List.ext_getElem?
      intro n
      rw [List.getElem?_set]
      by_cases hn : self = n
      · subst hn
        simp [List.getElem?_map, ht]
        exact (List.getElem?_eq_some.mp ht).1
      · simp [hn]

theorem insertAncestor_getElem?_ne (h : Heap) (self memo i : Nat) (hi : i ≠ self) :
    (h.insertAncestor self memo).memos[i]? = h.memos[i]? := by
  unfold Heap.insertAncestor
  cases ht : h.memos[self]? with
  | none => rfl
  | some t =>
    simp only []
    by_cases hm : memo ∈ t.a
    · simp [hm]
    · simp [hm, Heap.setMemo, List.getElem?_set, Ne.symm hi]

theorem insertAncestor_getElem?_self (h : Heap) (self memo : Nat) (t : LazyMemo)
    (ht : h.memos[self]? = some t) :
    ∃ t1, (h.insertAncestor self memo).memos[self]? = some t1 ∧
      (∀ x, x ∈ t1.a → x = memo ∨ x ∈ t.a) := by
  unfold Heap.insertAncestor
  simp only [ht]
  by_cases hm : memo ∈ t.a
  · exact ⟨t, by simp [hm, ht], fun x hx => Or.inr hx⟩
  · refine ⟨{ t with a := memo :: t.a }, ?_, ?_⟩
    · simp [hm, Heap.setMemo, List.getElem?_set, (List.getElem?_eq_some.mp ht).1]
    · intro x hx
      simpa using hx

/-- `hasAncestor` changes nothing but ancestry caches. -/
theorem hasAncestor_frame (cfg : Config) (memo : Nat) :
    ∀ (fuel : Nat) (h : Heap) (self : Nat) (b : Bool) (h1 : Heap),
      hasAncestor cfg fuel h self memo = .ok (b, h1) → h1.withoutCaches = h.withoutCaches
  | 0, h, self, b, h1 => by intro hs; simp [hasAncestor] at hs
  | fuel + 1, h, self, b, h1 => by
    intro hs
    cases ht : h.memos[self]? with
    | none => rw [hasAncestor] at hs; simp [ht] at hs
    | some t =>
      cases hmm : h.memos[memo]? with
      | none => rw [hasAncestor] at hs; simp [ht, hmm] at hs
      | some mm =>
        rw [hasAncestor_step cfg fuel h self memo t mm ht hmm] at hs
        by_cases h1' : t.gen ≤ mm.gen
        · simp only [h1', if_true] at hs
          injection hs with hs; injection hs with _ e; rw [← e]
        · by_cases h2 : t.parent = some memo
          · simp only [h1', h2, if_true, if_false] at hs
            injection hs with hs; injection hs with _ e; rw [← e]
          · by_cases h3 : cfg.ENABLE_ANCESTRY_MEMO = true ∧ t.gen % cfg.ANCESTRY_MEMO_DELTA = 0
                ∧ memo ∈ t.a
            · simp only [h1', h2, h3, and_self, if_true, if_false] at hs
              injection hs with hs; injection hs with _ e; rw [← e]
            · simp only [h1', h2, h3, if_false] at hs
              cases hp : t.parent with
              | none => simp [hp] at hs
              | some p =>
                simp only [hp] at hs
                cases hr : hasAncestor cfg fuel h p memo with
                | abort => simp [hr] at hs
                | timeout => simp [hr] at hs
                | ok y =>
                  obtain ⟨r, h0⟩ := y
                  simp only [hr] at hs
                  have ih := hasAncestor_frame cfg memo fuel h p r h0 hr
                  by_cases h4 : cfg.ENABLE_ANCESTRY_MEMO = true ∧ r = true
                      ∧ t.gen % cfg.ANCESTRY_MEMO_DELTA = 0
                  · simp only [h4, and_self, if_true] at hs
                    injection hs with hs; injection hs with _ e
                    rw [← e, insertAncestor_withoutCaches]; exact ih
                  · simp only [h4, if_false] at hs
                    injection hs with hs; injection hs with _ e
                    rw [← e]; exact ih

/-- The walk without the cache reads only the tree structure. -/
theorem walk_links (cfg : Config) (hoff : cfg.ENABLE_ANCESTRY_MEMO = false) (h h1 : Heap)
    (hl : h1.links = h.links) (memo : Nat) :
    ∀ (fuel self : Nat) (b : Bool), hasAncestor cfg fuel h self memo = .ok (b, h) →
      hasAncestor cfg fuel h1 self memo = .ok (b, h1)
  | 0, self, b => by intro hs; simp [hasAncestor] at hs
  | fuel + 1, self, b => by
    intro hs
    cases ht : h.memos[self]? with
    | none => rw [hasAncestor] at hs; simp [ht] at hs
    | some t =>
      cases hmm : h.memos[memo]? with
      | none => rw [hasAncestor] at hs; simp [ht, hmm] at hs
      | some mm =>
        obtain ⟨t1, ht1, tp, tg⟩ := links_some h h1 hl self t ht
        obtain ⟨mm1, hmm1, _, mg⟩ := links_some h h1 hl memo mm hmm
        rw [hasAncestor_step cfg fuel h self memo t mm ht hmm] at hs
        rw [hasAncestor_step cfg fuel h1 self memo t1 mm1 ht1 hmm1, tp, tg, mg]
        by_cases h1' : t.gen ≤ mm.gen
        · simp only [h1', if_true] at hs ⊢
          injection hs with hs; injection hs with e _; rw [e]
        · by_cases h2 : t.parent = some memo
          · simp only [h1', h2, if_true, if_false] at hs ⊢
            injection hs with hs; injection hs with e _; rw [e]
          · simp only [h1', h2, hoff, if_false, false_and, Bool.false_eq_true] at hs ⊢
            cases hp : t.parent with
            | none => simp [hp] at hs
            | some p =>
              simp only [hp] at hs ⊢
              cases hr : hasAncestor cfg fuel h p memo with
              | abort => simp [hr] at hs
              | timeout => simp [hr] at hs
              | ok y =>
                obtain ⟨r, h0⟩ := y
                simp only [hr] at hs
                injection hs with hs; injection hs with e1 e2
                rw [e2] at hr
                rw [walk_links cfg hoff h h1 hl memo fuel p r hr, e1]

/-- Without the cache `hasAncestor` returns the heap it was given. -/
theorem hasAncestor_off_heap (cfg : Config) (hoff : cfg.ENABLE_ANCESTRY_MEMO = false)
    (memo : Nat) :
    ∀ (fuel : Nat) (h : Heap) (self : Nat) (b : Bool) (h1 : Heap),
      hasAncestor cfg fuel h self memo = .ok (b, h1) → h1 = h
  | 0, h, self, b, h1 => by intro hs; simp [hasAncestor] at hs
  | fuel + 1, h, self, b, h1 => by
    intro hs
    cases ht : h.memos[self]? with
    | none => rw [hasAncestor] at hs; simp [ht] at hs
    | some t =>
      cases hmm : h.memos[memo]? with
      | none => rw [hasAncestor] at hs; simp [ht, hmm] at hs
      | some mm =>
        rw [hasAncestor_step cfg fuel h self memo t mm ht hmm] at hs
        by_cases h1' : t.gen ≤ mm.gen
        · simp only [h1', if_true] at hs
          injection hs with hs; injection hs with _ e; rw [← e]
        · by_cases h2 : t.parent = some memo
          · simp only [h1', h2, if_true, if_false] at hs
            injection hs with hs; injection hs with _ e; rw [← e]
          · simp only [h1', h2, hoff, if_false, false_and, Bool.false_eq_true] at hs
            cases hp : t.parent with
            | none => simp [hp] at hs
            | some p =>
              simp only [hp] at hs
              cases hr : hasAncestor cfg fuel h p memo with
              | abort => simp [hr] at hs
              | timeout => simp [hr] at hs
              | ok y =>
                obtain ⟨r, h0⟩ := y
                simp only [hr] at hs
                injection hs with hs; injection hs with _ e
                rw [← e]
                exact hasAncestor_off_heap cfg hoff memo fuel h p r h0 hr

theorem walk_ok_true (cfg : Config) (fuel : Nat) (h : Heap) (i x : Nat) :
    walk cfg fuel h i x = .ok true ↔ hasAncestor cfg.noAncestryMemo fuel h i x = .ok (true, h) := by
  unfold walk
  constructor
  · intro hw
    cases hr : hasAncestor cfg.noAncestryMemo fuel h i x with
    | abort => simp [hr] at hw
    | timeout => simp [hr] at hw
    | ok y =>
      obtain ⟨b, h'⟩ := y
      simp only [hr] at hw
      injection hw with hw
      have := hasAncestor_off_heap cfg.noAncestryMemo rfl x fuel h i b h' hr
      rw [hw, this]
  · intro hr; simp [hr]

theorem cacheOK_mem (cfg : Config) (h : Heap) (hc : h.CacheOK cfg) (i x : Nat) (t : LazyMemo)
    (ht : h.memos[i]? = some t) (hx : x ∈ t.a) :
    hasAncestor cfg.noAncestryMemo (i + 1) h i x = .ok (true, h) := by
  have hi : i < h.memos.length := (List.getElem?_eq_some.mp ht).1
  have := hc i hi
  unfold Heap.cacheOK at this
  simp only [ht, List.all_eq_true, decide_eq_true_eq] at this
  exact (walk_ok_true cfg (i + 1) h i x).mp (this x hx)

/-- Recording in the cache of `self` a context for which the plain walk from
`self` answers true keeps the caches sound. -/
theorem cacheOK_insert (cfg : Config) (h : Heap) (hc : h.CacheOK cfg) (self memo : Nat)
    (hwalk : hasAncestor cfg.noAncestryMemo (self + 1) h self memo = .ok (true, h)) :
    (h.insertAncestor self memo).CacheOK cfg := by
  have hl : (h.insertAncestor self memo).links = h.links :=
    withoutCaches_links _ _ (insertAncestor_withoutCaches h self memo)
  have hlen := links_length _ _ hl
  intro i hi
  rw [hlen] at hi
  unfold Heap.cacheOK
  by_cases his : i = self
  · subst his
    have ht := List.getElem?_eq_getElem hi
    obtain ⟨t1, ht1, hmem⟩ := insertAncestor_getElem?_self h i memo _ ht
    simp only [ht1, List.all_eq_true, decide_eq_true_eq]
    intro x hx
    rw [walk_ok_true]
    rcases hmem x hx with e | e
    · subst e
      exact walk_links cfg.noAncestryMemo rfl h _ hl x (i + 1) i true hwalk
    · exact walk_links cfg.noAncestryMemo rfl h _ hl x (i + 1) i true
        (cacheOK_mem cfg h hc i x _ ht e)
  · rw [insertAncestor_getElem?_ne h self memo i his]
    have ht := List.getElem?_eq_getElem hi
    simp only [ht, List.all_eq_true, decide_eq_true_eq]
    intro x hx
    rw [walk_ok_true]
    exact walk_links cfg.noAncestryMemo rfl h _ hl x (i + 1) i true
      (cacheOK_mem cfg h hc i x _ ht hx)

/-- The answer of the plain walk does not depend on the fuel once there is
enough of it. -/
theorem walk_fuel (cfg : Config) (hoff : cfg.ENABLE_ANCESTRY_MEMO = false) (h : Heap)
    (hw : h.WellFormed) (self memo : Nat) (hs : self < h.memos.length)
    (hb : memo < h.memos.length) (fuel : Nat) (hf : self < fuel) (b : Bool)
    (hr : hasAncestor cfg fuel h self memo = .ok (b, h)) :
    hasAncestor cfg (self + 1) h self memo = .ok (b, h) := by
  obtain ⟨b', hb'⟩ := walk_total cfg hoff h hw memo hb (self + 1) self (by omega) hs
  have := hasAncestor_fuel_le cfg memo h self (b', h) (self + 1) hb' fuel (by omega)
  rw [this] at hr
  injection hr with hr
  injection hr with e _
  rw [← e]; exact hb'

/-- With sound caches, `hasAncestor` with the cache compiled in answers what the
plain walk answers, changes nothing but caches and keeps the caches sound. -/
theorem hasAncestor_refines (cfg : Config) (memo : Nat) :
    ∀ (fuel : Nat) (h : Heap) (self : Nat) (b : Bool), h.WellFormed → h.CacheOK cfg →
      self < fuel → self < h.memos.length → memo < h.memos.length →
      hasAncestor cfg.noAncestryMemo fuel h self memo = .ok (b, h) →
      ∃ h1, hasAncestor cfg fuel h self memo = .ok (b, h1) ∧
        h1.withoutCaches = h.withoutCaches ∧ h1.CacheOK cfg
  | 0, h, self, b => by intro _ _ hf; omega
  | fuel + 1, h, self, b => by
    intro hw hc hf hs hb hoffr
    have ht := List.getElem?_eq_getElem hs
    have hmm := List.getElem?_eq_getElem hb
    have hoffr' := hoffr
    rw [hasAncestor_step cfg.noAncestryMemo fuel h self memo _ _ ht hmm] at hoffr
    rw [hasAncestor_step cfg fuel h self memo _ _ ht hmm]
    by_cases h1 : (h.memos[self]).gen ≤ (h.memos[memo]).gen
    · simp only [h1, if_true] at hoffr ⊢
      injection hoffr with e; injection e with e _
      exact ⟨h, by rw [e], rfl, hc⟩
    · by_cases h2 : (h.memos[self]).parent = some memo
      · simp only [h1, h2, if_true, if_false] at hoffr ⊢
        injection hoffr with e; injection e with e _
        exact ⟨h, by rw [e], rfl, hc⟩
      · by_cases h3 : cfg.ENABLE_ANCESTRY_MEMO = true
            ∧ (h.memos[self]).gen % cfg.ANCESTRY_MEMO_DELTA = 0 ∧ memo ∈ (h.memos[self]).a
        · -- cache hit: the plain walk answers true as well
          simp only [h1, h2, h3, and_self, if_true, if_false]
          have hw1 := cacheOK_mem cfg h hc self memo _ ht h3.2.2
          have := hasAncestor_fuel_le cfg.noAncestryMemo memo h self (true, h) (self + 1) hw1
            (fuel + 1) (by omega)
          rw [this] at hoffr'
          injection hoffr' with e; injection e with e _
          exact ⟨h, by rw [e], rfl, hc⟩
        · simp only [h1, h2, h3, if_false]
          simp only [h1, h2, Config.noAncestryMemo, if_false, false_and,
            Bool.false_eq_true] at hoffr
          cases hp : (h.memos[self]).parent with
          | none => simp [hp] at hoffr
          | some p =>
            simp only [hp] at hoffr ⊢
            have hlt := wf_parent_lt h hw self p _ ht hp
            cases hr : hasAncestor cfg.noAncestryMemo fuel h p memo with
            | abort => simp [Config.noAncestryMemo] at hr; simp [hr] at hoffr
            | timeout => simp [Config.noAncestryMemo] at hr; simp [hr] at hoffr
            | ok y =>
              obtain ⟨r, h0⟩ := y
              have hh0 := hasAncestor_off_heap cfg.noAncestryMemo rfl memo fuel h p r h0 hr
              subst hh0
              have hr' := hr
              simp only [Config.noAncestryMemo] at hr'
              simp only [hr'] at hoffr
              injection hoffr with e; injection e with e _
              subst e
              obtain ⟨h1', hon, hfr, hc1⟩ := hasAncestor_refines cfg memo fuel h0 p r hw hc
                (by omega) (by omega) hb hr
              simp only [hon]
              by_cases h4 : cfg.ENABLE_ANCESTRY_MEMO = true ∧ r = true
                  ∧ (h0.memos[self]).gen % cfg.ANCESTRY_MEMO_DELTA = 0
              · simp only [h4, and_self, if_true]
                refine ⟨_, rfl, ?_, ?_⟩
                · rw [insertAncestor_withoutCaches]; exact hfr
                · apply cacheOK_insert cfg h1' hc1 self memo
                  have hwf := walk_fuel cfg.noAncestryMemo rfl h0 hw self memo hs hb (fuel + 1)
                    hf r hoffr'
                  rw [h4.2.1] at hwf
                  exact walk_links cfg.noAncestryMemo rfl h0 h1'
                    (withoutCaches_links _ _ hfr) memo (self + 1) self true hwf
              · simp only [h4, if_false]
                exact ⟨h1', rfl, hfr, hc1⟩

theorem strictAncestor_parent (h : Heap) (a p : Nat) (t : LazyMemo)
    (ht : h.memos[a]? = some t) (hp : t.parent = some p) (hv : p < h.memos.length) :
    StrictAncestor h p a := by
  refine ⟨1, by omega, ?_⟩
  unfold ancestorAt Heap.getParent
  simp [ht, hp, ancestorAt, hv]

theorem strictAncestor_step (h : Heap) (a p b : Nat) (t : LazyMemo)
    (ht : h.memos[a]? = some t) (hp : t.parent = some p) (hs : StrictAncestor h b p) :
    StrictAncestor h b a := by
  obtain ⟨k, hk, hk'⟩ := hs
  refine ⟨k + 1, by omega, ?_⟩
  rw [ancestorAt]
  simp [Heap.getParent, ht, hp, hk']

/-- An answer true of the plain walk names a strict ancestor. -/
theorem walk_sound (cfg : Config) (hoff : cfg.ENABLE_ANCESTRY_MEMO = false) (h : Heap)
    (memo : Nat) :
    ∀ (fuel self : Nat) (h1 : Heap), hasAncestor cfg fuel h self memo = .ok (true, h1) →
      StrictAncestor h memo self
  | 0, self, h1 => by intro hs; simp [hasAncestor] at hs
  | fuel + 1, self, h1 => by
    intro hs
    cases ht : h.memos[self]? with
    | none => rw [hasAncestor] at hs; simp [ht] at hs
    | some t =>
      cases hmm : h.memos[memo]? with
      | none => rw [hasAncestor] at hs; simp [ht, hmm] at hs
      | some mm =>
        have hv : memo < h.memos.length := (List.getElem?_eq_some.mp hmm).1
        rw [hasAncestor_step cfg fuel h self memo t mm ht hmm] at hs
        by_cases h1' : t.gen ≤ mm.gen
        · simp [h1'] at hs
        · by_cases h2 : t.parent = some memo
          · exact strictAncestor_parent h self memo t ht h2 hv
          · simp only [h1', h2, hoff, if_false, false_and, Bool.false_eq_true] at hs
            cases hp : t.parent with
            | none => simp [hp] at hs
            | some p =>
              simp only [hp] at hs
              cases hr : hasAncestor cfg fuel h p memo with
              | abort => simp [hr] at hs
              | timeout => simp [hr] at hs
              | ok y =>
                obtain ⟨r, h0⟩ := y
                simp only [hr] at hs
                injection hs with hs; injection hs with e _
                rw [e] at hr
                exact strictAncestor_step h self p memo t ht hp
                  (walk_sound cfg hoff h memo fuel p h0 hr)

/-- Sequences of queries: from sound caches the run with the cache answers, query
by query, what the run without the cache answers. -/
theorem runQueries_refines (cfg : Config) (fuel : Nat) (h : Heap) (hw : h.WellFormed)
    (hf : h.memos.length ≤ fuel) :
    ∀ (qs : List (Nat × Nat)) (k : Heap),
      (∀ q, q ∈ qs → q.1 < h.memos.length ∧ q.2 < h.memos.length) →
      k.withoutCaches = h.withoutCaches → k.CacheOK cfg →
      ∃ bs k1, runQueries cfg.noAncestryMemo fuel h qs = .ok (bs, h) ∧
        runQueries cfg fuel k qs = .ok (bs, k1) ∧
        k1.withoutCaches = h.withoutCaches ∧ k1.CacheOK cfg
  | [], k => by
    intro _ hk hc
    exact ⟨[], k, rfl, rfl, hk, hc⟩
  | (a, b) :: qs, k => by
    intro hq hk hc
    obtain ⟨ha, hb⟩ := hq (a, b) (List.mem_cons_self _ _)
    have hl := withoutCaches_links h k hk
    have hlen := links_length h k hl
    have hwk : k.WellFormed := wellFormed_of_links h k hl hw
    obtain ⟨r, hr⟩ := walk_total cfg.noAncestryMemo rfl h hw b hb fuel a (by omega) ha
    have hrk := walk_links cfg.noAncestryMemo rfl h k hl b fuel a r hr
    obtain ⟨k1, hon, hfr, hc1⟩ := hasAncestor_refines cfg b fuel k a r hwk hc (by omega)
      (by omega) (by omega) hrk
    obtain ⟨bs, k2, hoffs, hons, hfr2, hc2⟩ := runQueries_refines cfg fuel h hw hf qs k1
      (fun q hq' => hq q (List.mem_cons_of_mem _ hq')) (hfr.trans hk) hc1
    refine ⟨r :: bs, k2, ?_, ?_, hfr2, hc2⟩
    · simp only [runQueries, hr, hoffs]
    · simp only [runQueries, hon, hons]

theorem cacheOK_of_empty (cfg : Config) (h : Heap) (he : ∀ t, t ∈ h.memos → t.a = []) :
    h.CacheOK cfg := by
  intro i hi
  unfold Heap.cacheOK
  have ht := List.getElem?_eq_getElem hi
  simp only [ht, he _ (List.getElem_mem hi), List.all_nil]

/-- C4. Ancestor consistency: on a tree as the constructors leave it, starting
from empty ancestry caches, every sequence of `hasAncestor` queries answered
with the cache compiled in (any positive interval) gets, query by query, the
answers of `hasAncestor` compiled without it, the plain parent-chain walk; the
queries change nothing but the caches, and afterwards every entry of the cache
of a context is a strict ancestor of that context. -/
theorem ancestor_consistency (cfg : Config) (fuel : Nat) (h : Heap) (qs : List (Nat × Nat))
    (_hd : 0 < cfg.ANCESTRY_MEMO_DELTA) (hw : h.WellFormed) (he : ∀ t, t ∈ h.memos → t.a = [])
    (hq : ∀ q, q ∈ qs → q.1 < h.memos.length ∧ q.2 < h.memos.length)
    (hf : h.memos.length ≤ fuel) :
    ∃ bs h1, runQueries cfg.noAncestryMemo fuel h qs = .ok (bs, h) ∧
      runQueries cfg fuel h qs = .ok (bs, h1) ∧
      h1.withoutCaches = h.withoutCaches ∧
      ∀ i t x, h1.memos[i]? = some t → x ∈ t.a → StrictAncestor h1 x i := by
  obtain ⟨bs, h1, hoff, hon, hfr, hc1⟩ := runQueries_refines cfg fuel h hw hf qs h hq rfl
    (cacheOK_of_empty cfg h he)
  refine ⟨bs, h1, hoff, hon, hfr, ?_⟩
  intro i t x ht hx
  exact walk_sound cfg.noAncestryMemo rfl h1 x (i + 1) i h1 (cacheOK_mem cfg h1 hc1 i x t ht hx)

theorem ancestor_consistency_witness :
    ∃ bs h1, runQueries cfgOn.noAncestryMemo 3 exampleHeap [(2, 0), (2, 0), (1, 2), (2, 1)]
        = .ok (bs, exampleHeap) ∧
      runQueries cfgOn 3 exampleHeap [(2, 0), (2, 0), (1, 2), (2, 1)] = .ok (bs, h1) ∧
      h1.withoutCaches = exampleHeap.withoutCaches ∧
      ∀ i t x, h1.memos[i]? = some t → x ∈ t.a → StrictAncestor h1 x i :=
  ancestor_consistency cfgOn 3 exampleHeap [(2, 0), (2, 0), (1, 2), (2, 1)] (by decide)
    (by decide) (by decide) (by decide) (by decide)

/-! ## Trees with the generation invariant -/

theorem tree_parent (h : Heap) (ht : h.Tree) (i p : Nat) (t : LazyMemo)
    (hi : h.memos[i]? = some t) (hp : t.parent = some p) :
    ∃ tp, h.memos[p]? = some tp ∧ p < i ∧ t.gen = tp.gen + 1 := by
  have hlt : i < h.memos.length := (List.getElem?_eq_some.mp hi).1
  have := ht i hlt
  unfold Heap.genOK at this
  simp only [hi, hp] at this
  cases hpp : h.memos[p]? with
  | none => simp [hpp] at this
  | some tp =>
    simp only [hpp, Bool.and_eq_true, decide_eq_true_eq, beq_iff_eq] at this
    exact ⟨tp, rfl, this.1, this.2⟩

theorem tree_wellFormed (h : Heap) (ht : h.Tree) : h.WellFormed := by
  intro i hi
  have hg := ht i hi
  have hti := List.getElem?_eq_getElem hi
  unfold Heap.parentOK
  unfold Heap.genOK at hg
  simp only [hti] at hg ⊢
  cases hp : (h.memos[i]).parent with
  | none => simpa [hp] using hg
  | some p =>
    obtain ⟨tp, _, hlt, _⟩ := tree_parent h ht i p _ hti hp
    simpa using hlt

/-- Along `k` parent links the generation drops by exactly `k`. -/
theorem ancestorAt_gen (h : Heap) (ht : h.Tree) :
    ∀ (k a b : Nat) (ta tb : LazyMemo), ancestorAt h k a = some b →
      h.memos[a]? = some ta → h.memos[b]? = some tb → ta.gen = tb.gen + k
  | 0, a, b, ta, tb => by
    intro hk ha hb
    unfold ancestorAt at hk
    by_cases hl : a < h.memos.length
    · simp only [hl, if_true] at hk
      injection hk with hk
      subst hk
      rw [ha] at hb; injection hb with hb; rw [hb]; rfl
    · simp [hl] at hk
  | k + 1, a, b, ta, tb => by
    intro hk ha hb
    rw [ancestorAt] at hk
    cases hp : h.getParent a with
    | none => simp [hp] at hk
    | some p =>
      simp only [hp, Option.some_bind] at hk
      obtain ⟨t, hta, htp⟩ := getParent_some h a p hp
      rw [ha] at hta; injection hta with hta; subst hta
      obtain ⟨tp, hpp, _, hg⟩ := tree_parent h ht a p ta ha htp
      have := ancestorAt_gen h ht k p b tp tb hk hpp hb
      omega

theorem newChild_ok (h : Heap) (parent : Nat) (p : LazyMemo) (hp : h.memos[parent]? = some p) :
    h.newChild parent =
      .ok (h.memos.length, { h with memos := h.memos ++ [LazyMemo.mkChild parent p] }) := by
  unfold Heap.newChild; simp only [hp]

theorem newChild_inv (h h1 : Heap) (parent c : Nat) (hn : h.newChild parent = .ok (c, h1)) :
    ∃ p, h.memos[parent]? = some p ∧ c = h.memos.length ∧
      h1 = { h with memos := h.memos ++ [LazyMemo.mkChild parent p] } := by
  unfold Heap.newChild at hn
  cases hp : h.memos[parent]? with
  | none => simp [hp] at hn
  | some p =>
    simp only [hp] at hn
    injection hn with hn
    injection hn with e1 e2
    exact ⟨p, rfl, e1.symm, e2.symm⟩

/-- What holds of every context of an arena built by the constructors: its
generation is at most its index, its cache and mapping are empty, a root has
generation 0, and a child was constructed after its parent with the generation
of the parent plus one in `unsigned` arithmetic. -/
theorem built_inv (h : Heap) (hb : Built h) :
    ∀ (i : Nat) (t : LazyMemo), h.memos[i]? = some t →
      t.gen ≤ i ∧ t.a = [] ∧ t.m.entries = [] ∧
      (t.parent = none → t.gen = 0) ∧
      (∀ p, t.parent = some p → p < i ∧
        ∃ tp, h.memos[p]? = some tp ∧ t.gen = (tp.gen + 1) % UNSIGNED_RANGE) := by
  induction hb with
  | empty objs => intro i t hi; simp at hi
  | root h _ ih =>
    intro i t hi
    simp only [Heap.newRoot] at hi
    by_cases hl : i < h.memos.length
    · rw [List.getElem?_append_left hl] at hi
      obtain ⟨a1, a2, a3, a4, a5⟩ := ih i t hi
      refine ⟨a1, a2, a3, a4, ?_⟩
      intro p hp
      obtain ⟨b1, tp, b2, b3⟩ := a5 p hp
      refine ⟨b1, tp, ?_, b3⟩
      simp only [Heap.newRoot]
      rw [List.getElem?_append_left (by omega)]; exact b2
    · rw [List.getElem?_append_right (by omega)] at hi
      have : i - h.memos.length = 0 := by
        by_contra hne
        rw [List.getElem?_eq_none (by simp; omega)] at hi
        cases hi
      rw [this] at hi
      simp at hi
      subst hi
      simp [LazyMemo.mkRoot]
  | child h parent c h1 _ hn ih =>
    obtain ⟨p, hp, _, e⟩ := newChild_inv h h1 parent c hn
    subst e
    have hpl : parent < h.memos.length := (List.getElem?_eq_some.mp hp).1
    intro i t hi
    simp only at hi
    by_cases hl : i < h.memos.length
    · rw [List.getElem?_append_left hl] at hi
      obtain ⟨a1, a2, a3, a4, a5⟩ := ih i t hi
      refine ⟨a1, a2, a3, a4, ?_⟩
      intro q hq
      obtain ⟨b1, tp, b2, b3⟩ := a5 q hq
      refine ⟨b1, tp, ?_, b3⟩
      simp only
      rw [List.getElem?_append_left (by omega)]; exact b2
    · rw [List.getElem?_append_right (by omega)] at hi
      have h0 : i - h.memos.length = 0 := by
        by_contra hne
        rw [List.getElem?_eq_none (by simp; omega)] at hi
        cases hi
      have hil : i = h.memos.length := by omega
      rw [h0] at hi
      simp at hi
      subst hi
      obtain ⟨a1, _, _, _, _⟩ := ih parent p hp
      refine ⟨?_, rfl, rfl, ?_, ?_⟩
      · simp only [LazyMemo.mkChild]
        have := Nat.mod_le (p.gen + 1) UNSIGNED_RANGE
        omega
      · intro hnone; simp [LazyMemo.mkChild] at hnone
      · intro q hq
        simp only [LazyMemo.mkChild, Option.some.injEq] at hq
        subst hq
        refine ⟨by omega, p, ?_, rfl⟩
        simp only
        rw [List.getElem?_append_left hpl]; exact hp

/-- Arenas built by the constructors are well formed. -/
theorem built_wellFormed (h : Heap) (hb : Built h) : h.WellFormed := by
  intro i hi
  have hti := List.getElem?_eq_getElem hi
  obtain ⟨_, _, _, a4, a5⟩ := built_inv h hb i _ hti
  unfold Heap.parentOK
  simp only [hti]
  cases hp : (h.memos[i]).parent with
  | none => simp [a4 hp]
  | some p => simpa using (a5 p hp).1

/-- With at most `UNSIGNED_RANGE` contexts no generation number has wrapped
around, and the generation invariant holds. -/
theorem built_tree (h : Heap) (hb : Built h) (hn : h.memos.length ≤ UNSIGNED_RANGE) :
    h.Tree := by
  intro i hi
  have hti := List.getElem?_eq_getElem hi
  obtain ⟨_, _, _, a4, a5⟩ := built_inv h hb i _ hti
  unfold Heap.genOK
  simp only [hti]
  cases hp : (h.memos[i]).parent with
  | none => simp [a4 hp]
  | some p =>
    obtain ⟨hlt, tp, htp, hg⟩ := a5 p hp
    obtain ⟨b1, _⟩ := built_inv h hb p tp htp
    simp only [htp, Bool.and_eq_true, decide_eq_true_eq, beq_iff_eq]
    refine ⟨hlt, ?_⟩
    rw [hg]
    exact Nat.mod_eq_of_lt (by omega)

/-- The chain of `n` forks has `n + 1` contexts; context `k` is the child of
context `k - 1` and its generation is `k` in `unsigned` arithmetic. -/
theorem forkChain_spec : ∀ (n : Nat), (forkChain n).memos.length = n + 1 ∧
    Built (forkChain n) ∧
    ∀ k, k ≤ n → ((forkChain n).memos[k]?).map (fun t => (t.parent, t.gen)) =
      some (if k = 0 then none else some (k - 1), k % UNSIGNED_RANGE)
  | 0 => by
    refine ⟨rfl, ?_, ?_⟩
    · exact Built.root { memos := [], objs := [] } (Built.empty [])
    · intro k hk
      have : k = 0 := by omega
      subst this
      simp [forkChain, LazyMemo.mkRoot]
  | n + 1 => by
    obtain ⟨hl, hb, hk⟩ := forkChain_spec n
    have hn : n < (forkChain n).memos.length := by omega
    have htn := List.getElem?_eq_getElem hn
    have hnew := newChild_ok (forkChain n) n _ htn
    have hfc : forkChain (n + 1) = { forkChain n with
        memos := (forkChain n).memos ++ [LazyMemo.mkChild n ((forkChain n).memos[n])] } := by
      rw [forkChain]; simp only [hnew]
    refine ⟨?_, ?_, ?_⟩
    · rw [hfc]; simp [hl]
    · rw [hfc]; exact Built.child (forkChain n) n _ _ hb hnew
    · intro k hk'
      rw [hfc]
      by_cases hkn : k ≤ n
      · simp only
        rw [List.getElem?_append_left (by omega)]
        exact hk k hkn
      · have hkeq : k = n + 1 := by omega
        subst hkeq
        simp only
        rw [List.getElem?_append_right (by omega), hl]
        have hgn := hk n (le_refl _)
        rw [htn] at hgn
        simp only [Option.map_some', Option.some.injEq, Prod.mk.injEq] at hgn
        simp only [Nat.sub_self, List.getElem?_cons_zero, Option.map_some', LazyMemo.mkChild,
          hgn.2, Nat.add_one_ne_zero, if_false, Nat.add_sub_cancel, Option.some.injEq,
          Prod.mk.injEq, true_and]
        simp only [UNSIGNED_RANGE]
        omega

theorem forkChain_getParent (n k : Nat) (hk : k ≤ n) :
    (forkChain n).getParent k = if k = 0 then none else some (k - 1) := by
  obtain ⟨_, _, hs⟩ := forkChain_spec n
  have := hs k hk
  unfold Heap.getParent
  cases ht : (forkChain n).memos[k]? with
  | none => simp [ht] at this
  | some t =>
    simp only [ht, Option.map_some', Option.some.injEq, Prod.mk.injEq] at this
    simp only [this.1]

theorem forkChain_ancestorAt (n : Nat) : ∀ (k c : Nat), c ≤ n → k ≤ c →
    ancestorAt (forkChain n) k c = some (c - k)
  | 0, c => by
    intro hc _
    have hl := (forkChain_spec n).1
    unfold ancestorAt
    simp [hl]; omega
  | k + 1, c => by
    intro hc hk
    rw [ancestorAt, forkChain_getParent n c hc]
    have : c ≠ 0 := by omega
    simp only [this, if_false, Option.some_bind]
    rw [forkChain_ancestorAt n k (c - 1) (by omega) (by omega)]
    congr 1
    omega

/-- C5, as stated, fails where the `unsigned` generation counter wraps around:
the constructor gives the child of a context of generation 4294967295 the
generation 0, not 4294967296; and in the tree built by 4294967296 successive
forks of the newest context, context 4294967296 is the child of context
4294967295, whose generation is 4294967295, has generation 0, and shares that
generation with its strict ancestor the root. -/
theorem generation_wraps_around :
    (LazyMemo.mkChild 4294967295 { LazyMemo.mkRoot with gen := 4294967295 }).gen = 0 ∧
    Built (forkChain 4294967296) ∧
    ((forkChain 4294967296).memos[4294967296]?).map (fun t => (t.parent, t.gen))
      = some (some 4294967295, 0) ∧
    ((forkChain 4294967296).memos[4294967295]?).map (fun t => (t.parent, t.gen))
      = some (some 4294967294, 4294967295) ∧
    ((forkChain 4294967296).memos[0]?).map (fun t => (t.parent, t.gen)) = some (none, 0) ∧
    StrictAncestor (forkChain 4294967296) 0 4294967296 := by
  obtain ⟨_, hb, hs⟩ := forkChain_spec 4294967296
  refine ⟨by decide, hb, ?_, ?_, ?_, ?_⟩
  · exact (hs 4294967296 (le_refl _)).trans (by decide)
  · exact (hs 4294967295 (by decide)).trans (by decide)
  · exact (hs 0 (by decide)).trans (by decide)
  · exact ⟨4294967296, by decide,
      (forkChain_ancestorAt 4294967296 4294967296 4294967296 (le_refl _) (le_refl _)).trans
        (by decide)⟩

/-- C5, amended. The root constructor gives generation 0; the child constructor
gives the generation of the parent plus one whenever that generation is below
4294967295; and in every tree built by the two constructors with at most
4294967296 contexts the generation invariant holds and the generation of a
strict ancestor is strictly smaller than that of its descendant, so no two
contexts related by ancestry share a generation number. -/
theorem generation_monotonicity (h : Heap) (hb : Built h)
    (hn : h.memos.length ≤ UNSIGNED_RANGE) :
    LazyMemo.mkRoot.gen = 0 ∧
    (∀ (ptr : Nat) (parent : LazyMemo), parent.gen + 1 < UNSIGNED_RANGE →
      (LazyMemo.mkChild ptr parent).gen = parent.gen + 1) ∧
    h.Tree ∧
    (∀ (a b : Nat) (ta tb : LazyMemo), StrictAncestor h b a →
      h.memos[a]? = some ta → h.memos[b]? = some tb → tb.gen < ta.gen) := by
  have ht := built_tree h hb hn
  refine ⟨rfl, ?_, ht, ?_⟩
  · intro ptr parent hlt
    simp only [LazyMemo.mkChild]
    exact Nat.mod_eq_of_lt hlt
  · rintro a b ta tb ⟨k, hk, hk'⟩ hta htb
    have := ancestorAt_gen h ht k a b ta tb hk' hta htb
    omega

theorem generation_monotonicity_witness :
    LazyMemo.mkRoot.gen = 0 ∧
    (∀ (ptr : Nat) (parent : LazyMemo), parent.gen + 1 < UNSIGNED_RANGE →
      (LazyMemo.mkChild ptr parent).gen = parent.gen + 1) ∧
    (forkChain 2).Tree ∧
    (∀ (a b : Nat) (ta tb : LazyMemo), StrictAncestor (forkChain 2) b a →
      (forkChain 2).memos[a]? = some ta → (forkChain 2).memos[b]? = some tb →
      tb.gen < ta.gen) :=
  generation_monotonicity (forkChain 2) (forkChain_spec 2).2.1 (by decide)

/-! ## At most one clone per object and context -/

theorem lookupEntry_none : ∀ (es : List (Nat × Nat)) (k : Nat),
    lookupEntry es k = none → k ∉ es.map Prod.fst
  | [], k => by intro _; simp
  | (k0, v0) :: rest, k => by
    intro hl
    unfold lookupEntry at hl
    by_cases hk : k0 = k
    · simp [hk] at hl
    · simp only [hk, if_false] at hl
      have := lookupEntry_none rest k hl
      simp only [List.map_cons, List.mem_cons, not_or]
      exact ⟨fun e => hk e.symm, this⟩

theorem put_effect (h h1 : Heap) (self key value v : Nat)
    (hp : h.put self key value = .ok (v, h1)) :
    h1 = h ∨ (v = value ∧ ∃ m, h.mapOf self = some m ∧ m.get key = none ∧
      h1.memos = (h.setMap self { entries := (key, value) :: m.entries }).memos ∧
      h1.objs.length = h.objs.length) := by
  unfold Heap.put at hp
  cases hm : h.mapOf self with
  | none => simp [hm] at hp
  | some m =>
    simp only [hm] at hp
    cases hg : m.get key with
    | some v0 =>
      simp only [hg] at hp
      injection hp with hp; injection hp with _ e
      exact Or.inl e.symm
    | none =>
      simp only [hg] at hp
      cases h2 : h.incMemo key with
      | none => simp [h2] at hp
      | some ha =>
        simp only [h2] at hp
        cases h3 : ha.incShared value with
        | none => simp [h3] at hp
        | some hb =>
          simp only [h3] at hp
          injection hp with hp; injection hp with e1 e2
          obtain ⟨a1, a2⟩ := incMemo_memos _ _ _ h2
          obtain ⟨b1, b2⟩ := incShared_memos _ _ _ h3
          right
          refine ⟨e1.symm, m, rfl, hg, ?_, ?_⟩
          · rw [← e2, Map.insert_none m key value hg]
            exact setMap_memos_eq h hb self _ (b1.trans a1)
          · rw [← e2, setMap_objs, b2, a2]


theorem grows_refl (h : Heap) : Grows h h := ⟨rfl, fun x => x, fun _ _ _ x => x⟩

theorem grows_trans (h h1 h2 : Heap) (a : Grows h h1) (b : Grows h1 h2) : Grows h h2 :=
  ⟨b.1.trans a.1, fun x => b.2.1 (a.2.1 x), fun c k v x => b.2.2 c k v (a.2.2 c k v x)⟩

/-- Recording an entry for a key that has none. -/
theorem grows_cons (h h1 : Heap) (self key value : Nat) (m : Map)
    (hm : h.mapOf self = some m) (hg : m.get key = none)
    (hmem : h1.memos = (h.setMap self { entries := (key, value) :: m.entries }).memos) :
    Grows h h1 := by
  refine ⟨setMap_memos_links h h1 self _ hmem, ?_, ?_⟩
  · intro hk t ht
    rw [hmem] at ht
    unfold Heap.setMap at ht
    cases htc : h.memos[self]? with
    | none =>
      simp only [htc] at ht
      exact hk t ht
    | some t0 =>
      simp only [htc, Heap.setMemo] at ht
      have tm : t0.m = m := by simpa [Heap.mapOf, htc] using hm
      rcases List.mem_or_eq_of_mem_set ht with e | e
      · exact hk t e
      · subst e
        simp only [Map.keys, List.map_cons, List.nodup_cons]
        refine ⟨lookupEntry_none _ _ hg, ?_⟩
        have := hk t0 (List.getElem?_mem htc)
        rw [tm] at this
        exact this
  · intro c k v hc
    by_cases hcs : c = self
    · subst hcs
      rw [entry_of_mapOf h c k m hm] at hc
      rw [entry_of_mapOf h1 c k _ (setMap_memos_mapOf h h1 c _ m hmem hm), Map.get_cons]
      by_cases hkk : key = k
      · subst hkk; rw [hg] at hc; cases hc
      · simp only [hkk, if_false]; exact hc
    · unfold Heap.entry at hc ⊢
      rw [mapOf_congr h h1 c (setMap_memos_getElem?_ne h h1 self _ hmem c hcs)]
      exact hc

theorem grows_of_memos (h h1 : Heap) (hm : h1.memos = h.memos) : Grows h h1 := by
  refine ⟨by unfold Heap.links; rw [hm], ?_, ?_⟩
  · intro hk t ht; rw [hm] at ht; exact hk t ht
  · intro c k v hc
    unfold Heap.entry Heap.mapOf at hc ⊢
    rw [hm]; exact hc

theorem put_grows (h h1 : Heap) (self key value v : Nat)
    (hp : h.put self key value = .ok (v, h1)) : Grows h h1 := by
  rcases put_effect h h1 self key value v hp with e | ⟨_, m, hm, hg, hmem, _⟩
  · rw [e]; exact grows_refl h
  · exact grows_cons h h1 self key value m hm hg hmem

/-- `source` only ever adds entries for keys that have none. -/
theorem source_grows (cfg : Config) : ∀ (fuel : Nat) (h : Heap) (self o from' r : Nat)
    (h1 : Heap), source cfg fuel h self o from' = .ok (r, h1) → Grows h h1
  | 0, h, self, o, from', r, h1 => by intro hs; simp [source] at hs
  | fuel + 1, h, self, o, from', r, h1 => by
    intro hs
    rcases source_inv cfg fuel h self o from' r h1 hs with
      ⟨_, _, e⟩ | ⟨_, t, _, ⟨_, _, e⟩ | ⟨_, _, p, r0, h0, m1, _, hr, _, hput⟩ |
        ⟨_, p, r0, m1, _, hr, _, _⟩⟩
    · rw [e]; exact grows_refl h
    · rw [e]; exact grows_refl h
    · exact grows_trans h h0 h1 (source_grows cfg fuel h p o from' r0 h0 hr)
        (put_grows h0 h1 self o _ r hput)
    · exact source_grows cfg fuel h p o from' r0 h1 hr

theorem resolve_grows (cfg : Config) (fuel : Nat) (h : Heap) (self o from' r : Nat) (h1 : Heap)
    (hr : resolve cfg fuel h self o from' = .ok (r, h1)) : Grows h h1 := by
  obtain ⟨t, p, _, _, hs⟩ := resolve_inv cfg fuel h self o from' r h1 hr
  exact source_grows cfg fuel h p o from' r h1 hs

theorem cloneInto_inv (h h5 : Heap) (self o x : Nat) (m : Map)
    (hm : h.mapOf self = some m) (hg : m.get o = none)
    (hc : cloneInto h self o = .ok (x, h5)) :
    x = h.objs.length ∧ h5.objs.length = h.objs.length + 1 ∧
    h5.memos = (h.setMap self { entries := (o, h.objs.length) :: m.entries }).memos := by
  cases hy : h.obj o with
  | none => unfold cloneInto at hc; simp [hy] at hc
  | some y =>
    obtain ⟨_, _, k5, _, _, _, _, _, _, kc, kmem, klen, _, _, _⟩ :=
      cloneInto_ok h self o y m hy hm hg
    rw [kc] at hc
    injection hc with hc; injection hc with e1 e2
    subst e2
    exact ⟨e1.symm, klen, kmem⟩

/-- What one call does to mappings and storage: every entry is kept, no
duplicate key appears, and a call that allocates allocates one object, returns
it, and records it for a key that had no entry in the context of the call. -/
theorem step_effect (cfg : Config) (fuel : Nat) (h : Heap) (hw : h.WellFormed) (c : Call)
    (x : Nat) (h1 : Heap) (hs : step cfg fuel h c = .ok (x, h1)) :
    Grows h h1 ∧
    (h1.objs.length = h.objs.length ∨
      (h1.objs.length = h.objs.length + 1 ∧ x = h.objs.length ∧
        ∃ key, h.entry c.self key = none ∧ h1.entry c.self key = some x)) := by
  cases c with
  | get self o from' =>
    simp only [step] at hs
    rcases get_inv cfg fuel h self o from' x h1 hs with
      ⟨_, _, e⟩ | ⟨_, r, h0, m1, hr, hm1, ⟨_, e⟩ | ⟨_, _, _, e⟩ | ⟨hl, hf, hc⟩⟩
    · rw [e]; exact ⟨grows_refl h, Or.inl rfl⟩
    · rw [e]
      exact ⟨resolve_grows cfg fuel h self o from' r h0 hr,
        Or.inl (resolve_frame cfg fuel h hw self o from' r h0 hr).2.1⟩
    · rw [e]
      exact ⟨resolve_grows cfg fuel h self o from' r h0 hr,
        Or.inl (resolve_frame cfg fuel h hw self o from' r h0 hr).2.1⟩
    · obtain ⟨y, hy, hyf⟩ := isFrozen_true h0 r hf
      obtain ⟨h4, hc4, hmem, hlen, _, _, _⟩ := copy_ok h0 self r y m1 hy hyf hm1 hl
      rw [hc4] at hc
      injection hc with hc; injection hc with e1 e2
      subst e2
      obtain ⟨_, a2, _⟩ := resolve_frame cfg fuel h hw self o from' r h0 hr
      obtain ⟨m0, hm0, hm0'⟩ := resolve_mapOf cfg fuel h hw self o from' r h0 hr
      rw [hm1] at hm0'; injection hm0' with hm0'; subst hm0'
      refine ⟨grows_trans h h0 h4 (resolve_grows cfg fuel h self o from' r h0 hr)
        (grows_cons h0 h4 self r _ m1 hm1 hl hmem), Or.inr ⟨by omega, by omega, r, ?_, ?_⟩⟩
      · rw [Call.self, entry_of_mapOf h self r m1 hm0]; exact hl
      · rw [Call.self, entry_of_mapOf h4 self r _ (setMap_memos_mapOf h0 h4 self _ m1 hmem hm1),
          Map.get_cons, if_pos rfl, ← e1]
  | pull self o from' =>
    simp only [step] at hs
    unfold pull at hs
    by_cases hsf : self = from'
    · simp only [hsf, if_true] at hs
      injection hs with hs; injection hs with _ e
      rw [← e]; exact ⟨grows_refl h, Or.inl rfl⟩
    · simp only [hsf, if_false] at hs
      cases hr : resolve cfg fuel h self o from' with
      | abort => simp [hr] at hs
      | timeout => simp [hr] at hs
      | ok y =>
        obtain ⟨r, h0⟩ := y
        simp only [hr] at hs
        have hh : h1 = h0 := by
          cases hm1 : h0.mapOf self with
          | none => simp [hm1] at hs
          | some m1 =>
            simp only [hm1] at hs
            cases hl : m1.get r with
            | none =>
              simp only [hl] at hs
              injection hs with hs; injection hs with _ e; exact e.symm
            | some v =>
              simp only [hl] at hs
              injection hs with hs; injection hs with _ e; exact e.symm
        rw [hh]
        exact ⟨resolve_grows cfg fuel h self o from' r h0 hr,
          Or.inl (resolve_frame cfg fuel h hw self o from' r h0 hr).2.1⟩
  | finish self o from' =>
    simp only [step] at hs
    unfold finish at hs
    by_cases hsf : self = from'
    · simp only [hsf, if_true] at hs
      injection hs with hs; injection hs with _ e
      rw [← e]; exact ⟨grows_refl h, Or.inl rfl⟩
    · simp only [hsf, if_false] at hs
      cases hr : resolve cfg fuel h self o from' with
      | abort => simp [hr] at hs
      | timeout => simp [hr] at hs
      | ok y =>
        obtain ⟨r, h0⟩ := y
        simp only [hr] at hs
        obtain ⟨_, a2, _⟩ := resolve_frame cfg fuel h hw self o from' r h0 hr
        obtain ⟨m1, hm0, hm1⟩ := resolve_mapOf cfg fuel h hw self o from' r h0 hr
        simp only [hm1] at hs
        cases hl : m1.get r with
        | some v =>
          simp only [hl] at hs
          injection hs with hs; injection hs with _ e
          rw [← e]
          exact ⟨resolve_grows cfg fuel h self o from' r h0 hr, Or.inl a2⟩
        | none =>
          simp only [hl] at hs
          obtain ⟨e1, hlen, hmem⟩ := cloneInto_inv h0 h1 self r x m1 hm1 hl hs
          refine ⟨grows_trans h h0 h1 (resolve_grows cfg fuel h self o from' r h0 hr)
            (grows_cons h0 h1 self r _ m1 hm1 hl hmem), Or.inr ⟨by omega, by omega, r, ?_, ?_⟩⟩
          · rw [Call.self, entry_of_mapOf h self r m1 hm0]; exact hl
          · rw [Call.self, entry_of_mapOf h1 self r _
              (setMap_memos_mapOf h0 h1 self _ m1 hmem hm1), Map.get_cons, if_pos rfl, e1]
  | cross self o =>
    simp only [step] at hs
    unfold cross at hs
    cases hm : h.mapOf self with
    | none => simp [hm] at hs
    | some m =>
      simp only [hm] at hs
      cases hl : m.get o with
      | some v =>
        simp only [hl] at hs
        injection hs with hs; injection hs with _ e
        rw [← e]; exact ⟨grows_refl h, Or.inl rfl⟩
      | none =>
        simp only [hl] at hs
        obtain ⟨e1, hlen, hmem⟩ := cloneInto_inv h h1 self o x m hm hl hs
        refine ⟨grows_cons h h1 self o _ m hm hl hmem, Or.inr ⟨hlen, e1, o, ?_, ?_⟩⟩
        · rw [Call.self, entry_of_mapOf h self o m hm]; exact hl
        · rw [Call.self, entry_of_mapOf h1 self o _ (setMap_memos_mapOf h h1 self _ m hmem hm),
            Map.get_cons, if_pos rfl, e1]
  | source self o from' =>
    simp only [step] at hs
    exact ⟨source_grows cfg fuel h self o from' x h1 hs,
      Or.inl (source_frame cfg fuel h self o from' x h1 hs).2⟩


theorem reachable_grows (cfg : Config) (fuel : Nat) (h0 h : Heap) (hw : h0.WellFormed)
    (hr : Reachable cfg fuel h0 h) : Grows h0 h := by
  induction hr with
  | init => exact grows_refl h0
  | call h c x h1 _ hs ih =>
    exact grows_trans h0 h h1 ih
      (step_effect cfg fuel h (wellFormed_of_links h0 h ih.1 hw) c x h1 hs).1

/-- C6. At most one clone per (object, context): in every state reachable by
`get`, `pull`, `finish`, `cross` and `source` calls from a well-formed state
without duplicate keys, no mapping holds two entries for one key; an entry
once recorded keeps its value in every state reached later; and a call
allocates at most one object, and allocates only to return it as the newly
recorded clone of a key that had no entry in the context of the call. -/
theorem one_clone_per_key (cfg : Config) (fuel : Nat) (h0 h : Heap) (hw : h0.WellFormed)
    (hk : h0.KeysNodup) (hr : Reachable cfg fuel h0 h) :
    h.KeysNodup ∧
    (∀ h', Reachable cfg fuel h h' →
      ∀ c key v, h.entry c key = some v → h'.entry c key = some v) ∧
    (∀ call x h1, step cfg fuel h call = .ok (x, h1) →
      h1.objs.length = h.objs.length ∨
      (h1.objs.length = h.objs.length + 1 ∧ x = h.objs.length ∧
        ∃ key, h.entry call.self key = none ∧ h1.entry call.self key = some x)) := by
  have hg := reachable_grows cfg fuel h0 h hw hr
  have hwh : h.WellFormed := wellFormed_of_links h0 h hg.1 hw
  refine ⟨hg.2.1 hk, ?_, ?_⟩
  · intro h' hr'
    exact (reachable_grows cfg fuel h h' hwh hr').2.2
  · intro call x h1 hs
    exact (step_effect cfg fuel h hwh call x h1 hs).2

theorem one_clone_per_key_witness :
    exampleHeap.KeysNodup ∧
    (∀ h', Reachable cfgOn 3 exampleHeap h' →
      ∀ c key v, exampleHeap.entry c key = some v → h'.entry c key = some v) ∧
    (∀ call x h1, step cfgOn 3 exampleHeap call = .ok (x, h1) →
      h1.objs.length = exampleHeap.objs.length ∨
      (h1.objs.length = exampleHeap.objs.length + 1 ∧ x = exampleHeap.objs.length ∧
        ∃ key, exampleHeap.entry call.self key = none ∧ h1.entry call.self key = some x)) :=
  one_clone_per_key cfgOn 3 exampleHeap exampleHeap (by decide) (by decide) Reachable.init

/-! ## The clone-memo shortcut -/

theorem isFrozen_setObj (h : Heap) (o a : Nat) (x x' : LazyAny) (ho : h.obj o = some x)
    (hf : x'.frozen = x.frozen) : (h.setObj o x').isFrozen a = h.isFrozen a := by
  unfold Heap.isFrozen
  rw [obj_setObj]
  by_cases hoa : o = a
  · subst hoa
    simp [obj_lt h o x ho, ho, hf]
  · simp [hoa]

theorem incMemo_isFrozen (h h1 : Heap) (o : Nat) (hh : h.incMemo o = some h1) (a : Nat) :
    h1.isFrozen a = h.isFrozen a := by
  cases hx : h.obj o with
  | none => simp [Heap.incMemo, hx] at hh
  | some x =>
    rw [incMemo_spec h o x hx] at hh
    injection hh with hh
    rw [← hh]
    exact isFrozen_setObj h o a x _ hx rfl

theorem incShared_isFrozen (h h1 : Heap) (o : Nat) (hh : h.incShared o = some h1) (a : Nat) :
    h1.isFrozen a = h.isFrozen a := by
  cases hx : h.obj o with
  | none => simp [Heap.incShared, hx] at hh
  | some x =>
    rw [incShared_spec h o x hx] at hh
    injection hh with hh
    rw [← hh]
    exact isFrozen_setObj h o a x _ hx rfl

theorem put_isFrozen (h h1 : Heap) (self key value v : Nat)
    (hp : h.put self key value = .ok (v, h1)) (a : Nat) : h1.isFrozen a = h.isFrozen a := by
  unfold Heap.put at hp
  cases hm : h.mapOf self with
  | none => simp [hm] at hp
  | some m =>
    simp only [hm] at hp
    cases hg : m.get key with
    | some v0 =>
      simp only [hg] at hp
      injection hp with hp; injection hp with _ e
      rw [← e]
    | none =>
      simp only [hg] at hp
      cases h2 : h.incMemo key with
      | none => simp [h2] at hp
      | some ha =>
        simp only [h2] at hp
        cases h3 : ha.incShared value with
        | none => simp [h3] at hp
        | some hb =>
          simp only [h3] at hp
          injection hp with hp; injection hp with _ e2
          rw [← e2]
          unfold Heap.isFrozen
          rw [setMap_obj]
          exact (incShared_isFrozen ha hb value h3 a).trans (incMemo_isFrozen h ha key h2 a)

/-- `source` changes no frozen flag and destroys no object. -/
theorem source_isFrozen (cfg : Config) : ∀ (fuel : Nat) (h : Heap) (self o from' r : Nat)
    (h1 : Heap), source cfg fuel h self o from' = .ok (r, h1) →
    ∀ a, h1.isFrozen a = h.isFrozen a
  | 0, h, self, o, from', r, h1 => by intro hs; simp [source] at hs
  | fuel + 1, h, self, o, from', r, h1 => by
    intro hs a
    rcases source_inv cfg fuel h self o from' r h1 hs with
      ⟨_, _, e⟩ | ⟨_, t, _, ⟨_, _, e⟩ | ⟨_, _, p, r0, h0, m1, _, hr, _, hput⟩ |
        ⟨_, p, r0, m1, _, hr, _, _⟩⟩
    · rw [e]
    · rw [e]
    · exact (put_isFrozen h0 h1 self o _ r hput a).trans
        (source_isFrozen cfg fuel h p o from' r0 h0 hr a)
    · exact source_isFrozen cfg fuel h p o from' r0 h1 hr a

theorem isSome_of_isFrozen (h h1 : Heap) (hf : ∀ a, h1.isFrozen a = h.isFrozen a) (a : Nat) :
    (h1.obj a).isSome = (h.obj a).isSome := by
  have := hf a
  unfold Heap.isFrozen at this
  cases h1a : h1.obj a <;> cases ha : h.obj a <;> simp [h1a, ha] at this ⊢

/-- Whatever `source` returns on valid mappings and a constructed object is a
constructed object, and the mappings stay valid. -/
theorem source_valid (cfg : Config) : ∀ (fuel : Nat) (h : Heap) (self o from' r : Nat)
    (h1 : Heap), source cfg fuel h self o from' = .ok (r, h1) → h.MapsValid →
    (h.obj o).isSome = true → h1.MapsValid ∧ (h1.obj r).isSome = true
  | 0, h, self, o, from', r, h1 => by intro hs; simp [source] at hs
  | fuel + 1, h, self, o, from', r, h1 => by
    intro hs hmv ho
    rcases source_inv cfg fuel h self o from' r h1 hs with
      ⟨_, e1, e⟩ | ⟨_, t, ht, ⟨_, hg, e⟩ | ⟨_, _, p, r0, h0, m1, _, hr, hm1, hput⟩ |
        ⟨_, p, r0, m1, _, hr, hm1, e⟩⟩
    · rw [e, e1]; exact ⟨hmv, ho⟩
    · rw [e]
      exact ⟨hmv, mapsValid_get h hmv self t.m (by simp [Heap.mapOf, ht]) o r hg⟩
    · obtain ⟨hmv0, hr0⟩ := source_valid cfg fuel h p o from' r0 h0 hr hmv ho
      have ho0 : (h0.obj o).isSome = true := by
        rw [isSome_of_isFrozen h h0 (source_isFrozen cfg fuel h p o from' r0 h0 hr)]; exact ho
      have hval : (h0.obj (if r0 ≠ o then m1.getD r0 r0 else r0)).isSome = true := by
        by_cases hro : r0 ≠ o
        · simp only [hro, if_true, ne_eq, not_false_eq_true]
          exact mapsValid_getD h0 hmv0 self m1 hm1 r0 hr0
        · simp only [hro, if_false]; exact hr0
      obtain ⟨v, h1', hput', hmv1, hv, _⟩ := put_total h0 hmv0 self o _ m1 hm1 ho0 hval
      rw [hput] at hput'
      injection hput' with e; injection e with e1 e2
      subst e1; subst e2
      exact ⟨hmv1, hv⟩
    · obtain ⟨hmv0, hr0⟩ := source_valid cfg fuel h p o from' r0 h1 hr hmv ho
      rw [e]
      exact ⟨hmv0, mapsValid_getD h1 hmv0 self m1 hm1 r0 hr0⟩

theorem noCloneMemo_not_memoAt (cfg : Config) (g : Nat) : ¬ cfg.noCloneMemo.memoAt g := by
  intro hg
  unfold Config.memoAt Config.noCloneMemo at hg
  simp at hg

/-- A failure of the parent's `source` is the failure of this one. -/
theorem source_fail (cfg : Config) (fuel : Nat) (h : Heap) (self o from' p : Nat)
    (t : LazyMemo) (hsf : self ≠ from') (ht : h.memos[self]? = some t)
    (hg : t.m.get o = none) (hp : t.parent = some p) :
    (source cfg fuel h p o from' = .abort → source cfg (fuel + 1) h self o from' = .abort) ∧
    (source cfg fuel h p o from' = .timeout →
      source cfg (fuel + 1) h self o from' = .timeout) := by
  constructor
  · intro hr
    rw [source]; simp only [hsf, if_false, ht, hg, hp, hr]
    split <;> rfl
  · intro hr
    rw [source]; simp only [hsf, if_false, ht, hg, hp, hr]
    split <;> rfl

theorem source_fail_plain (cfg : Config) (fuel : Nat) (h : Heap) (self o from' p : Nat)
    (t : LazyMemo) (hsf : self ≠ from') (ht : h.memos[self]? = some t)
    (hm : ¬ cfg.memoAt t.gen) (hp : t.parent = some p) :
    (source cfg fuel h p o from' = .abort → source cfg (fuel + 1) h self o from' = .abort) ∧
    (source cfg fuel h p o from' = .timeout →
      source cfg (fuel + 1) h self o from' = .timeout) := by
  unfold Config.memoAt at hm
  constructor
  · intro hr
    rw [source]; simp only [hsf, if_false, ht, hm, hp, hr]
  · intro hr
    rw [source]; simp only [hsf, if_false, ht, hm, hp, hr]

theorem source_root_abort_plain (cfg : Config) (fuel : Nat) (h : Heap) (self o from' : Nat)
    (t : LazyMemo) (hsf : self ≠ from') (ht : h.memos[self]? = some t)
    (hm : ¬ cfg.memoAt t.gen) (hp : t.parent = none) :
    source cfg (fuel + 1) h self o from' = .abort := by
  unfold Config.memoAt at hm
  rw [source]; simp only [hsf, if_false, ht, hm, hp]

theorem source_root_abort (cfg : Config) (fuel : Nat) (h : Heap) (self o from' : Nat)
    (t : LazyMemo) (hsf : self ≠ from') (ht : h.memos[self]? = some t)
    (hg : t.m.get o = none) (hp : t.parent = none) :
    source cfg (fuel + 1) h self o from' = .abort := by
  rw [source]; simp only [hsf, if_false, ht, hg, hp]
  split <;> rfl

theorem source_invalid_abort (cfg : Config) (fuel : Nat) (h : Heap) (self o from' : Nat)
    (hsf : self ≠ from') (ht : h.memos[self]? = none) :
    source cfg (fuel + 1) h self o from' = .abort := by
  rw [source]; simp only [hsf, if_false, ht]

theorem resultOf_ok (x : Outcome (Nat × Heap)) (r : Nat) (hx : resultOf x = .ok r) :
    ∃ h1, x = .ok (r, h1) := by
  cases x with
  | ok y =>
    obtain ⟨r', h1⟩ := y
    simp only [resultOf] at hx
    injection hx with hx
    exact ⟨h1, by rw [hx]⟩
  | abort => simp [resultOf] at hx
  | timeout => simp [resultOf] at hx

theorem resultOf_abort (x : Outcome (Nat × Heap)) (hx : resultOf x = .abort) : x = .abort := by
  cases x with
  | ok y => simp [resultOf] at hx
  | abort => rfl
  | timeout => simp [resultOf] at hx

theorem resultOf_timeout (x : Outcome (Nat × Heap)) (hx : resultOf x = .timeout) :
    x = .timeout := by
  cases x with
  | ok y => simp [resultOf] at hx
  | abort => simp [resultOf] at hx
  | timeout => rfl

theorem getD_empty (m : Map) (k : Nat) (hm : m.entries = []) : m.getD k k = k := by
  unfold Map.getD Map.get; rw [hm]; rfl

theorem get_empty (m : Map) (k : Nat) (hm : m.entries = []) : m.get k = none := by
  unfold Map.get; rw [hm]; rfl


theorem mem_of_getElem?_memos (h : Heap) (i : Nat) (t : LazyMemo) (ht : h.memos[i]? = some t) :
    t ∈ h.memos := List.getElem?_mem ht

/-- From a state in which no memoising context holds an entry, `source` with
the shortcut compiled in returns what `source` without it returns. -/
theorem source_equiv (cfg : Config) (h : Heap) (hw : h.WellFormed)
    (hme : h.MemoLevelsEmpty cfg) (hmv : h.MapsValid) (o from' : Nat)
    (ho : (h.obj o).isSome = true) :
    ∀ (fuel self : Nat), resultOf (source cfg fuel h self o from') =
      resultOf (source cfg.noCloneMemo fuel h self o from')
  | 0, self => by simp [source]
  | fuel + 1, self => by
    by_cases hsf : self = from'
    · subst hsf
      rw [source_self, source_self]
    · cases ht : h.memos[self]? with
      | none =>
        rw [source_invalid_abort cfg fuel h self o from' hsf ht,
          source_invalid_abort cfg.noCloneMemo fuel h self o from' hsf ht]
      | some t =>
        have hoff := noCloneMemo_not_memoAt cfg t.gen
        cases hp : t.parent with
        | none =>
          rw [source_root_abort_plain cfg.noCloneMemo fuel h self o from' t hsf ht hoff hp]
          by_cases hm : cfg.memoAt t.gen
          · rw [source_root_abort cfg fuel h self o from' t hsf ht
              (get_empty t.m o (hme t (List.getElem?_mem ht) hm)) hp]
          · rw [source_root_abort_plain cfg fuel h self o from' t hsf ht hm hp]
        | some p =>
          have ih := source_equiv cfg h hw hme hmv o from' ho fuel p
          have hlt := wf_parent_lt h hw self p t ht hp
          cases hroff : source cfg.noCloneMemo fuel h p o from' with
          | abort =>
            rw [hroff] at ih
            have hron := resultOf_abort _ ih
            rw [(source_fail_plain cfg.noCloneMemo fuel h self o from' p t hsf ht hoff hp).1
              hroff]
            by_cases hm : cfg.memoAt t.gen
            · rw [(source_fail cfg fuel h self o from' p t hsf ht
                (get_empty t.m o (hme t (List.getElem?_mem ht) hm)) hp).1 hron]
            · rw [(source_fail_plain cfg fuel h self o from' p t hsf ht hm hp).1 hron]
          | timeout =>
            rw [hroff] at ih
            have hron := resultOf_timeout _ ih
            rw [(source_fail_plain cfg.noCloneMemo fuel h self o from' p t hsf ht hoff hp).2
              hroff]
            by_cases hm : cfg.memoAt t.gen
            · rw [(source_fail cfg fuel h self o from' p t hsf ht
                (get_empty t.m o (hme t (List.getElem?_mem ht) hm)) hp).2 hron]
            · rw [(source_fail_plain cfg fuel h self o from' p t hsf ht hm hp).2 hron]
          | ok y =>
            obtain ⟨r0, hx⟩ := y
            have hhx := source_noMemo cfg.noCloneMemo rfl fuel h p o from' r0 hx hroff
            subst hhx
            rw [hroff] at ih
            obtain ⟨h0, hron⟩ := resultOf_ok _ r0 ih
            have hm0 : hx.mapOf self = some t.m := by simp [Heap.mapOf, ht]
            rw [source_plain cfg.noCloneMemo fuel hx self o from' p r0 t hx t.m hsf ht hoff hp
              hroff hm0]
            have habove := source_above cfg hx hw fuel p o from' r0 h0 hron self hlt
            have hm1 : h0.mapOf self = some t.m := by
              rw [mapOf_congr hx h0 self habove]; exact hm0
            by_cases hm : cfg.memoAt t.gen
            · have hempty := hme t (List.getElem?_mem ht) hm
              rw [source_miss cfg fuel hx self o from' p r0 t h0 t.m hsf ht hm
                (get_empty t.m o hempty) hp hron hm1]
              have hval : (if r0 ≠ o then t.m.getD r0 r0 else r0) = r0 := by
                by_cases hro : r0 ≠ o
                · simp only [hro, if_true, ne_eq, not_false_eq_true]
                  exact getD_empty t.m r0 hempty
                · simp only [hro, if_false]
              rw [hval, getD_empty t.m r0 hempty]
              obtain ⟨hmv0, hr0⟩ := source_valid cfg fuel hx p o from' r0 h0 hron hmv ho
              have ho0 : (h0.obj o).isSome = true := by
                rw [isSome_of_isFrozen hx h0 (source_isFrozen cfg fuel hx p o from' r0 h0 hron)]
                exact ho
              obtain ⟨v, h1, hput, _, _, _⟩ := put_total h0 hmv0 self o r0 t.m hm1 ho0 hr0
              rcases put_effect h0 h1 self o r0 v hput with e | ⟨e, _⟩
              · exfalso
                obtain ⟨_, _, _, b4⟩ := put_spec _ _ _ _ _ _ hput
                rw [e, entry_of_mapOf h0 self o t.m hm1, get_empty t.m o hempty] at b4
                cases b4
              · rw [hput, e]; rfl
            · rw [source_plain cfg fuel hx self o from' p r0 t h0 t.m hsf ht hm hp hron hm1]
              rfl

theorem resolve_equiv (cfg : Config) (h : Heap) (hw : h.WellFormed)
    (hme : h.MemoLevelsEmpty cfg) (hmv : h.MapsValid) (o from' : Nat)
    (ho : (h.obj o).isSome = true) (fuel self : Nat) :
    resultOf (resolve cfg fuel h self o from') =
      resultOf (resolve cfg.noCloneMemo fuel h self o from') := by
  unfold resolve
  cases h.getParent self with
  | none => rfl
  | some p => exact source_equiv cfg h hw hme hmv o from' ho fuel p

theorem resolve_isFrozen (cfg : Config) (fuel : Nat) (h : Heap) (self o from' r : Nat)
    (h1 : Heap) (hr : resolve cfg fuel h self o from' = .ok (r, h1)) (a : Nat) :
    h1.isFrozen a = h.isFrozen a := by
  obtain ⟨t, p, _, _, hs⟩ := resolve_inv cfg fuel h self o from' r h1 hr
  exact source_isFrozen cfg fuel h p o from' r h1 hs a

/-- What the three resolving calls do once the resolution has failed or
returned. -/
theorem after_resolve (cfg : Config) (fuel : Nat) (h : Heap) (self o from' : Nat)
    (hsf : self ≠ from') :
    (resolve cfg fuel h self o from' = .abort →
      get cfg fuel h self o from' = .abort ∧ pull cfg fuel h self o from' = .abort ∧
      finish cfg fuel h self o from' = .abort) ∧
    (resolve cfg fuel h self o from' = .timeout →
      get cfg fuel h self o from' = .timeout ∧ pull cfg fuel h self o from' = .timeout ∧
      finish cfg fuel h self o from' = .timeout) ∧
    (∀ r h1 m1, resolve cfg fuel h self o from' = .ok (r, h1) → h1.mapOf self = some m1 →
      pull cfg fuel h self o from' = .ok ((m1.get r).getD r, h1) ∧
      (∀ x, m1.get r = some x → finish cfg fuel h self o from' = .ok (x, h1)) ∧
      (m1.get r = none → finish cfg fuel h self o from' = cloneInto h1 self r) ∧
      (m1.get r = none → h1.isFrozen r = none → get cfg fuel h self o from' = .abort)) := by
  refine ⟨?_, ?_, ?_⟩
  · intro hr
    refine ⟨?_, ?_, ?_⟩
    · unfold get; simp only [hsf, if_false, hr]
    · unfold pull; simp only [hsf, if_false, hr]
    · unfold finish; simp only [hsf, if_false, hr]
  · intro hr
    refine ⟨?_, ?_, ?_⟩
    · unfold get; simp only [hsf, if_false, hr]
    · unfold pull; simp only [hsf, if_false, hr]
    · unfold finish; simp only [hsf, if_false, hr]
  · intro r h1 m1 hr hm1
    refine ⟨?_, ?_, ?_, ?_⟩
    · unfold pull; simp only [hsf, if_false, hr, hm1]
      cases m1.get r <;> rfl
    · intro x hl
      unfold finish; simp only [hsf, if_false, hr, hm1, hl]
    · intro hl
      unfold finish; simp only [hsf, if_false, hr, hm1, hl]
    · intro hl hf
      unfold get; simp only [hsf, if_false, hr, hm1, hl, hf]

theorem cloneInto_result (h h' : Heap) (self o : Nat) (m : Map)
    (hm : h.mapOf self = some m) (hm' : h'.mapOf self = some m) (hg : m.get o = none)
    (hl : h'.objs.length = h.objs.length) (hf : ∀ a, h'.isFrozen a = h.isFrozen a) :
    resultOf (cloneInto h' self o) = resultOf (cloneInto h self o) := by
  have hsome := isSome_of_isFrozen h h' hf o
  cases hy : h.obj o with
  | none =>
    have hy' : h'.obj o = none := by
      cases hh : h'.obj o with
      | none => rfl
      | some y => rw [hh, hy] at hsome; cases hsome
    unfold cloneInto; simp only [hy, hy']
  | some y =>
    cases hy' : h'.obj o with
    | none => rw [hy', hy] at hsome; cases hsome
    | some y' =>
      obtain ⟨_, _, h5, _, _, _, _, _, _, hc, _⟩ := cloneInto_ok h self o y m hy hm hg
      obtain ⟨_, _, k5, _, _, _, _, _, _, kc, _⟩ := cloneInto_ok h' self o y' m hy' hm' hg
      rw [hc, kc, hl]; rfl

/-- The three resolving calls agree once their resolutions agree. -/
theorem resolving_equiv (cfg : Config) (fuel : Nat) (h : Heap) (hw : h.WellFormed)
    (hme : h.MemoLevelsEmpty cfg) (hmv : h.MapsValid) (self o from' : Nat)
    (ho : (h.obj o).isSome = true) :
    resultOf (get cfg fuel h self o from') = resultOf (get cfg.noCloneMemo fuel h self o from') ∧
    resultOf (pull cfg fuel h self o from') =
      resultOf (pull cfg.noCloneMemo fuel h self o from') ∧
    resultOf (finish cfg fuel h self o from') =
      resultOf (finish cfg.noCloneMemo fuel h self o from') := by
  by_cases hsf : self = from'
  · subst hsf
    refine ⟨?_, ?_, ?_⟩
    · unfold get; simp
    · unfold pull; simp
    · unfold finish; simp
  · have heq := resolve_equiv cfg h hw hme hmv o from' ho fuel self
    obtain ⟨a1, a2, a3⟩ := after_resolve cfg fuel h self o from' hsf
    obtain ⟨b1, b2, b3⟩ := after_resolve cfg.noCloneMemo fuel h self o from' hsf
    cases hroff : resolve cfg.noCloneMemo fuel h self o from' with
    | abort =>
      rw [hroff] at heq
      have hron := resultOf_abort _ heq
      obtain ⟨c1, c2, c3⟩ := a1 hron
      obtain ⟨d1, d2, d3⟩ := b1 hroff
      rw [c1, c2, c3, d1, d2, d3]
      exact ⟨rfl, rfl, rfl⟩
    | timeout =>
      rw [hroff] at heq
      have hron := resultOf_timeout _ heq
      obtain ⟨c1, c2, c3⟩ := a2 hron
      obtain ⟨d1, d2, d3⟩ := b2 hroff
      rw [c1, c2, c3, d1, d2, d3]
      exact ⟨rfl, rfl, rfl⟩
    | ok y =>
      obtain ⟨r, hx⟩ := y
      have hhx := resolve_noMemo cfg.noCloneMemo rfl fuel h self o from' r hx hroff
      subst hhx
      rw [hroff] at heq
      obtain ⟨h1, hron⟩ := resultOf_ok _ r heq
      obtain ⟨m1, hm, hm1⟩ := resolve_mapOf cfg fuel hx hw self o from' r h1 hron
      obtain ⟨_, hlen, _⟩ := resolve_frame cfg fuel hx hw self o from' r h1 hron
      have hfz := resolve_isFrozen cfg fuel hx self o from' r h1 hron
      obtain ⟨c1, c2, c3, c4⟩ := a3 r h1 m1 hron hm1
      obtain ⟨d1, d2, d3, d4⟩ := b3 r hx m1 hroff hm
      refine ⟨?_, ?_, ?_⟩
      · cases hl : m1.get r with
        | some x =>
          rw [get_found cfg fuel hx self o from' r x h1 m1 hsf hron hm1 hl,
            get_found cfg.noCloneMemo fuel hx self o from' r x hx m1 hsf hroff hm hl]
          rfl
        | none =>
          cases hf : hx.isFrozen r with
          | none =>
            rw [c4 hl (by rw [hfz]; exact hf), d4 hl hf]
          | some b =>
            cases b with
            | false =>
              rw [get_mutable cfg fuel hx self o from' r h1 m1 hsf hron hm1 hl
                  (by rw [hfz]; exact hf),
                get_mutable cfg.noCloneMemo fuel hx self o from' r hx m1 hsf hroff hm hl hf]
              rfl
            | true =>
              rw [get_frozen cfg fuel hx self o from' r h1 m1 hsf hron hm1 hl
                  (by rw [hfz]; exact hf),
                get_frozen cfg.noCloneMemo fuel hx self o from' r hx m1 hsf hroff hm hl hf]
              obtain ⟨y, hy, hyf⟩ := isFrozen_true hx r hf
              obtain ⟨y1, hy1, hyf1⟩ := isFrozen_true h1 r (by rw [hfz]; exact hf)
              obtain ⟨_, e, _⟩ := copy_ok hx self r y m1 hy hyf hm hl
              obtain ⟨_, e1, _⟩ := copy_ok h1 self r y1 m1 hy1 hyf1 hm1 hl
              rw [e, e1, hlen]; rfl
      · rw [c1, d1]; rfl
      · cases hl : m1.get r with
        | some x => rw [c2 x hl, d2 x hl]; rfl
        | none =>
          rw [c3 hl, d3 hl]
          exact cloneInto_result hx h1 self r m1 hm hm1 hl hlen hfz

/-- C10, as stated, fails: on the chain of three freshly constructed contexts,
with every mapping empty and a frozen object at address 0, the calls
`get(0, root)` on context 2 and then on context 1 return the objects 2 and 0
with the shortcut compiled in (interval 1) and the objects 2 and 3 without it:
the entry `0 -> 0` that `source` recorded in the mapping of context 1 is found
by the second `get`, which returns the frozen original instead of a clone.  The
same happens with interval 2 on the chain of four contexts, for `get(0, root)`
on context 3 and then on context 2. -/
theorem clone_memo_changes_results :
    (∃ hOn hOff,
      run cfgOn 3 exampleHeap [Call.get 2 0 0, Call.get 1 0 0] = .ok ([2, 0], hOn) ∧
      run cfgOn.noCloneMemo 3 exampleHeap [Call.get 2 0 0, Call.get 1 0 0]
        = .ok ([2, 3], hOff)) ∧
    (∃ hOn hOff,
      run cfgEvery2 4 exampleChain [Call.get 3 0 0, Call.get 2 0 0] = .ok ([1, 0], hOn) ∧
      run cfgEvery2.noCloneMemo 4 exampleChain [Call.get 3 0 0, Call.get 2 0 0]
        = .ok ([1, 2], hOff)) :=
  ⟨⟨_, _, rfl, rfl⟩, ⟨_, _, rfl, rfl⟩⟩

/-- C10, amended. From a well-formed state in which no context that memoises
(generation a multiple of the interval) holds a mapping entry, a single call of
`source`, `get`, `pull`, `finish` or `cross` on a constructed object returns,
or fails to return, the same with the shortcut compiled in as without it. -/
theorem clone_memo_single_call (cfg : Config) (fuel : Nat) (h : Heap) (c : Call)
    (_hd : 0 < cfg.CLONE_MEMO_DELTA) (hw : h.WellFormed) (hme : h.MemoLevelsEmpty cfg)
    (hmv : h.MapsValid) (ho : (h.obj c.object).isSome = true) :
    resultOf (step cfg fuel h c) = resultOf (step cfg.noCloneMemo fuel h c) := by
  cases c with
  | get self o from' => exact (resolving_equiv cfg fuel h hw hme hmv self o from' ho).1
  | pull self o from' => exact (resolving_equiv cfg fuel h hw hme hmv self o from' ho).2.1
  | finish self o from' => exact (resolving_equiv cfg fuel h hw hme hmv self o from' ho).2.2
  | cross self o => rfl
  | source self o from' => exact source_equiv cfg h hw hme hmv o from' ho fuel self

theorem clone_memo_single_call_witness :
    resultOf (step cfgOn 3 exampleHeap (Call.get 2 0 0)) =
      resultOf (step cfgOn.noCloneMemo 3 exampleHeap (Call.get 2 0 0)) :=
  clone_memo_single_call cfgOn 3 exampleHeap (Call.get 2 0 0) (by decide) (by decide)
    (by decide) (by decide) (by decide)

/-! ## Resolution from a context that is not on the chain -/

theorem ancestorAt_le (h : Heap) (hw : h.WellFormed) : ∀ (k a b : Nat),
    ancestorAt h k a = some b → b ≤ a
  | 0, a, b => by
    intro hk
    unfold ancestorAt at hk
    by_cases hl : a < h.memos.length
    · simp only [hl, if_true] at hk
      injection hk with hk
      omega
    · simp [hl] at hk
  | k + 1, a, b => by
    intro hk
    rw [ancestorAt] at hk
    cases hp : h.getParent a with
    | none => simp [hp] at hk
    | some p =>
      simp only [hp, Option.some_bind] at hk
      obtain ⟨t, hta, htp⟩ := getParent_some h a p hp
      have := wf_parent_lt h hw a p t hta htp
      have := ancestorAt_le h hw k p b hk
      omega

theorem onChain_of_parent (h : Heap) (b a p : Nat) (t : LazyMemo)
    (ht : h.memos[a]? = some t) (hp : t.parent = some p) (hc : OnChain h b p) :
    OnChain h b a := by
  obtain ⟨k, hk⟩ := hc
  refine ⟨k + 1, ?_⟩
  rw [ancestorAt]
  simp [Heap.getParent, ht, hp, hk]

theorem noMemoEntry_parent (cfg : Config) (h : Heap) (self o p : Nat) (t : LazyMemo)
    (ht : h.memos[self]? = some t) (hp : t.parent = some p)
    (hn : NoMemoEntry cfg h self o) : NoMemoEntry cfg h p o := by
  intro k a ta hk hta hm
  refine hn (k + 1) a ta ?_ hta hm
  rw [ancestorAt]
  simp [Heap.getParent, ht, hp, hk]

theorem onChain_self (h : Heap) (a : Nat) (ha : a < h.memos.length) : OnChain h a a :=
  ⟨0, by simp [ancestorAt, ha]⟩

/-- With `from` not on the chain and no memoised entry for `o` on the way,
`source` walks to the root and aborts there. -/
theorem source_abort (cfg : Config) (h : Heap) (hw : h.WellFormed) (o from' : Nat) :
    ∀ (fuel self : Nat), self < fuel → self < h.memos.length → ¬ OnChain h from' self →
      NoMemoEntry cfg h self o → source cfg fuel h self o from' = .abort
  | 0, self => by intro hf; omega
  | fuel + 1, self => by
    intro hf hs hnc hn
    have hsf : self ≠ from' := by
      intro e; subst e; exact hnc (onChain_self h self hs)
    have ht := List.getElem?_eq_getElem hs
    have hg : cfg.memoAt (h.memos[self]).gen → (h.memos[self]).m.get o = none :=
      fun hm => hn 0 self _ (by simp [ancestorAt, hs]) ht hm
    cases hp : (h.memos[self]).parent with
    | none =>
      by_cases hm : cfg.memoAt (h.memos[self]).gen
      · exact source_root_abort cfg fuel h self o from' _ hsf ht (hg hm) hp
      · exact source_root_abort_plain cfg fuel h self o from' _ hsf ht hm hp
    | some p =>
      have hlt := wf_parent_lt h hw self p _ ht hp
      have ih := source_abort cfg h hw o from' fuel p (by omega) (by omega)
        (fun hc => hnc (onChain_of_parent h from' self p _ ht hp hc))
        (noMemoEntry_parent cfg h self o p _ ht hp hn)
      by_cases hm : cfg.memoAt (h.memos[self]).gen
      · exact (source_fail cfg fuel h self o from' p _ hsf ht (hg hm) hp).1 ih
      · exact (source_fail_plain cfg fuel h self o from' p _ hsf ht hm hp).1 ih

theorem resolve_abort (cfg : Config) (h : Heap) (hw : h.WellFormed) (o from' : Nat)
    (fuel self : Nat) (hf : self < fuel) (hs : self < h.memos.length)
    (hnc : ¬ OnChain h from' self) (hn : NoMemoEntry cfg h self o) :
    resolve cfg fuel h self o from' = .abort := by
  have ht := List.getElem?_eq_getElem hs
  cases hp : (h.memos[self]).parent with
  | none => unfold resolve Heap.getParent; simp only [ht, hp]
  | some p =>
    have hlt := wf_parent_lt h hw self p _ ht hp
    rw [resolve_eq cfg fuel h self o from' p _ ht hp]
    exact source_abort cfg h hw o from' fuel p (by omega) (by omega)
      (fun hc => hnc (onChain_of_parent h from' self p _ ht hp hc))
      (noMemoEntry_parent cfg h self o p _ ht hp hn)

/-- With `from` on the chain of `self`, `pull` returns. -/
theorem pull_total (cfg : Config) (fuel : Nat) (h : Heap) (hw : h.WellFormed)
    (self o from' : Nat) (hf : self < fuel) (hc : OnChain h from' self) (hmv : h.MapsValid)
    (ho : (h.obj o).isSome = true) :
    ∃ x h2, pull cfg fuel h self o from' = .ok (x, h2) := by
  by_cases hsf : self = from'
  · exact ⟨o, h, by unfold pull; simp [hsf]⟩
  · obtain ⟨t, p, ht, hp, hcp⟩ := onChain_step h from' self hc hsf
    have hlt := wf_parent_lt h hw self p t ht hp
    obtain ⟨r, h1, hs, _, _, _⟩ :=
      source_total cfg h hw from' o fuel p (by omega) hcp hmv ho
    have hr : resolve cfg fuel h self o from' = .ok (r, h1) := by
      rw [resolve_eq cfg fuel h self o from' p t ht hp]; exact hs
    obtain ⟨m1, _, hm1⟩ := resolve_mapOf cfg fuel h hw self o from' r h1 hr
    exact ⟨_, h1, ((after_resolve cfg fuel h self o from' hsf).2.2 r h1 m1 hr hm1).1⟩

theorem finish_abort (cfg : Config) (fuel : Nat) (h : Heap) (self o from' : Nat)
    (hsf : self ≠ from') (hr : resolve cfg fuel h self o from' = .abort) :
    get cfg fuel h self o from' = .abort ∧ pull cfg fuel h self o from' = .abort ∧
      finish cfg fuel h self o from' = .abort := by
  unfold get pull finish
  simp only [hsf, if_false, hr, and_self]

theorem not_onChain_of_lt (h : Heap) (hw : h.WellFormed) (a b : Nat) (hlt : a < b) :
    ¬ OnChain h b a := by
  rintro ⟨k, hk⟩
  have := ancestorAt_le h hw k a b hk
  omega

theorem noMemoEntry_of_off (cfg : Config) (h : Heap) (self o : Nat)
    (hoff : cfg.ENABLE_CLONE_MEMO = false) : NoMemoEntry cfg h self o := by
  intro k a t _ _ hm
  unfold Config.memoAt at hm
  rw [hoff] at hm
  exact absurd hm.1 (by decide)

theorem noMemoEntry_of_levelsEmpty (cfg : Config) (h : Heap) (self o : Nat)
    (he : h.MemoLevelsEmpty cfg) : NoMemoEntry cfg h self o := by
  intro k a t _ ht hm
  have := he t (List.getElem?_mem ht) hm
  unfold Map.get
  rw [this]
  rfl

/-- C20, as stated, fails with the clone-memo shortcut compiled in: in the heap
left by `get(0, root)` on context 3 of a chain `0 <- 1 <- 2 <- 3`, context 3 is
neither context 2 nor an ancestor of it, yet `source`, `get`, `pull` and
`finish` called on context 2 with `from = 3` all return object 0: the memo
entry of context 2 answers before the walk reaches the root. -/
theorem memoised_entry_answers_off_chain :
    get cfgOn 4 exampleChain 3 0 0 = .ok (1, exampleMemoised) ∧
    exampleMemoised.WellFormed ∧ exampleMemoised.Tree ∧
    (2 : Nat) ≠ 3 ∧ ¬ OnChain exampleMemoised 3 2 ∧
    resultOf (source cfgOn 4 exampleMemoised 2 0 3) = .ok 0 ∧
    resultOf (get cfgOn 4 exampleMemoised 2 0 3) = .ok 0 ∧
    resultOf (pull cfgOn 4 exampleMemoised 2 0 3) = .ok 0 ∧
    resultOf (finish cfgOn 4 exampleMemoised 2 0 3) = .ok 0 :=
  ⟨by rfl, by decide, by decide, by decide,
    not_onChain_of_lt exampleMemoised (by decide) 2 3 (by decide),
    by rfl, by rfl, by rfl, by rfl⟩

/-- C20, amended. On a well-formed context tree, when `from` is neither `c` nor an
ancestor of `c` and no memoising context on the chain of `c` holds an entry for
`o` (always so when the clone memo is compiled out), `source`, `get`, `pull`
and `finish` walk the parent chain to the root and abort there.  When `from` is
`c` or an ancestor of `c`, `source`, `get` and `pull` return an object. -/
theorem fail_fast_on_missing_parent (cfg : Config) (fuel : Nat) (h : Heap)
    (self o from' : Nat) (hw : h.WellFormed) (hs : self < h.memos.length)
    (hf : self < fuel) :
    (¬ OnChain h from' self → NoMemoEntry cfg h self o →
      source cfg fuel h self o from' = .abort ∧ get cfg fuel h self o from' = .abort ∧
      pull cfg fuel h self o from' = .abort ∧ finish cfg fuel h self o from' = .abort) ∧
    (cfg.ENABLE_CLONE_MEMO = false → NoMemoEntry cfg h self o) ∧
    (OnChain h from' self → h.MapsValid → (h.obj o).isSome = true →
      (∃ x h1, source cfg fuel h self o from' = .ok (x, h1)) ∧
      (∃ x h1, get cfg fuel h self o from' = .ok (x, h1)) ∧
      (∃ x h1, pull cfg fuel h self o from' = .ok (x, h1))) := by
  refine ⟨?_, noMemoEntry_of_off cfg h self o, ?_⟩
  · intro hnc hn
    have hsf : self ≠ from' := by
      intro e; subst e; exact hnc (onChain_self h self hs)
    have hr := resolve_abort cfg h hw o from' fuel self hf hs hnc hn
    exact ⟨source_abort cfg h hw o from' fuel self hf hs hnc hn,
      finish_abort cfg fuel h self o from' hsf hr⟩
  · intro hc hmv ho
    obtain ⟨r, h1, hsrc, _⟩ := source_total cfg h hw from' o fuel self hf hc hmv ho
    exact ⟨⟨r, h1, hsrc⟩, get_total cfg fuel h hw self o from' hf hc hmv ho,
      pull_total cfg fuel h hw self o from' hf hc hmv ho⟩

theorem fail_fast_on_missing_parent_witness :
    (source cfgOn 4 exampleChain 2 0 3 = .abort ∧ get cfgOn 4 exampleChain 2 0 3 = .abort ∧
      pull cfgOn 4 exampleChain 2 0 3 = .abort ∧ finish cfgOn 4 exampleChain 2 0 3 = .abort) ∧
    ((∃ x h1, source cfgOn 4 exampleChain 2 0 0 = .ok (x, h1)) ∧
      (∃ x h1, get cfgOn 4 exampleChain 2 0 0 = .ok (x, h1)) ∧
      (∃ x h1, pull cfgOn 4 exampleChain 2 0 0 = .ok (x, h1))) :=
  ⟨(fail_fast_on_missing_parent cfgOn 4 exampleChain 2 0 3 (by decide) (by decide)
      (by decide)).1 (not_onChain_of_lt exampleChain (by decide) 2 3 (by decide))
      (noMemoEntry_of_levelsEmpty cfgOn exampleChain 2 0 (by decide)),
    (fail_fast_on_missing_parent cfgOn 4 exampleChain 2 0 0 (by decide) (by decide)
      (by decide)).2.2 ⟨2, by decide⟩ (by decide) (by decide)⟩

/-! ## Forward chains -/

theorem forwardOK_link (h : Heap) (hfo : h.ForwardOK) (i f : Nat) (t : LazyMemo)
    (ht : h.memos[i]? = some t) (hfw : t.forward = some f) : i < f ∧ f < h.memos.length := by
  have hi : i < h.memos.length := by
    rcases Nat.lt_or_ge i h.memos.length with hlt | hge
    · exact hlt
    · rw [List.getElem?_eq_none hge] at ht; cases ht
  have := hfo i hi
  unfold Heap.forwardOK at this
  simp only [ht, hfw, Bool.and_eq_true, decide_eq_true_eq] at this
  exact this

theorem isFrozenMemo_eq (h : Heap) (c : Nat) (t : LazyMemo) (ht : h.memos[c]? = some t) :
    h.isFrozenMemo c = some t.frozen := by
  unfold Heap.isFrozenMemo; rw [ht]; rfl

theorem pullForward_thaw (fuel : Nat) (h : Heap) (c : Nat) (t : LazyMemo)
    (ht : h.memos[c]? = some t) (hfz : t.frozen = false) :
    pullForward (fuel + 1) h c = .ok (c, h) := by
  rw [pullForward]; simp only [isFrozenMemo_eq h c t ht, hfz]

theorem pullForward_null (fuel : Nat) (h : Heap) (c : Nat) (t : LazyMemo)
    (ht : h.memos[c]? = some t) (hfz : t.frozen = true) (hfw : t.forward = none) :
    pullForward (fuel + 1) h c = .ok (c, h) := by
  rw [pullForward]; simp only [isFrozenMemo_eq h c t ht, hfz, ht, Option.some_bind, hfw]

theorem pullForward_link (fuel : Nat) (h : Heap) (c f : Nat) (t : LazyMemo)
    (ht : h.memos[c]? = some t) (hfz : t.frozen = true) (hfw : t.forward = some f) :
    pullForward (fuel + 1) h c = pullForward fuel h f := by
  rw [pullForward]; simp only [isFrozenMemo_eq h c t ht, hfz, ht, Option.some_bind, hfw]

theorem getForward_thaw (fuel : Nat) (h : Heap) (c : Nat) (t : LazyMemo)
    (ht : h.memos[c]? = some t) (hfz : t.frozen = false) :
    getForward (fuel + 1) h c = .ok (c, h) := by
  rw [getForward]; simp only [isFrozenMemo_eq h c t ht, hfz]

theorem getForward_link (fuel : Nat) (h : Heap) (c f : Nat) (t : LazyMemo)
    (ht : h.memos[c]? = some t) (hfz : t.frozen = true) (hfw : t.forward = some f) :
    getForward (fuel + 1) h c = getForward fuel h f := by
  rw [getForward]; simp only [isFrozenMemo_eq h c t ht, hfz, ht, Option.some_bind, hfw]

theorem withForward_length (h : Heap) (e : Nat) (te : LazyMemo) :
    (h.withForward e te).memos.length = h.memos.length + 1 := by
  simp [Heap.withForward]

theorem withForward_at (h : Heap) (e : Nat) (te : LazyMemo) (he : e < h.memos.length) :
    (h.withForward e te).memos[e]? = some { te with forward := some h.memos.length } := by
  simp only [Heap.withForward]
  rw [List.getElem?_set_self]
  simp only [List.length_append, List.length_singleton]
  omega

theorem withForward_new (h : Heap) (e : Nat) (te : LazyMemo) (he : e < h.memos.length) :
    (h.withForward e te).memos[h.memos.length]? =
      some { LazyMemo.mkChild e te with sharedCount := 1 } := by
  simp only [Heap.withForward]
  rw [List.getElem?_set_ne (by omega)]
  simp

theorem withForward_other (h : Heap) (e i : Nat) (te : LazyMemo) (hi : i < h.memos.length)
    (hne : i ≠ e) : (h.withForward e te).memos[i]? = h.memos[i]? := by
  simp only [Heap.withForward]
  rw [List.getElem?_set_ne (fun x => hne x.symm)]
  exact List.getElem?_append_left hi

/-- The creating branch of `getForward`, evaluated. -/
theorem getForward_null (fuel : Nat) (h : Heap) (c : Nat) (t : LazyMemo)
    (ht : h.memos[c]? = some t) (hfz : t.frozen = true) (hfw : t.forward = none) :
    getForward (fuel + 1) h c = .ok (h.memos.length, h.withForward c t) := by
  have hc : c < h.memos.length := by
    rcases Nat.lt_or_ge c h.memos.length with hlt | hge
    · exact hlt
    · rw [List.getElem?_eq_none hge] at ht; cases ht
  rw [getForward]
  simp only [isFrozenMemo_eq h c t ht, hfz, ht, Option.some_bind, hfw, Heap.create_,
    Heap.newChild, Heap.incSharedMemo, Heap.casForward, Heap.setMemo]
  simp only [List.getElem?_concat_length, Option.map_some', List.set_append_right _ _ (le_refl _),
    Nat.sub_self, List.set_cons_zero]
  rw [List.getElem?_append_left hc]
  simp only [ht, hfw, if_true]
  rfl

theorem memo_valid (h : Heap) (c : Nat) (t : LazyMemo) (ht : h.memos[c]? = some t) :
    c < h.memos.length := by
  rcases Nat.lt_or_ge c h.memos.length with hlt | hge
  · exact hlt
  · rw [List.getElem?_eq_none hge] at ht; cases ht

theorem forwardPath_trans (h : Heap) (a b c : Nat) (hab : ForwardPath h a b)
    (hbc : ForwardPath h b c) : ForwardPath h a c := by
  induction hab with
  | here _ => exact hbc
  | next c1 f x t ht hfz hfw _ ih => exact ForwardPath.next c1 f _ t ht hfz hfw (ih hbc)

/-- The end of a forward chain is determined by its start. -/
theorem forwardPath_end_unique (h : Heap) (c x y : Nat) (hx : ForwardPath h c x)
    (ex : h.EndsChain x) (hy : ForwardPath h c y) (ey : h.EndsChain y) : y = x := by
  induction hx with
  | here c =>
    cases hy with
    | here => rfl
    | next _ f _ t ht hfz hfw _ =>
      obtain ⟨t1, ht1, hor⟩ := ex
      rw [ht] at ht1; injection ht1 with e; rw [← e] at hor
      rcases hor with h1 | h1
      · rw [hfz] at h1; cases h1
      · rw [hfw] at h1; cases h1
  | next c f x t ht hfz hfw _ ih =>
    cases hy with
    | here =>
      obtain ⟨t1, ht1, hor⟩ := ey
      rw [ht] at ht1; injection ht1 with e; rw [← e] at hor
      rcases hor with h1 | h1
      · rw [hfz] at h1; cases h1
      · rw [hfw] at h1; cases h1
    | next _ f2 _ t2 ht2 hfz2 hfw2 hp2 =>
      rw [ht] at ht2; injection ht2 with e; rw [← e, hfw] at hfw2
      injection hfw2 with e2
      rw [← e2] at hp2
      exact ih ex hp2

/-- A forward path lasts in any heap that keeps the contexts with a forward. -/
theorem forwardPath_lift (h h1 : Heap) (c x : Nat) (hp : ForwardPath h c x)
    (hk : ∀ (n : Nat) (t : LazyMemo), h.memos[n]? = some t → t.forward ≠ none →
      h1.memos[n]? = some t) : ForwardPath h1 c x := by
  induction hp with
  | here _ => exact ForwardPath.here _
  | next c f x t ht hfz hfw _ ih =>
    exact ForwardPath.next c f x t (hk c t ht (by rw [hfw]; simp)) hfz hfw ih

theorem pullForward_spec (h : Heap) (hfo : h.ForwardOK) : ∀ (fuel c : Nat),
    c < h.memos.length → h.memos.length ≤ c + fuel →
    ∃ x, pullForward fuel h c = .ok (x, h) ∧ ForwardPath h c x ∧ h.EndsChain x
  | 0, c => by intro hc hf; omega
  | fuel + 1, c => by
    intro hc hf
    have ht := List.getElem?_eq_getElem hc
    cases hfz : (h.memos[c]).frozen with
    | false =>
      exact ⟨c, pullForward_thaw fuel h c _ ht hfz, ForwardPath.here c, _, ht, Or.inl hfz⟩
    | true =>
      cases hfw : (h.memos[c]).forward with
      | none =>
        exact ⟨c, pullForward_null fuel h c _ ht hfz hfw, ForwardPath.here c, _, ht,
          Or.inr hfw⟩
      | some f =>
        obtain ⟨h1, h2⟩ := forwardOK_link h hfo c f _ ht hfw
        obtain ⟨x, hx, hp, he⟩ := pullForward_spec h hfo fuel f h2 (by omega)
        exact ⟨x, by rw [pullForward_link fuel h c f _ ht hfz hfw]; exact hx,
          ForwardPath.next c f x _ ht hfz hfw hp, he⟩

theorem withForward_forwardOK (h : Heap) (hfo : h.ForwardOK) (e : Nat) (te : LazyMemo)
    (he : h.memos[e]? = some te) : (h.withForward e te).ForwardOK := by
  have hel := memo_valid h e te he
  intro i hi
  rw [withForward_length] at hi
  unfold Heap.forwardOK
  rw [withForward_length]
  by_cases hie : i = e
  · subst hie
    rw [withForward_at h i te hel]
    simp only [Bool.and_eq_true, decide_eq_true_eq]
    omega
  · by_cases hil : i = h.memos.length
    · rw [hil, withForward_new h e te hel]
      rfl
    · have hlt : i < h.memos.length := by omega
      rw [withForward_other h e i te hlt hie]
      have := hfo i hlt
      unfold Heap.forwardOK at this
      cases hti : h.memos[i]? with
      | none => rfl
      | some t =>
        rw [hti] at this
        cases hfw : t.forward with
        | none => simp only [hfw]
        | some f =>
          simp only [hfw, Bool.and_eq_true, decide_eq_true_eq] at this
          simp only [hfw, Bool.and_eq_true, decide_eq_true_eq]
          omega

/-- What `getForward` does on a frozen or unfrozen context: it returns the
unfrozen end of the chain unchanged, or gives the frozen end `e` of the chain
its forward and returns that. -/
theorem getForward_spec (h : Heap) (hfo : h.ForwardOK) : ∀ (fuel c : Nat),
    c < h.memos.length → h.memos.length ≤ c + fuel →
    ∃ x h1, getForward fuel h c = .ok (x, h1) ∧
      ((h1 = h ∧ ForwardPath h c x ∧ h.isFrozenMemo x = some false) ∨
        ∃ e te, ForwardPath h c e ∧ h.memos[e]? = some te ∧ te.frozen = true ∧
          te.forward = none ∧ x = h.memos.length ∧ h1 = h.withForward e te)
  | 0, c => by intro hc hf; omega
  | fuel + 1, c => by
    intro hc hf
    have ht := List.getElem?_eq_getElem hc
    cases hfz : (h.memos[c]).frozen with
    | false =>
      exact ⟨c, h, getForward_thaw fuel h c _ ht hfz,
        Or.inl ⟨rfl, ForwardPath.here c, by rw [isFrozenMemo_eq h c _ ht, hfz]⟩⟩
    | true =>
      cases hfw : (h.memos[c]).forward with
      | none =>
        exact ⟨_, _, getForward_null fuel h c _ ht hfz hfw,
          Or.inr ⟨c, _, ForwardPath.here c, ht, hfz, hfw, rfl, rfl⟩⟩
      | some f =>
        obtain ⟨h1, h2⟩ := forwardOK_link h hfo c f _ ht hfw
        obtain ⟨x, h3, hx, hor⟩ := getForward_spec h hfo fuel f h2 (by omega)
        refine ⟨x, h3, by rw [getForward_link fuel h c f _ ht hfz hfw]; exact hx, ?_⟩
        rcases hor with ⟨e1, hp, hz⟩ | ⟨e, te, hp, hte, hez, hen, hxe, hh⟩
        · exact Or.inl ⟨e1, ForwardPath.next c f x _ ht hfz hfw hp, hz⟩
        · exact Or.inr ⟨e, te, ForwardPath.next c f e _ ht hfz hfw hp, hte, hez, hen, hxe, hh⟩

/-- Giving the end of a chain its forward keeps every link that was set. -/
theorem withForward_keeps (h : Heap) (e : Nat) (te : LazyMemo) (he : h.memos[e]? = some te)
    (hen : te.forward = none) (n : Nat) (t : LazyMemo) (hn : h.memos[n]? = some t)
    (hfw : t.forward ≠ none) : (h.withForward e te).memos[n]? = some t := by
  have hne : n ≠ e := by
    intro e1; subst e1; rw [he] at hn; injection hn with e2; rw [← e2] at hfw; exact hfw hen
  rw [withForward_other h e n te (memo_valid h n t hn) hne]; exact hn

theorem withForward_path (h : Heap) (c e : Nat) (te : LazyMemo) (hp : ForwardPath h c e)
    (he : h.memos[e]? = some te) (hez : te.frozen = true) (hen : te.forward = none) :
    ForwardPath (h.withForward e te) c h.memos.length :=
  forwardPath_trans _ c e _
    (forwardPath_lift h _ c e hp (withForward_keeps h e te he hen))
    (ForwardPath.next e h.memos.length _ _ (withForward_at h e te (memo_valid h e te he)) hez rfl
      (ForwardPath.here _))

/-- C12. On an arena whose forward links are as `getForward` leaves them,
`pullForward()` on a context `c` returns with the heap unchanged (no forward
link, no context and no reference count changes), and the context it returns is
the end of the existing forward chain from `c`: it is reached from `c` through
forward links read in frozen contexts, it is not frozen or has a null forward,
it is the only such context on the chain, and it is `c` itself when `c` is not
frozen or has no forward. -/
theorem pullForward_follows_existing_links (fuel : Nat) (h : Heap) (c : Nat)
    (hfo : h.ForwardOK) (hc : c < h.memos.length) (hf : h.memos.length ≤ fuel) :
    ∃ x, pullForward fuel h c = .ok (x, h) ∧ ForwardPath h c x ∧ h.EndsChain x ∧
      (∀ y, ForwardPath h c y → h.EndsChain y → y = x) ∧
      (h.EndsChain c → x = c) := by
  obtain ⟨x, hx, hp, he⟩ := pullForward_spec h hfo fuel c hc (by omega)
  exact ⟨x, hx, hp, he, fun y hy ey => forwardPath_end_unique h c x y hp he hy ey,
    fun ec => (forwardPath_end_unique h c x c hp he (ForwardPath.here c) ec).symm⟩

theorem pullForward_follows_existing_links_witness :
    ∃ x, pullForward 2 exampleForwarded 0 = .ok (x, exampleForwarded) ∧
      ForwardPath exampleForwarded 0 x ∧ exampleForwarded.EndsChain x ∧
      (∀ y, ForwardPath exampleForwarded 0 y → exampleForwarded.EndsChain y → y = x) ∧
      (exampleForwarded.EndsChain 0 → x = 0) :=
  pullForward_follows_existing_links 2 exampleForwarded 0 (by decide) (by decide) (by decide)

/-- C13. `getForward()` on a context that is not frozen returns that context
and changes nothing.  On a frozen context `c` it returns a context `x` that is
not frozen and is reached from `c` by forward links; either the heap is
unchanged, or exactly one link was created, at the frozen context `e` with a
null forward that ended the chain of `c`: `x` is a new context with parent `e`
and shared count one, and `e.forward` is `x`.  Immediately afterwards
`c.pullForward()` returns `x` and changes nothing. -/
theorem getForward_follows_chain (fuel : Nat) (h : Heap) (c : Nat) (t : LazyMemo)
    (hfo : h.ForwardOK) (hc : h.memos[c]? = some t) (hf : h.memos.length ≤ fuel) :
    (t.frozen = false → getForward fuel h c = .ok (c, h)) ∧
    (t.frozen = true → ∃ x h1, getForward fuel h c = .ok (x, h1) ∧
      h1.isFrozenMemo x = some false ∧ ForwardPath h1 c x ∧ h1.ForwardOK ∧
      (h1 = h ∨ ∃ e te, ForwardPath h c e ∧ h.memos[e]? = some te ∧ te.frozen = true ∧
        te.forward = none ∧ x = h.memos.length ∧ h1 = h.withForward e te ∧
        h1.memos[x]? = some { LazyMemo.mkChild e te with sharedCount := 1 } ∧
        h1.memos[e]? = some { te with forward := some x } ∧
        (∀ i, i < h.memos.length → i ≠ e → h1.memos[i]? = h.memos[i]?) ∧
        h1.memos.length = h.memos.length + 1 ∧ h1.objs = h.objs) ∧
      ∀ fuel2, h1.memos.length ≤ fuel2 → pullForward fuel2 h1 c = .ok (x, h1)) := by
  have hcl := memo_valid h c t hc
  constructor
  · intro hfz
    obtain ⟨k, hk⟩ : ∃ k, fuel = k + 1 := ⟨fuel - 1, by omega⟩
    rw [hk]
    exact getForward_thaw k h c t hc hfz
  · intro _
    obtain ⟨x, h1, hx, hor⟩ := getForward_spec h hfo fuel c hcl (by omega)
    have key : h1.isFrozenMemo x = some false ∧ ForwardPath h1 c x ∧ h1.ForwardOK ∧
        c < h1.memos.length := by
      rcases hor with ⟨e1, hp, hz⟩ | ⟨e, te, hp, hte, hez, hen, hxe, hh⟩
      · rw [e1]; exact ⟨hz, hp, hfo, hcl⟩
      · rw [hh, hxe]
        refine ⟨?_, withForward_path h c e te hp hte hez hen,
          withForward_forwardOK h hfo e te hte, by rw [withForward_length]; omega⟩
        rw [isFrozenMemo_eq _ _ _ (withForward_new h e te (memo_valid h e te hte))]
        rfl
    obtain ⟨hz, hp, hfo1, hc1⟩ := key
    refine ⟨x, h1, hx, hz, hp, hfo1, ?_, ?_⟩
    · rcases hor with ⟨e1, _, _⟩ | ⟨e, te, hp, hte, hez, hen, hxe, hh⟩
      · exact Or.inl e1
      · have hel := memo_valid h e te hte
        refine Or.inr ⟨e, te, hp, hte, hez, hen, hxe, hh, ?_, ?_, ?_, ?_, ?_⟩
        · rw [hh, hxe]; exact withForward_new h e te hel
        · rw [hh, hxe]; exact withForward_at h e te hel
        · intro i hi hie; rw [hh]; exact withForward_other h e i te hi hie
        · rw [hh]; exact withForward_length h e te
        · rw [hh]; rfl
    · intro fuel2 hf2
      obtain ⟨y, hy, hpy, hey⟩ := pullForward_spec h1 hfo1 fuel2 c hc1 (by omega)
      have hex : h1.EndsChain x := by
        unfold Heap.isFrozenMemo at hz
        cases hm : h1.memos[x]? with
        | none => rw [hm] at hz; cases hz
        | some tx =>
          rw [hm] at hz
          exact ⟨tx, hm, Or.inl (by simpa using hz)⟩
      rw [forwardPath_end_unique h1 c x y hp hex hpy hey] at hy
      exact hy

theorem getForward_follows_chain_witness :
    ∃ x h1, getForward 3 exampleForwardFrozen 0 = .ok (x, h1) ∧
      h1.isFrozenMemo x = some false ∧ ForwardPath h1 0 x ∧ h1.ForwardOK ∧
      (h1 = exampleForwardFrozen ∨ ∃ e te, ForwardPath exampleForwardFrozen 0 e ∧
        exampleForwardFrozen.memos[e]? = some te ∧ te.frozen = true ∧
        te.forward = none ∧ x = exampleForwardFrozen.memos.length ∧
        h1 = exampleForwardFrozen.withForward e te ∧
        h1.memos[x]? = some { LazyMemo.mkChild e te with sharedCount := 1 } ∧
        h1.memos[e]? = some { te with forward := some x } ∧
        (∀ i, i < exampleForwardFrozen.memos.length → i ≠ e →
          h1.memos[i]? = exampleForwardFrozen.memos[i]?) ∧
        h1.memos.length = exampleForwardFrozen.memos.length + 1 ∧
        h1.objs = exampleForwardFrozen.objs) ∧
      ∀ fuel2, h1.memos.length ≤ fuel2 → pullForward fuel2 h1 0 = .ok (x, h1) :=
  (getForward_follows_chain 3 exampleForwardFrozen 0 _ (by decide) (by rfl) (by decide)).2
    (by rfl)

/-- C11, as stated, fails when the forward is frozen in turn: after the first
`getForward()` on the frozen context 0 has created and installed the forward
context 1, and context 1 has been frozen (the link of context 0 is still set),
a later `getForward()` on context 0 creates a further context and returns it,
not the context of the first call. -/
theorem later_getForward_creates_again :
    getForward 3 exampleFrozen 0 = .ok (1, exampleForwarded) ∧
    exampleForwarded.freezeMemo 1 = some exampleForwardFrozen ∧
    (exampleForwardFrozen.memos[0]?).bind (fun t => t.forward) = some 1 ∧
    ∃ h2, getForward 3 exampleForwardFrozen 0 = .ok (2, h2) ∧
      h2.memos.length = exampleForwardFrozen.memos.length + 1 :=
  ⟨by rfl, by rfl, by rfl, _, by rfl, by rfl⟩

/-- C11, amended. For a frozen context `c` with a null forward link, the first
`getForward()` creates exactly one new context, installs it as `c.forward` and
returns it.  Every `getForward()` on `c` in a row after it returns that same
context and changes nothing.  In any later state in which the link of `c` is
still set, `getForward()` on `c` leaves every forward link that is set as it
is, and while the forward context is not frozen it returns that context and
changes nothing. -/
theorem forward_created_once (fuel : Nat) (h : Heap) (c : Nat) (t : LazyMemo)
    (hc : h.memos[c]? = some t) (hfz : t.frozen = true) (hnf : t.forward = none)
    (hf : h.memos.length < fuel) :
    getForward fuel h c = .ok (h.memos.length, h.withForward c t) ∧
    (h.withForward c t).memos.length = h.memos.length + 1 ∧
    (h.withForward c t).memos[c]? = some { t with forward := some h.memos.length } ∧
    (∀ n, getForwardRepeated fuel c n (h.withForward c t) =
      .ok (h.memos.length, h.withForward c t)) ∧
    (∀ (h2 : Heap) (fuel2 : Nat) (t2 : LazyMemo), h2.ForwardOK → h2.memos[c]? = some t2 →
      t2.frozen = true → t2.forward = some h.memos.length → h2.memos.length ≤ fuel2 →
      ∃ x h3, getForward fuel2 h2 c = .ok (x, h3) ∧
        (∀ (i g : Nat) (ti : LazyMemo), h2.memos[i]? = some ti → ti.forward = some g →
          ∃ tj, h3.memos[i]? = some tj ∧ tj.forward = some g) ∧
        (h2.isFrozenMemo h.memos.length = some false → x = h.memos.length ∧ h3 = h2)) := by
  have hcl := memo_valid h c t hc
  obtain ⟨k, hk⟩ : ∃ k, fuel = k + 2 := ⟨fuel - 2, by omega⟩
  have hfirst : getForward fuel h c = .ok (h.memos.length, h.withForward c t) := by
    rw [hk]; exact getForward_null (k + 1) h c t hc hfz hnf
  have hagain : getForward fuel (h.withForward c t) c =
      .ok (h.memos.length, h.withForward c t) := by
    rw [hk, getForward_link (k + 1) _ c h.memos.length _ (withForward_at h c t hcl) hfz rfl]
    exact getForward_thaw k _ _ _ (withForward_new h c t hcl) rfl
  refine ⟨hfirst, withForward_length h c t, withForward_at h c t hcl, ?_, ?_⟩
  · intro n
    induction n with
    | zero => exact hagain
    | succ n ih => rw [getForwardRepeated]; simp only [hagain]; exact ih
  · intro h2 fuel2 t2 hfo2 hc2 hfz2 hfw2 hf2
    have hcl2 := memo_valid h2 c t2 hc2
    obtain ⟨x, h3, hx, hor⟩ := getForward_spec h2 hfo2 fuel2 c hcl2 (by omega)
    refine ⟨x, h3, hx, ?_, ?_⟩
    · intro i g ti hti hg
      rcases hor with ⟨e1, _, _⟩ | ⟨e, te, _, hte, _, hen, _, hh⟩
      · rw [e1]; exact ⟨ti, hti, hg⟩
      · rw [hh]
        exact ⟨ti, withForward_keeps h2 e te hte hen i ti hti (by rw [hg]; simp), hg⟩
    · intro hz
      obtain ⟨k2, hk2⟩ : ∃ k2, fuel2 = k2 + 2 := by
        have := (forwardOK_link h2 hfo2 c _ t2 hc2 hfw2).2
        exact ⟨fuel2 - 2, by omega⟩
      rw [hk2, getForward_link (k2 + 1) h2 c _ t2 hc2 hfz2 hfw2] at hx
      unfold Heap.isFrozenMemo at hz
      cases hm : h2.memos[h.memos.length]? with
      | none => rw [hm] at hz; cases hz
      | some tf =>
        rw [hm] at hz
        rw [getForward_thaw k2 h2 _ tf hm (by simpa using hz)] at hx
        injection hx with hx
        injection hx with hx1 hx2
        exact ⟨hx1.symm, hx2.symm⟩

theorem forward_created_once_witness :
    getForward 3 exampleFrozen 0 = .ok (1, exampleForwarded) ∧
    exampleForwarded.memos.length = 2 ∧
    exampleForwarded.memos[0]? =
      some { LazyMemo.mkRoot with frozen := true, sharedCount := 1, forward := some 1 } ∧
    (∀ n, getForwardRepeated 3 0 n exampleForwarded = .ok (1, exampleForwarded)) ∧
    (∀ (h2 : Heap) (fuel2 : Nat) (t2 : LazyMemo), h2.ForwardOK → h2.memos[0]? = some t2 →
      t2.frozen = true → t2.forward = some 1 → h2.memos.length ≤ fuel2 →
      ∃ x h3, getForward fuel2 h2 0 = .ok (x, h3) ∧
        (∀ (i g : Nat) (ti : LazyMemo), h2.memos[i]? = some ti → ti.forward = some g →
          ∃ tj, h3.memos[i]? = some tj ∧ tj.forward = some g) ∧
        (h2.isFrozenMemo 1 = some false → x = 1 ∧ h3 = h2)) :=
  forward_created_once 3 exampleFrozen 0 _ (by rfl) (by rfl) (by rfl) (by decide)

/-! ## Release of the forward link -/

theorem setMemo_self (h : Heap) (i : Nat) (t t0 : LazyMemo) (ht : h.memos[i]? = some t0) :
    (h.setMemo i t).memos[i]? = some t := by
  simp only [Heap.setMemo]
  rw [List.getElem?_set_self (memo_valid h i t0 ht)]

theorem setMemo_ne (h : Heap) (i j : Nat) (t : LazyMemo) (hne : j ≠ i) :
    (h.setMemo i t).memos[j]? = h.memos[j]? := by
  simp only [Heap.setMemo]
  rw [List.getElem?_set_ne (fun e => hne e.symm)]

theorem decSharedMemo_eq (h : Heap) (f : Nat) (tf : LazyMemo) (hf : h.memos[f]? = some tf)
    (hpos : 0 < tf.sharedCount) :
    h.decSharedMemo f = some (h.setMemo f { tf with sharedCount := tf.sharedCount - 1 }) := by
  unfold Heap.decSharedMemo
  simp only [hf]
  rw [if_neg (by omega)]

theorem onDecShared_null (h : Heap) (c : Nat) (t : LazyMemo) (hc : h.memos[c]? = some t)
    (hnf : t.forward = none) : onDecShared h c = .ok h := by
  unfold onDecShared; simp only [hc, hnf]

theorem destructor_null (h : Heap) (c : Nat) (t : LazyMemo) (hc : h.memos[c]? = some t)
    (hnf : t.forward = none) : destructor h c = .ok h := by
  unfold destructor; simp only [hc, hnf]

theorem onDecShared_keep (h : Heap) (c : Nat) (t : LazyMemo) (hc : h.memos[c]? = some t)
    (hn : t.sharedCount ≠ 2) : onDecShared h c = .ok h := by
  unfold onDecShared; simp only [hc]
  cases t.forward with
  | none => rfl
  | some f => simp only [hn, if_false]

theorem onDecShared_fire (h : Heap) (c f : Nat) (t tf : LazyMemo) (hc : h.memos[c]? = some t)
    (hfw : t.forward = some f) (hne : f ≠ c) (hf : h.memos[f]? = some tf)
    (hpos : 0 < tf.sharedCount) (h2 : t.sharedCount = 2) :
    onDecShared h c = .ok ((h.setMemo c { t with forward := none }).setMemo f
      { tf with sharedCount := tf.sharedCount - 1 }) := by
  have hf1 : (h.setMemo c { t with forward := none }).memos[f]? = some tf := by
    rw [setMemo_ne h c f _ hne]; exact hf
  unfold onDecShared
  simp only [hc, hfw]
  rw [if_pos h2]
  simp only [Heap.casForward, hc, hfw, if_true]
  rw [decSharedMemo_eq _ f tf hf1 hpos]

theorem destructor_link (h : Heap) (c f : Nat) (t tf : LazyMemo) (hc : h.memos[c]? = some t)
    (hfw : t.forward = some f) (hf : h.memos[f]? = some tf) (hpos : 0 < tf.sharedCount) :
    destructor h c = .ok (h.setMemo f { tf with sharedCount := tf.sharedCount - 1 }) := by
  unfold destructor
  simp only [hc, hfw, decSharedMemo_eq h f tf hf hpos]

theorem setShared_self (h : Heap) (c n : Nat) (t : LazyMemo) (hc : h.memos[c]? = some t) :
    (h.setShared c n).memos[c]? = some { t with sharedCount := n } := by
  unfold Heap.setShared; simp only [hc]; exact setMemo_self h c _ t hc

theorem setShared_ne (h : Heap) (c n i : Nat) (hne : i ≠ c) :
    (h.setShared c n).memos[i]? = h.memos[i]? := by
  unfold Heap.setShared
  cases h.memos[c]? with
  | none => rfl
  | some t => exact setMemo_ne h c i _ hne

theorem setShared_objs (h : Heap) (c n : Nat) : (h.setShared c n).objs = h.objs := by
  unfold Heap.setShared
  cases h.memos[c]? with
  | none => rfl
  | some t => rfl

/-- Once the link is null, neither the hook nor the destructor touches another
context. -/
theorem lifetime_unlinked : ∀ (counts : List Nat) (h : Heap) (c : Nat) (t : LazyMemo),
    h.memos[c]? = some t → t.forward = none →
    ∃ h2, lifetime h c counts = .ok h2 ∧ (∀ i, i ≠ c → h2.memos[i]? = h.memos[i]?) ∧
      h2.objs = h.objs
  | [], h, c, t => by
    intro hc hnf
    exact ⟨h, destructor_null h c t hc hnf, fun _ _ => rfl, rfl⟩
  | n :: counts, h, c, t => by
    intro hc hnf
    have hc1 := setShared_self h c n t hc
    obtain ⟨h2, hl, hm, ho⟩ := lifetime_unlinked counts (h.setShared c n) c _ hc1 hnf
    refine ⟨h2, ?_, fun i hi => (hm i hi).trans (setShared_ne h c n i hi),
      ho.trans (setShared_objs h c n)⟩
    rw [lifetime, onDecShared_null _ c _ hc1 hnf]
    exact hl

/-- While the link is set, the hooks and the destructor together take exactly
one from the shared count of the forward context. -/
theorem lifetime_linked : ∀ (counts : List Nat) (h : Heap) (c f : Nat) (t tf : LazyMemo),
    h.memos[c]? = some t → t.forward = some f → f ≠ c → h.memos[f]? = some tf →
    0 < tf.sharedCount →
    ∃ h2, lifetime h c counts = .ok h2 ∧
      h2.memos[f]? = some { tf with sharedCount := tf.sharedCount - 1 } ∧
      (∀ i, i ≠ c → i ≠ f → h2.memos[i]? = h.memos[i]?) ∧ h2.objs = h.objs
  | [], h, c, f, t, tf => by
    intro hc hfw _ hf hpos
    exact ⟨_, destructor_link h c f t tf hc hfw hf hpos, setMemo_self h f _ tf hf,
      fun i _ hif => setMemo_ne h f i _ hif, rfl⟩
  | n :: counts, h, c, f, t, tf => by
    intro hc hfw hne hf hpos
    have hc1 := setShared_self h c n t hc
    have hf1 : (h.setShared c n).memos[f]? = some tf := by
      rw [setShared_ne h c n f hne]; exact hf
    by_cases hn : n = 2
    · have hfire := onDecShared_fire (h.setShared c n) c f _ tf hc1 hfw hne hf1 hpos hn
      have hc2 : (((h.setShared c n).setMemo c
          { ({ t with sharedCount := n } : LazyMemo) with forward := none }).setMemo f
          { tf with sharedCount := tf.sharedCount - 1 }).memos[c]? =
          some { ({ t with sharedCount := n } : LazyMemo) with forward := none } := by
        rw [setMemo_ne _ f c _ (fun e => hne e.symm)]
        exact setMemo_self _ c _ _ hc1
      obtain ⟨h2, hl, hm, ho⟩ := lifetime_unlinked counts _ c _ hc2 rfl
      refine ⟨h2, ?_, ?_, ?_, ?_⟩
      · rw [lifetime, hfire]; exact hl
      · rw [hm f hne]
        exact setMemo_self _ f _ tf (by rw [setMemo_ne _ c f _ hne]; exact hf1)
      · intro i hic hif
        rw [hm i hic, setMemo_ne _ f i _ hif, setMemo_ne _ c i _ hic]
        exact setShared_ne h c n i hic
      · rw [ho]; exact setShared_objs h c n
    · obtain ⟨h2, hl, hmf, hm, ho⟩ :=
        lifetime_linked counts (h.setShared c n) c f _ tf hc1 hfw hne hf1 hpos
      refine ⟨h2, ?_, hmf, fun i hic hif => (hm i hic hif).trans (setShared_ne h c n i hic),
        ho.trans (setShared_objs h c n)⟩
      rw [lifetime, onDecShared_keep _ c _ hc1 hn]
      exact hl

/-- C14. `onDecShared()` on a context whose forward link is `f` and whose shared
count is exactly 2 sets the link to null and takes exactly one from the shared
count of `f`; with a null forward, or with any other shared count, it changes
nothing.  The destructor takes one from the shared count of a forward that is
still set and does nothing when the link is null.  However often the hook runs
before the destructor, and whatever the shared count is each time, the shared
count of `f` ends exactly one lower and nothing else outside the context
changes. -/
theorem forward_self_release (h : Heap) (c : Nat) (t : LazyMemo)
    (hc : h.memos[c]? = some t) :
    (t.forward = none → onDecShared h c = .ok h ∧ destructor h c = .ok h) ∧
    (t.sharedCount ≠ 2 → onDecShared h c = .ok h) ∧
    (∀ (f : Nat) (tf : LazyMemo), t.forward = some f → f ≠ c → h.memos[f]? = some tf →
      0 < tf.sharedCount →
      (t.sharedCount = 2 →
        onDecShared h c = .ok ((h.setMemo c { t with forward := none }).setMemo f
          { tf with sharedCount := tf.sharedCount - 1 })) ∧
      destructor h c = .ok (h.setMemo f { tf with sharedCount := tf.sharedCount - 1 }) ∧
      ∀ counts, ∃ h2, lifetime h c counts = .ok h2 ∧
        h2.memos[f]? = some { tf with sharedCount := tf.sharedCount - 1 } ∧
        (∀ i, i ≠ c → i ≠ f → h2.memos[i]? = h.memos[i]?) ∧ h2.objs = h.objs) :=
  ⟨fun hnf => ⟨onDecShared_null h c t hc hnf, destructor_null h c t hc hnf⟩,
    fun hn => onDecShared_keep h c t hc hn,
    fun f tf hfw hne hf hpos =>
      ⟨fun h2 => onDecShared_fire h c f t tf hc hfw hne hf hpos h2,
        destructor_link h c f t tf hc hfw hf hpos,
        fun counts => lifetime_linked counts h c f t tf hc hfw hne hf hpos⟩⟩

theorem forward_self_release_witness :
    (({ LazyMemo.mkRoot with frozen := true, sharedCount := 2, forward := some 1 } :
        LazyMemo).sharedCount = 2 →
      onDecShared exampleLinked 0 = .ok
        { memos := [{ LazyMemo.mkRoot with frozen := true, sharedCount := 2 },
            { LazyMemo.mkChild 0 LazyMemo.mkRoot with sharedCount := 0 }],
          objs := [] }) ∧
    destructor exampleLinked 0 = .ok
      { memos := [{ LazyMemo.mkRoot with frozen := true, sharedCount := 2, forward := some 1 },
          { LazyMemo.mkChild 0 LazyMemo.mkRoot with sharedCount := 0 }],
        objs := [] } ∧
    ∀ counts, ∃ h2, lifetime exampleLinked 0 counts = .ok h2 ∧
      h2.memos[1]? = some { LazyMemo.mkChild 0 LazyMemo.mkRoot with sharedCount := 0 } ∧
      (∀ i, i ≠ 0 → i ≠ 1 → h2.memos[i]? = exampleLinked.memos[i]?) ∧
      h2.objs = exampleLinked.objs :=
  (forward_self_release exampleLinked 0 _ (by rfl)).2.2 1
    { LazyMemo.mkChild 0 LazyMemo.mkRoot with sharedCount := 1 } (by rfl) (by decide) (by rfl)
    (by decide)

/-! ## The marker -/

/-- The variadic overload applied to an object never returns. -/
theorem visitArgs_timeout : ∀ (fuel : Nat) (p : Pass) (o : Nat),
    Marker.visitArgs fuel p o = .timeout
  | 0, _, _ => rfl
  | fuel + 1, p, o => by
    rw [Marker.visitArgs, visitArgs_timeout fuel p o]

theorem foldl_timeout (fuel : Nat) (elems : List Field) :
    elems.foldl (fun acc e =>
      match acc with
      | .ok p1 => Marker.visitField fuel p1 e
      | .abort => .abort
      | .timeout => .timeout) (Outcome.timeout : Outcome Pass) = .timeout := by
  induction elems with
  | nil => rfl
  | cons e es ih => exact ih

/-- A member visit either returns with the state as it was or does not
return. -/
theorem visitField_cases : ∀ (fuel : Nat) (p : Pass) (f : Field),
    Marker.visitField fuel p f = .ok p ∨ Marker.visitField fuel p f = .timeout
  | 0, _, _ => Or.inr (by rw [Marker.visitField])
  | fuel + 1, p, .value => Or.inl (by rw [Marker.visitField])
  | fuel + 1, p, .shared true ptr => Or.inl (by simp only [Marker.visitField, if_true])
  | fuel + 1, p, .shared false none => Or.inl (by
      simp only [Marker.visitField, Bool.false_eq_true, if_false])
  | fuel + 1, p, .shared false (some o) => Or.inr (by
      simp only [Marker.visitField, Bool.false_eq_true, if_false]
      exact visitArgs_timeout fuel p o)
  | fuel + 1, p, .optional none => Or.inl (by rw [Marker.visitField])
  | fuel + 1, p, .optional (some f) => by
    rw [Marker.visitField]
    exact visitField_cases fuel p f
  | fuel + 1, p, .array elems => by
    rw [Marker.visitField]
    induction elems with
    | nil => exact Or.inl rfl
    | cons e es ih =>
      rw [List.foldl_cons]
      rcases visitField_cases fuel p e with h1 | h1
      · simp only [h1]; exact ih
      · simp only [h1]; exact Or.inr (foldl_timeout fuel es)

theorem visitField_handle (fuel : Nat) (p : Pass) (o : Nat) :
    Marker.visitField fuel p (.shared false (some o)) = .timeout := by
  cases fuel with
  | zero => rw [Marker.visitField]
  | succ fuel =>
    simp only [Marker.visitField, Bool.false_eq_true, if_false]
    exact visitArgs_timeout fuel p o

/-- Visiting the members of an object that holds a non-null handle of a type
that can form cycles does not return. -/
theorem accept_handle (fuel : Nat) (o : Nat) : ∀ (fs : List Field) (p : Pass),
    Field.shared false (some o) ∈ fs → Marker.accept_ fuel p fs = .timeout
  | [], _ => by intro h; cases h
  | f :: fs, p => by
    intro h
    rw [Marker.accept_]
    rcases visitField_cases fuel p f with h1 | h1
    · rw [h1]
      rcases List.mem_cons.1 h with e | e
      · rw [← e, visitField_handle fuel p o] at h1; cases h1
      · exact accept_handle fuel o fs p e
    · rw [h1]

theorem visit_handle (fuel : Nat) (p : Pass) (r c : Nat) (x : Any)
    (hr : p.objs[r]? = some x) (hm : x.flags.marked = false)
    (hc : Field.shared false (some c) ∈ x.fields) : Marker.visit fuel p r = .timeout := by
  unfold Marker.visit
  simp only [hr]
  rw [if_neg (by simp [Any.decSharedReachable, hm])]
  exact accept_handle fuel c x.fields _ hc

theorem mark_of_marked (x : Any) (hm : x.flags.marked = true) : x.mark = x := by
  cases x with
  | mk flags reachable fields =>
    cases flags
    simp only [Any.mark] at hm ⊢
    simp only [hm]

/-- C19. `Marker::visit` applied to a `Shared<T>` handle whose type `T` is
acyclic (whatever it points to), to a handle whose pointer is null, to a value
that is not a tracked object, or to an empty optional returns with the state of
the pass as it was: no flag word, no count and no record of a visit changes. -/
theorem acyclic_never_traversed (fuel : Nat) (p : Pass) (acyclic : Bool) (ptr : Option Nat) :
    Marker.visitField (fuel + 1) p (.shared true ptr) = .ok p ∧
    Marker.visitField (fuel + 1) p (.shared acyclic none) = .ok p ∧
    Marker.visitField (fuel + 1) p .value = .ok p ∧
    Marker.visitField (fuel + 1) p (.optional none) = .ok p := by
  refine ⟨?_, ?_, ?_, ?_⟩
  · simp only [Marker.visitField, if_true]
  · cases acyclic <;> simp only [Marker.visitField, Bool.false_eq_true, if_false, if_true]
  · rw [Marker.visitField]
  · rw [Marker.visitField]

/-- C16. `Marker::visit(r)` on an object that has MARKED set takes one from its
reachable count, leaves its flag word as it is and visits no member.  On an
object without MARKED that has no members it sets MARKED and clears the five
transient flags.  On an object without MARKED that holds a non-null handle `c`
of a type that can form cycles it does not return: `visit(*ptr)` in
`visit(Shared<T>&)` selects the variadic overload, which calls itself, so no
child is ever marked. -/
theorem marker_visit_never_returns (fuel : Nat) (p : Pass) (r : Nat) (x : Any)
    (hr : p.objs[r]? = some x) :
    (x.flags.marked = true → Marker.visit fuel p r = .ok (p.set r x.decSharedReachable)) ∧
    (x.flags.marked = false → x.fields = [] →
      Marker.visit fuel p r = .ok (Pass.mk (p.objs.set r (Any.mk
        (Flags.mk true false false false false false x.flags.rest) (x.reachable - 1) []))
        (r :: p.accepted))) ∧
    (x.flags.marked = false → ∀ c, Field.shared false (some c) ∈ x.fields →
      Marker.visit fuel p r = .timeout) := by
  refine ⟨?_, ?_, fun hm c hc => visit_handle fuel p r c x hr hm hc⟩
  · intro hm
    unfold Marker.visit
    simp only [hr]
    rw [if_pos (by simp [Any.decSharedReachable, hm]),
      mark_of_marked _ (by simp [Any.decSharedReachable, hm])]
  · intro hm hf
    unfold Marker.visit
    simp only [hr]
    rw [if_neg (by simp [Any.decSharedReachable, hm]), hf, Marker.accept_]
    simp only [Any.clearTransient, Any.mark, Any.decSharedReachable, hf]

theorem marker_visit_never_returns_witness :
    Marker.visit 1000 exampleEdge 0 = .timeout :=
  (marker_visit_never_returns 1000 exampleEdge 0 _ (by rfl)).2.2 (by rfl) 1 (List.Mem.head _)

/-- C17. A member visit of the marker that returns leaves the state of the
pass as it was, so no `decSharedReachable()` is ever applied through a handle;
and `Marker::visit` on an object with two handles to a second object does not
return, whatever the fuel. -/
theorem marker_counts_no_reference (fuel : Nat) (p p1 : Pass) (f : Field)
    (hv : Marker.visitField fuel p f = .ok p1) :
    p1 = p ∧ Marker.visit fuel exampleTwoRefs 0 = .timeout := by
  constructor
  · rcases visitField_cases fuel p f with h1 | h1
    · rw [h1] at hv; injection hv with hv; exact hv.symm
    · rw [h1] at hv; cases hv
  · exact visit_handle fuel exampleTwoRefs 0 1 _ (by rfl) (by rfl) (List.Mem.head _)

theorem marker_counts_no_reference_witness :
    exampleTwoRefs = exampleTwoRefs ∧ Marker.visit 1 exampleTwoRefs 0 = .timeout :=
  marker_counts_no_reference 1 exampleTwoRefs exampleTwoRefs .value (by rfl)

/-- C18. On two objects that refer only to each other, with any number of
strong references from outside, the marker pass started at either object does
not return, whatever the fuel: no residual count is ever produced. -/
theorem marker_pass_on_cycle_never_returns (fuel : Nat) (external : Int) :
    Marker.visit fuel (examplePair external) 0 = .timeout ∧
    Marker.visit fuel (examplePair external) 1 = .timeout :=
  ⟨visit_handle fuel (examplePair external) 0 1 _ (by rfl) (by rfl) (List.Mem.head _),
    visit_handle fuel (examplePair external) 1 0 _ (by rfl) (by rfl) (List.Mem.head _)⟩

/-! ## The collector -/

theorem collect_collect (x : Any) : x.collect.collect = x.collect := rfl

theorem collect_of_collected (x : Any) (hc : x.flags.collected = true) : x.collect = x := by
  cases x with
  | mk flags reachable fields =>
    cases flags
    simp only [Any.collect] at hc ⊢
    simp only [hc]

theorem pass_valid (p : Pass) (o : Nat) (x : Any) (hx : p.objs[o]? = some x) :
    o < p.objs.length := by
  rcases Nat.lt_or_ge o p.objs.length with hlt | hge
  · exact hlt
  · rw [List.getElem?_eq_none hge] at hx; cases hx

theorem extends_refl (p : Pass) : p.Extends p := ⟨rfl, fun _ _ h => Or.inl h⟩

theorem extends_trans (p q r : Pass) (h1 : p.Extends q) (h2 : q.Extends r) : p.Extends r := by
  refine ⟨h2.1.trans h1.1, ?_⟩
  intro i x hx
  rcases h1.2 i x hx with hq | hq
  · exact h2.2 i x hq
  · rcases h2.2 i _ hq with hr | hr
    · exact Or.inr hr
    · exact Or.inr hr

theorem extends_children (p q : Pass) (h : p.Extends q) (i : Nat) :
    q.children i = p.children i := by
  unfold Pass.children
  cases hx : p.objs[i]? with
  | none =>
    have : q.objs[i]? = none := by
      rw [List.getElem?_eq_none_iff] at hx ⊢
      rw [h.1]; exact hx
    rw [this]
  | some x =>
    rcases h.2 i x hx with hq | hq
    · rw [hq]
    · rw [hq]; rfl

theorem extends_collected (p q : Pass) (h : p.Extends q) (i : Nat)
    (hc : p.collectedAt i = true) : q.collectedAt i = true := by
  unfold Pass.collectedAt at hc ⊢
  cases hx : p.objs[i]? with
  | none => rw [hx] at hc; cases hc
  | some x =>
    rw [hx] at hc
    rcases h.2 i x hx with hq | hq
    · rw [hq]; exact hc
    · rw [hq]; rfl

theorem extends_uncollected (p q : Pass) (h : p.Extends q) (i : Nat)
    (hc : q.collectedAt i = false) : p.collectedAt i = false := by
  cases hp : p.collectedAt i with
  | false => rfl
  | true => rw [extends_collected p q h i hp] at hc; cases hc

theorem extends_closed (p q : Pass) (h : p.Extends q) (hcl : p.Closed) : q.Closed := by
  intro o ho c hc
  rw [extends_children p q h o] at hc
  rw [h.1] at ho ⊢
  exact hcl o ho c hc

theorem reaches_extends (p q : Pass) (h : p.Extends q) (o x : Nat) (hr : Reaches q o x) :
    Reaches p o x := by
  induction hr with
  | here o ho => exact Reaches.here o (by rw [← h.1]; exact ho)
  | step o c x hc _ ih => exact Reaches.step o c x (by rw [← extends_children p q h o]; exact hc) ih

/-- The number of objects without COLLECTED. -/
theorem uncollected_le (p q : Pass) (h : p.Extends q) :
    ((Finset.range q.objs.length).filter (fun i => q.collectedAt i = false)).card ≤
      ((Finset.range p.objs.length).filter (fun i => p.collectedAt i = false)).card := by
  apply Finset.card_le_card
  intro i hi
  simp only [Finset.mem_filter, Finset.mem_range] at hi ⊢
  exact ⟨by rw [← h.1]; exact hi.1, extends_uncollected p q h i hi.2⟩

theorem collectedAt_set_self (p : Pass) (o : Nat) (x : Any) (l : List Nat)
    (hx : p.objs[o]? = some x) :
    (Pass.mk (p.objs.set o x.collect) l).collectedAt o = true := by
  unfold Pass.collectedAt
  simp only [List.getElem?_set_self (pass_valid p o x hx)]
  rfl

theorem extends_set (p : Pass) (o : Nat) (x : Any) (l : List Nat)
    (hx : p.objs[o]? = some x) : p.Extends (Pass.mk (p.objs.set o x.collect) l) := by
  refine ⟨by simp, ?_⟩
  intro i y hy
  by_cases hi : i = o
  · subst hi
    rw [hx] at hy; injection hy with hy
    rw [← hy]
    exact Or.inr (List.getElem?_set_self (pass_valid p i x hx))
  · left
    simp only
    rw [List.getElem?_set_ne (fun e => hi e.symm)]
    exact hy

theorem uncollected_lt (p : Pass) (o : Nat) (x : Any) (l : List Nat)
    (hx : p.objs[o]? = some x) (hc : x.flags.collected = false) :
    ((Finset.range (Pass.mk (p.objs.set o x.collect) l).objs.length).filter
        (fun i => (Pass.mk (p.objs.set o x.collect) l).collectedAt i = false)).card <
      ((Finset.range p.objs.length).filter (fun i => p.collectedAt i = false)).card := by
  apply Finset.card_lt_card
  rw [Finset.ssubset_iff_of_subset]
  · refine ⟨o, ?_, ?_⟩
    · simp only [Finset.mem_filter, Finset.mem_range]
      refine ⟨pass_valid p o x hx, ?_⟩
      unfold Pass.collectedAt; rw [hx]; exact hc
    · simp only [Finset.mem_filter, Finset.mem_range, not_and]
      intro _
      rw [collectedAt_set_self p o x l hx]
      simp
  · intro i hi
    simp only [Finset.mem_filter, Finset.mem_range] at hi ⊢
    have he := extends_set p o x l hx
    exact ⟨by rw [← he.1]; exact hi.1, extends_uncollected p _ he i hi.2⟩

/-- Visiting an object that has COLLECTED set changes nothing. -/
theorem visit_collected (fuel : Nat) (p : Pass) (o : Nat) (x : Any)
    (hx : p.objs[o]? = some x) (hc : x.flags.collected = true) :
    BiconnectedCollector.visit (fuel + 1) p o = .ok p := by
  rw [BiconnectedCollector.visit]
  simp only [hx, hc, if_true, Pass.set, collect_of_collected x hc]
  have : p.objs.set o x = p.objs := by
    apply List.ext_getElem?
    intro i
    by_cases hi : i = o
    · subst hi; rw [List.getElem?_set_self (pass_valid p i x hx)]; exact hx.symm
    · rw [List.getElem?_set_ne (fun e => hi e.symm)]
  rw [this]

theorem visit_fresh (fuel : Nat) (p : Pass) (o : Nat) (x : Any)
    (hx : p.objs[o]? = some x) (hc : x.flags.collected = false) :
    BiconnectedCollector.visit (fuel + 1) p o =
      BiconnectedCollector.accept_ (BiconnectedCollector.visit fuel)
        (Pass.mk (p.objs.set o x.collect) (o :: p.accepted)) x.children := by
  rw [BiconnectedCollector.visit]
  simp only [hx, hc, Bool.false_eq_true, if_false]

theorem swept_refl (p : Pass) : p.Swept p [] := by
  refine ⟨extends_refl p, rfl, List.nodup_nil, ?_, ?_⟩
  · intro i
    constructor
    · intro h; cases h
    · rintro ⟨h1, h2⟩; rw [h1] at h2; cases h2
  · intro i h; cases h

theorem swept_trans (p q r : Pass) (n1 n2 : List Nat) (h1 : p.Swept q n1)
    (h2 : q.Swept r n2) : p.Swept r (n2 ++ n1) := by
  obtain ⟨e1, a1, d1, m1, c1⟩ := h1
  obtain ⟨e2, a2, d2, m2, c2⟩ := h2
  refine ⟨extends_trans p q r e1 e2, ?_, ?_, ?_, ?_⟩
  · rw [a2, a1, List.append_assoc]
  · rw [List.nodup_append]
    refine ⟨d2, d1, ?_⟩
    intro i hi2 hi1
    have := ((m2 i).1 hi2).1
    rw [((m1 i).1 hi1).2] at this
    cases this
  · intro i
    rw [List.mem_append]
    constructor
    · rintro (hi | hi)
      · exact ⟨extends_uncollected p q e1 i ((m2 i).1 hi).1, ((m2 i).1 hi).2⟩
      · exact ⟨((m1 i).1 hi).1, extends_collected q r e2 i ((m1 i).1 hi).2⟩
    · rintro ⟨hp, hr⟩
      cases hq : q.collectedAt i with
      | false => exact Or.inl ((m2 i).2 ⟨hq, hr⟩)
      | true => exact Or.inr ((m1 i).2 ⟨hp, hq⟩)
  · intro i hi c hc
    rcases List.mem_append.1 hi with hi | hi
    · exact c2 i hi c (by rw [extends_children p q e1 i]; exact hc)
    · exact extends_collected q r e2 c (c1 i hi c hc)

theorem collectedAt_set_ne (p : Pass) (o i : Nat) (x : Any) (l : List Nat) (hne : i ≠ o) :
    (Pass.mk (p.objs.set o x) l).collectedAt i = p.collectedAt i := by
  unfold Pass.collectedAt
  simp only
  rw [List.getElem?_set_ne (fun e => hne e.symm)]

theorem children_of (p : Pass) (o : Nat) (x : Any) (hx : p.objs[o]? = some x) :
    p.children o = x.children := by
  unfold Pass.children; rw [hx]

/-- The sweep that starts with the first visit of `o`. -/
theorem swept_first (p q : Pass) (o : Nat) (x : Any) (n2 : List Nat)
    (hx : p.objs[o]? = some x) (hc : x.flags.collected = false)
    (h2 : (Pass.mk (p.objs.set o x.collect) (o :: p.accepted)).Swept q n2)
    (hch : ∀ c, c ∈ x.children → q.collectedAt c = true) : p.Swept q (n2 ++ [o]) := by
  have e1 := extends_set p o x (o :: p.accepted) hx
  have ho := collectedAt_set_self p o x (o :: p.accepted) hx
  have hpo : p.collectedAt o = false := by unfold Pass.collectedAt; rw [hx]; exact hc
  obtain ⟨e2, a2, d2, m2, c2⟩ := h2
  refine ⟨extends_trans p _ q e1 e2, ?_, ?_, ?_, ?_⟩
  · rw [a2]; simp
  · rw [List.nodup_append]
    refine ⟨d2, List.nodup_singleton o, ?_⟩
    intro i hi2 hi1
    rw [List.mem_singleton] at hi1
    subst hi1
    have := ((m2 i).1 hi2).1
    rw [ho] at this
    cases this
  · intro i
    rw [List.mem_append, List.mem_singleton]
    constructor
    · rintro (hi | hi)
      · exact ⟨extends_uncollected p _ e1 i ((m2 i).1 hi).1, ((m2 i).1 hi).2⟩
      · rw [hi]; exact ⟨hpo, extends_collected _ q e2 o ho⟩
    · rintro ⟨hp, hq⟩
      by_cases hi : i = o
      · exact Or.inr hi
      · exact Or.inl ((m2 i).2 ⟨by rw [collectedAt_set_ne p o i _ _ hi]; exact hp, hq⟩)
  · intro i hi c hcc
    rcases List.mem_append.1 hi with hi | hi
    · exact c2 i hi c (by rw [extends_children p _ e1 i]; exact hcc)
    · rw [List.mem_singleton] at hi
      rw [hi, children_of p o x hx] at hcc
      exact hch c hcc

/-- The visits of a list of children, given what one visit does. -/
theorem accept_dfs (fuel : Nat)
    (IH : ∀ (p : Pass) (o : Nat), p.Closed → o < p.objs.length →
      ((Finset.range p.objs.length).filter (fun i => p.collectedAt i = false)).card < fuel →
      ∃ q new, BiconnectedCollector.visit fuel p o = .ok q ∧ p.Swept q new ∧
        q.collectedAt o = true ∧ ∀ i, i ∈ new → Reaches p o i) :
    ∀ (cs : List Nat) (p : Pass), p.Closed → (∀ c, c ∈ cs → c < p.objs.length) →
      ((Finset.range p.objs.length).filter (fun i => p.collectedAt i = false)).card < fuel →
      ∃ q new, BiconnectedCollector.accept_ (BiconnectedCollector.visit fuel) p cs = .ok q ∧
        p.Swept q new ∧ (∀ c, c ∈ cs → q.collectedAt c = true) ∧
        ∀ i, i ∈ new → ∃ c, c ∈ cs ∧ Reaches p c i
  | [], p => by
    intro _ _ _
    exact ⟨p, [], rfl, swept_refl p, fun c h => (by cases h), fun i h => (by cases h)⟩
  | c :: cs, p => by
    intro hcl hv hf
    obtain ⟨q1, n1, hq1, s1, hc1, r1⟩ := IH p c hcl (hv c (List.mem_cons_self _ _)) hf
    have e1 := s1.1
    obtain ⟨q2, n2, hq2, s2, hc2, r2⟩ := accept_dfs fuel IH cs q1 (extends_closed p q1 e1 hcl)
      (fun c1 h1 => by rw [e1.1]; exact hv c1 (List.mem_cons_of_mem _ h1))
      (lt_of_le_of_lt (uncollected_le p q1 e1) hf)
    refine ⟨q2, n2 ++ n1, ?_, swept_trans p q1 q2 n1 n2 s1 s2, ?_, ?_⟩
    · rw [BiconnectedCollector.accept_]; simp only [hq1]; exact hq2
    · intro c1 h1
      rcases List.mem_cons.1 h1 with e | e
      · rw [e]; exact extends_collected q1 q2 s2.1 c hc1
      · exact hc2 c1 e
    · intro i hi
      rcases List.mem_append.1 hi with hi | hi
      · obtain ⟨c1, hc1m, hr⟩ := r2 i hi
        exact ⟨c1, List.mem_cons_of_mem _ hc1m, reaches_extends p q1 e1 c1 i hr⟩
      · exact ⟨c, List.mem_cons_self _ _, r1 i hi⟩

/-- One visit of the collector: depth-first, every object that gains COLLECTED
is accepted once and is reachable from the visited object. -/
theorem visit_dfs : ∀ (fuel : Nat) (p : Pass) (o : Nat), p.Closed → o < p.objs.length →
    ((Finset.range p.objs.length).filter (fun i => p.collectedAt i = false)).card < fuel →
    ∃ q new, BiconnectedCollector.visit fuel p o = .ok q ∧ p.Swept q new ∧
      q.collectedAt o = true ∧ ∀ i, i ∈ new → Reaches p o i
  | 0, p, o => by intro _ _ hf; omega
  | fuel + 1, p, o => by
    intro hcl ho hf
    have hx := List.getElem?_eq_getElem ho
    cases hc : (p.objs[o]).flags.collected with
    | true =>
      refine ⟨p, [], visit_collected fuel p o _ hx hc, swept_refl p, ?_, fun i h => (by cases h)⟩
      unfold Pass.collectedAt; rw [hx]; exact hc
    | false =>
      have e1 := extends_set p o _ (o :: p.accepted) hx
      have hlt := uncollected_lt p o _ (o :: p.accepted) hx hc
      obtain ⟨q, n2, hq, s2, hc2, r2⟩ := accept_dfs fuel (visit_dfs fuel) (p.objs[o]).children
        (Pass.mk (p.objs.set o (p.objs[o]).collect) (o :: p.accepted))
        (extends_closed p _ e1 hcl)
        (fun c h => by
          rw [e1.1]; exact hcl o ho c (by rw [children_of p o _ hx]; exact h))
        (by omega)
      refine ⟨q, n2 ++ [o], by rw [visit_fresh fuel p o _ hx hc]; exact hq,
        swept_first p q o _ n2 hx hc s2 hc2, ?_, ?_⟩
      · exact extends_collected _ q s2.1 o (collectedAt_set_self p o _ _ hx)
      · intro i hi
        rcases List.mem_append.1 hi with hi | hi
        · obtain ⟨c, hcm, hr⟩ := r2 i hi
          exact Reaches.step o c i (by rw [children_of p o _ hx]; exact hcm)
            (reaches_extends p _ e1 c i hr)
        · rw [List.mem_singleton] at hi
          rw [hi]; exact Reaches.here o ho

theorem reaches_closed (p q : Pass) (new : List Nat) (hs : p.Swept q new)
    (hnc : ∀ i, p.collectedAt i = false) (a b : Nat) (hr : Reaches p a b) (ha : a ∈ new) :
    b ∈ new := by
  induction hr with
  | here _ _ => exact ha
  | step a c b hc _ ih =>
    exact ih ((hs.2.2.2.1 c).2 ⟨hnc c, hs.2.2.2.2 a ha c hc⟩)

/-- C15. On a graph in which every child is an object and no object has
COLLECTED set, `BiconnectedCollector::visit(r)` returns; it has invoked
`accept_` on the objects reachable from `r`, once each, and on no other object;
in the resulting state exactly the objects reachable from `r` have COLLECTED
set in addition, and nothing else of any object has changed.  Visiting an
object that has COLLECTED set returns with the state as it was. -/
theorem collector_finalizes_once (fuel : Nat) (p : Pass) (r : Nat)
    (hcl : p.Closed) (hr : r < p.objs.length)
    (hnc : ∀ i, i < p.objs.length → p.collectedAt i = false)
    (hf : p.objs.length < fuel) :
    (∃ q new, BiconnectedCollector.visit fuel p r = .ok q ∧
      q.accepted = new ++ p.accepted ∧ new.Nodup ∧
      (∀ o, o ∈ new ↔ Reaches p r o) ∧
      q.objs.length = p.objs.length ∧
      (∀ (o : Nat) (x : Any), p.objs[o]? = some x → Reaches p r o →
        q.objs[o]? = some { x with flags := { x.flags with collected := true } }) ∧
      (∀ (o : Nat) (x : Any), p.objs[o]? = some x → ¬ Reaches p r o →
        q.objs[o]? = some x)) ∧
    (∀ (q : Pass) (o : Nat) (x : Any), q.objs[o]? = some x → x.flags.collected = true →
      BiconnectedCollector.visit fuel q o = .ok q) := by
  have hall : ∀ i, p.collectedAt i = false := by
    intro i
    rcases Nat.lt_or_ge i p.objs.length with hlt | hge
    · exact hnc i hlt
    · unfold Pass.collectedAt; rw [List.getElem?_eq_none hge]
  have hcard : ((Finset.range p.objs.length).filter
      (fun i => p.collectedAt i = false)).card < fuel := by
    refine lt_of_le_of_lt (Finset.card_filter_le _ _) ?_
    rw [Finset.card_range]; exact hf
  constructor
  · obtain ⟨q, new, hq, hs, hco, hre⟩ := visit_dfs fuel p r hcl hr hcard
    have hmem : ∀ o, o ∈ new ↔ Reaches p r o := by
      intro o
      constructor
      · exact hre o
      · intro h
        exact reaches_closed p q new hs hall r o h ((hs.2.2.2.1 r).2 ⟨hall r, hco⟩)
    refine ⟨q, new, hq, hs.2.1, hs.2.2.1, hmem, hs.1.1, ?_, ?_⟩
    · intro o x hx hro
      have hqc := ((hs.2.2.2.1 o).1 ((hmem o).2 hro)).2
      have hpc := hall o
      rcases hs.1.2 o x hx with h1 | h1
      · unfold Pass.collectedAt at hqc hpc
        rw [h1] at hqc; rw [hx] at hpc
        rw [hpc] at hqc; cases hqc
      · exact h1
    · intro o x hx hro
      have hqc : q.collectedAt o = false := by
        cases hc : q.collectedAt o with
        | false => rfl
        | true => exact absurd ((hmem o).1 ((hs.2.2.2.1 o).2 ⟨hall o, hc⟩)) hro
      rcases hs.1.2 o x hx with h1 | h1
      · exact h1
      · unfold Pass.collectedAt at hqc
        rw [h1] at hqc; cases hqc
  · intro q o x hx hc
    obtain ⟨k, hk⟩ : ∃ k, fuel = k + 1 := ⟨fuel - 1, by omega⟩
    rw [hk]
    exact visit_collected k q o x hx hc

theorem collector_finalizes_once_witness :
    (∃ q new, BiconnectedCollector.visit 5 exampleGraph 0 = .ok q ∧
      q.accepted = new ++ exampleGraph.accepted ∧ new.Nodup ∧
      (∀ o, o ∈ new ↔ Reaches exampleGraph 0 o) ∧
      q.objs.length = exampleGraph.objs.length ∧
      (∀ (o : Nat) (x : Any), exampleGraph.objs[o]? = some x → Reaches exampleGraph 0 o →
        q.objs[o]? = some { x with flags := { x.flags with collected := true } }) ∧
      (∀ (o : Nat) (x : Any), exampleGraph.objs[o]? = some x → ¬ Reaches exampleGraph 0 o →
        q.objs[o]? = some x)) ∧
    (∀ (q : Pass) (o : Nat) (x : Any), q.objs[o]? = some x → x.flags.collected = true →
      BiconnectedCollector.visit 5 q o = .ok q) :=
  collector_finalizes_once 5 exampleGraph 0 (by decide) (by decide) (by decide) (by decide)

/-! ## Ranges -/

theorem wrapInt64_id (x : Int) (hx : isInt64 x) : wrapInt64 x = x := by
  unfold isInt64 INT64_MIN INT64_MAX at hx
  unfold wrapInt64
  omega

theorem wrapInt64_isInt64 (x : Int) : isInt64 (wrapInt64 x) := by
  unfold isInt64 INT64_MIN INT64_MAX wrapInt64
  omega

/-- C21, as stated, fails at the ends of the `int64_t` range: for start 0 and
end 9223372036854775807 the length `end - start + 1` is 9223372036854775808,
which no `int64_t` holds, and the range returned has length 0; for start
9223372036854775807 and end -9223372036854775808, where end is below start, the
range returned has length 2, not 0. -/
theorem make_range_overflows :
    isInt64 0 ∧ isInt64 INT64_MAX ∧ isInt64 INT64_MIN ∧
    (0 : Int) ≤ INT64_MAX ∧ INT64_MAX - 0 + 1 = 9223372036854775808 ∧
    ¬ isInt64 (INT64_MAX - 0 + 1) ∧
    make_range 0 INT64_MAX = { offset := 0, length := 0 } ∧
    INT64_MIN < INT64_MAX ∧
    make_range INT64_MAX INT64_MIN = { offset := INT64_MAX, length := 2 } := by
  refine ⟨by decide, by decide, by decide, by decide, by decide, by decide, by decide,
    by decide, by decide⟩

/-- C21, amended. For 64-bit signed integers `start` and `end` whose difference
`end - start` and length `end - start + 1` are representable in 64 bits,
`make_range(start, end)` has offset `start`, length `end - start + 1` when
`end >= start`, and length 0 when `end < start`.  For all `start` and `end`
the offset is `start` and the length is a non-negative 64-bit value. -/
theorem make_range_spec (start end' : Int) :
    (make_range start end').offset = start ∧
    0 ≤ (make_range start end').length ∧ isInt64 (make_range start end').length ∧
    (isInt64 (end' - start) → isInt64 (end' - start + 1) →
      (start ≤ end' → (make_range start end').length = end' - start + 1) ∧
      (end' < start → make_range start end' = { offset := start, length := 0 })) := by
  refine ⟨rfl, le_max_left _ _, ?_, ?_⟩
  · have h1 := wrapInt64_isInt64 (wrapInt64 (end' - start) + 1)
    unfold isInt64 INT64_MIN INT64_MAX at h1 ⊢
    unfold make_range
    simp only
    omega
  · intro hd hl
    unfold make_range
    simp only [wrapInt64_id _ hd, wrapInt64_id _ hl]
    constructor
    · intro hle
      omega
    · intro hlt
      have : max (0 : Int) (end' - start + 1) = 0 := by omega
      rw [this]

theorem make_range_spec_witness :
    ((3 : Int) ≤ 7 → (make_range 3 7).length = 7 - 3 + 1) ∧
    ((7 : Int) < 3 → make_range 3 7 = { offset := 3, length := 0 }) :=
  (make_range_spec 3 7).2.2.2 (by decide) (by decide)

/-! ## Termination of the ancestor query -/

theorem tree_has_parent (h : Heap) (ht : h.Tree) (a : Nat) (ta : LazyMemo)
    (ha : h.memos[a]? = some ta) (hg : 0 < ta.gen) : ∃ p, ta.parent = some p := by
  cases hp : ta.parent with
  | none =>
    have := wf_root_gen h (tree_wellFormed h ht) a ta ha hp
    omega
  | some p => exact ⟨p, rfl⟩

/-- On a tree with the generation invariant, `n + 1` nested calls of
`hasAncestor` are enough when the generations differ by at most `n`. -/
theorem hasAncestor_bound (cfg : Config) (h : Heap) (ht : h.Tree) (b : Nat) (tb : LazyMemo)
    (hb : h.memos[b]? = some tb) : ∀ (n a : Nat) (ta : LazyMemo),
    h.memos[a]? = some ta → ta.gen - tb.gen ≤ n →
    ∃ r h1, hasAncestor cfg (n + 1) h a b = .ok (r, h1)
  | n, a, ta => by
    intro ha hn
    rw [hasAncestor_step cfg n h a b ta tb ha hb]
    by_cases h1 : ta.gen ≤ tb.gen
    · exact ⟨false, h, by simp only [h1, if_true]⟩
    · simp only [h1, if_false]
      by_cases h2 : ta.parent = some b
      · exact ⟨true, h, by simp only [h2, if_true]⟩
      · simp only [h2, if_false]
        by_cases h3 : cfg.ENABLE_ANCESTRY_MEMO = true ∧ ta.gen % cfg.ANCESTRY_MEMO_DELTA = 0
            ∧ b ∈ ta.a
        · exact ⟨true, h, by simp only [h3, and_self, if_true]⟩
        · rw [if_neg h3]
          obtain ⟨p, hp⟩ := tree_has_parent h ht a ta ha (by omega)
          obtain ⟨tp, htp, _, hg⟩ := tree_parent h ht a p ta ha hp
          cases n with
          | zero => omega
          | succ n =>
            obtain ⟨r, h2, hr⟩ := hasAncestor_bound cfg h ht b tb hb n p tp htp (by omega)
            simp only [hp, hr]
            by_cases h4 : cfg.ENABLE_ANCESTRY_MEMO = true ∧ r = true
                ∧ ta.gen % cfg.ANCESTRY_MEMO_DELTA = 0
            · exact ⟨r, _, by rw [if_pos h4]⟩
            · exact ⟨r, _, by rw [if_neg h4]⟩

/-- C24. On a context tree with the generation invariant, for contexts `a` and
`b` of the tree, `a->hasAncestor(b)` returns an answer within
`a.gen - b.gen + 1` nested calls, that is after at most `a.gen - b.gen`
recursive steps, with the ancestry cache compiled in or out; it never reaches
the null parent of a root, because a context whose generation is greater
than that of `b` has a parent. -/
theorem hasAncestor_total (cfg : Config) (h : Heap) (a b : Nat) (ta tb : LazyMemo)
    (ht : h.Tree) (ha : h.memos[a]? = some ta) (hb : h.memos[b]? = some tb) :
    (∃ r h1, hasAncestor cfg (ta.gen - tb.gen + 1) h a b = .ok (r, h1)) ∧
    (∀ fuel, ta.gen - tb.gen < fuel → ∃ r h1, hasAncestor cfg fuel h a b = .ok (r, h1)) ∧
    (tb.gen < ta.gen → ∃ p, ta.parent = some p) := by
  have key := hasAncestor_bound cfg h ht b tb hb (ta.gen - tb.gen) a ta ha (le_refl _)
  refine ⟨key, ?_, fun hg => tree_has_parent h ht a ta ha (by omega)⟩
  intro fuel hf
  obtain ⟨r, h1, hr⟩ := key
  exact ⟨r, h1, hasAncestor_fuel_le cfg b h a (r, h1) _ hr fuel (by omega)⟩

theorem hasAncestor_total_witness :
    (∃ r h1, hasAncestor cfgOn (2 - 0 + 1) exampleHeap 2 0 = .ok (r, h1)) ∧
    (∀ fuel, 2 - 0 < fuel → ∃ r h1, hasAncestor cfgOn fuel exampleHeap 2 0 = .ok (r, h1)) ∧
    (0 < 2 → ∃ p, (LazyMemo.mkChild 1 (LazyMemo.mkChild 0 LazyMemo.mkRoot)).parent = some p) :=
  hasAncestor_total cfgOn exampleHeap 2 0 _ _ (by decide) (by rfl) (by rfl)

/-! ## Agreement of `get` and `pull` -/

theorem pull_found (cfg : Config) (fuel : Nat) (h : Heap) (self o from' r x : Nat) (h1 : Heap)
    (m1 : Map) (hsf : self ≠ from') (hr : resolve cfg fuel h self o from' = .ok (r, h1))
    (hm1 : h1.mapOf self = some m1) (hl : m1.get r = some x) :
    pull cfg fuel h self o from' = .ok (x, h1) := by
  unfold pull; simp only [hsf, if_false, hr, hm1, hl]

theorem pull_missing (cfg : Config) (fuel : Nat) (h : Heap) (self o from' r : Nat) (h1 : Heap)
    (m1 : Map) (hsf : self ≠ from') (hr : resolve cfg fuel h self o from' = .ok (r, h1))
    (hm1 : h1.mapOf self = some m1) (hl : m1.get r = none) :
    pull cfg fuel h self o from' = .ok (r, h1) := by
  unfold pull; simp only [hsf, if_false, hr, hm1, hl]

/-- After `get` has returned `x`, `pull` with the same arguments returns `x` and
changes nothing. -/
theorem pull_after_get (cfg : Config) (fuel : Nat) (h : Heap) (hw : h.WellFormed)
    (self o from' x : Nat) (h2 : Heap)
    (hg : get cfg fuel h self o from' = .ok (x, h2)) :
    pull cfg fuel h2 self o from' = .ok (x, h2) := by
  rcases get_inv cfg fuel h self o from' x h2 hg with
    ⟨hsf, ex, e⟩ | ⟨hsf, r, h1, m1, hr, hm1, ⟨hl, e⟩ | ⟨hl, hf, ex, e⟩ | ⟨hl, hf, hc⟩⟩
  · unfold pull; simp only [hsf, if_true, ex]
  · rw [e]
    exact pull_found cfg fuel h1 self o from' r x h1 m1 hsf
      (resolve_idem cfg fuel h self o from' r h1 hr) hm1 hl
  · rw [e, ex]
    exact pull_missing cfg fuel h1 self o from' r h1 m1 hsf
      (resolve_idem cfg fuel h self o from' r h1 hr) hm1 hl
  · obtain ⟨y, hy, hyf⟩ := isFrozen_true h1 r hf
    obtain ⟨h4, hc4, hmem, _, _, _, _⟩ := copy_ok h1 self r y m1 hy hyf hm1 hl
    rw [hc4] at hc
    injection hc with hc
    injection hc with e1 e2
    rw [← e2]
    obtain ⟨a1, _, _⟩ := resolve_frame cfg fuel h hw self o from' r h1 hr
    have hw1 : h1.WellFormed := wellFormed_of_links h h1 a1 hw
    have hr4 : resolve cfg fuel h4 self o from' = .ok (r, h4) :=
      resolve_transfer cfg fuel h1 h4 hw1 self o from' r
        (resolve_idem cfg fuel h self o from' r h1 hr)
        (fun i hi => setMap_memos_getElem?_ne h1 h4 self _ hmem i (by omega))
        (setMap_memos_links h1 h4 self _ hmem)
    have hm4 := setMap_memos_mapOf h1 h4 self _ m1 hmem hm1
    exact pull_found cfg fuel h4 self o from' r x h4 _ hsf hr4 hm4
      (by rw [Map.get_cons, if_pos rfl, e1])

/-- C23. `get(o, from)` and `pull(o, from)` on the same context give the same
result and the same heap when the context is `from`, when the resolved object
`r` has an entry in the mapping of the context, and when `r` is not frozen;
when the resolution fails, both fail the same way.  On a well-formed tree,
after `get(o, from)` has returned `x`, `pull(o, from)` returns `x` and changes
nothing. -/
theorem get_pull_agree (cfg : Config) (fuel : Nat) (h : Heap) (self o from' : Nat)
    (hw : h.WellFormed) :
    (self = from' → get cfg fuel h self o from' = .ok (o, h) ∧
      pull cfg fuel h self o from' = .ok (o, h)) ∧
    (self ≠ from' → ∀ r h1 m1, resolve cfg fuel h self o from' = .ok (r, h1) →
      h1.mapOf self = some m1 →
      (∀ x, m1.get r = some x → get cfg fuel h self o from' = .ok (x, h1) ∧
        pull cfg fuel h self o from' = .ok (x, h1)) ∧
      (m1.get r = none → h1.isFrozen r = some false →
        get cfg fuel h self o from' = .ok (r, h1) ∧
        pull cfg fuel h self o from' = .ok (r, h1))) ∧
    (self ≠ from' → resolve cfg fuel h self o from' = .abort →
      get cfg fuel h self o from' = .abort ∧ pull cfg fuel h self o from' = .abort) ∧
    (∀ x h2, get cfg fuel h self o from' = .ok (x, h2) →
      pull cfg fuel h2 self o from' = .ok (x, h2)) := by
  refine ⟨?_, ?_, ?_, ?_⟩
  · intro e
    unfold get pull
    simp only [e, if_true, and_self]
  · intro hsf r h1 m1 hr hm1
    exact ⟨fun x hl => ⟨get_found cfg fuel h self o from' r x h1 m1 hsf hr hm1 hl,
        pull_found cfg fuel h self o from' r x h1 m1 hsf hr hm1 hl⟩,
      fun hl hf => ⟨get_mutable cfg fuel h self o from' r h1 m1 hsf hr hm1 hl hf,
        pull_missing cfg fuel h self o from' r h1 m1 hsf hr hm1 hl⟩⟩
  · intro hsf hr
    have := (after_resolve cfg fuel h self o from' hsf).1 hr
    exact ⟨this.1, this.2.1⟩
  · intro x h2 hg
    exact pull_after_get cfg fuel h hw self o from' x h2 hg

theorem get_pull_agree_witness :
    get cfgOff 3 exampleHeap 2 1 0 = .ok (1, exampleHeap) ∧
    pull cfgOff 3 exampleHeap 2 1 0 = .ok (1, exampleHeap) :=
  ((get_pull_agree cfgOff 3 exampleHeap 2 1 0 (by decide)).2.1 (by decide) 1 exampleHeap
    (Map.mk []) (by rfl) (by rfl)).2 (by rfl) (by rfl)

/-- C25. On every graph in which every child is an object, with any flags set,
`BiconnectedCollector::visit(r)` returns within as many nested calls as there
are objects, plus one, and invokes `accept_` at most once on any object, only
on objects that had no COLLECTED flag and have it afterwards.
`Marker::visit(r)` returns on an object that has MARKED set, and does not
return on an object without MARKED that holds a non-null handle of a type that
can form cycles, whatever the fuel: the handle overload recurses in the
variadic overload, with no flag involved. -/
theorem traversals_terminate (fuel : Nat) (p : Pass) (r : Nat) (x : Any)
    (hcl : p.Closed) (hr : p.objs[r]? = some x) (hf : p.objs.length < fuel) :
    (∃ q new, BiconnectedCollector.visit fuel p r = .ok q ∧
      q.accepted = new ++ p.accepted ∧ new.Nodup ∧ q.collectedAt r = true ∧
      ∀ i, i ∈ new → p.collectedAt i = false ∧ q.collectedAt i = true) ∧
    (x.flags.marked = true → ∃ q, Marker.visit fuel p r = .ok q) ∧
    (x.flags.marked = false → ∀ c, Field.shared false (some c) ∈ x.fields →
      Marker.visit fuel p r = .timeout) := by
  refine ⟨?_, ?_, fun hm c hc => visit_handle fuel p r c x hr hm hc⟩
  · have hcard : ((Finset.range p.objs.length).filter
        (fun i => p.collectedAt i = false)).card < fuel := by
      refine lt_of_le_of_lt (Finset.card_filter_le _ _) ?_
      rw [Finset.card_range]; exact hf
    obtain ⟨q, new, hq, hs, hco, _⟩ := visit_dfs fuel p r hcl (pass_valid p r x hr) hcard
    exact ⟨q, new, hq, hs.2.1, hs.2.2.1, hco, fun i hi => (hs.2.2.2.1 i).1 hi⟩
  · intro hm
    refine ⟨p.set r x.decSharedReachable.mark, ?_⟩
    unfold Marker.visit
    simp only [hr]
    rw [if_pos (by simp [Any.decSharedReachable, hm])]

theorem traversals_terminate_witness :
    (∃ q new, BiconnectedCollector.visit 2 exampleSelf 0 = .ok q ∧
      q.accepted = new ++ exampleSelf.accepted ∧ new.Nodup ∧ q.collectedAt 0 = true ∧
      ∀ i, i ∈ new → exampleSelf.collectedAt i = false ∧ q.collectedAt i = true) ∧
    Marker.visit 2 exampleSelf 0 = .timeout :=
  ⟨(traversals_terminate 2 exampleSelf 0 _ (by decide) (by rfl) (by decide)).1,
    (traversals_terminate 2 exampleSelf 0 _ (by decide) (by rfl) (by decide)).2.2 (by rfl) 0
      (List.Mem.head _)⟩

/-! ## The compiler's Cloner -/

/-- A tree in which no empty statement carries a location is cloned to an equal
tree. -/
theorem clone_eq_of_bare (n : Node) (hb : n.emptyStatementsBare = true) : Cloner.clone n = n := by
  induction n <;> simp_all [Cloner.clone, Node.emptyStatementsBare]

theorem clone_kind (n : Node) : (Cloner.clone n).kind = n.kind := by
  cases n <;> rfl

theorem clone_attributes (n : Node) : (Cloner.clone n).attributes = n.attributes := by
  cases n <;> rfl

theorem clone_children (n : Node) : (Cloner.clone n).children = n.children.map Cloner.clone := by
  cases n <;> rfl

theorem clone_loc (n : Node) (hk : n.kind ≠ "EmptyStatement") : (Cloner.clone n).loc = n.loc := by
  cases n <;> first | rfl | exact absurd rfl hk

theorem clone_loc_empty (n : Node) (hk : n.kind = "EmptyStatement") :
    (Cloner.clone n).loc = none := by
  cases n <;> first | rfl | (simp [Node.kind] at hk)

/-- The overload `clone(const EmptyStatement*)` constructs `new EmptyStatement()`
and does not pass `o->loc`: the clone of an empty statement with source
location 7 is an empty statement with a null location, and the clone of a block
around it has that statement as its child. -/
theorem clone_drops_location_of_empty_statement :
    (Node.EmptyStatement (some 7)).loc = some 7 ∧
    (Cloner.clone (Node.EmptyStatement (some 7))).loc = none ∧
    Cloner.clone exampleBraces = .Braces (.EmptyStatement none) (some 3) ∧
    exampleBraces.children.map Node.loc = [some 7] ∧
    (Cloner.clone exampleBraces).children.map Node.loc = [none] := by
  refine ⟨rfl, rfl, rfl, rfl, rfl⟩

/-- C26. For every node, `Cloner::clone` returns a node of the same class, with
the same name, annotation, literal or raw string, number of dimensions and
alias, whose children are the clones of the children of the original in the
same order, and for every class but `EmptyStatement` with the source location
of the original.  The overload for `EmptyStatement` alone does not pass
`o->loc` to the constructor: the clone of an empty statement has a null
location, whatever the location of the original, so only a tree in which no
empty statement carries a location is cloned to an equal tree. -/
theorem cloner_preserves_structure (n : Node) :
    (Cloner.clone n).kind = n.kind ∧
    (Cloner.clone n).attributes = n.attributes ∧
    (Cloner.clone n).children = n.children.map Cloner.clone ∧
    (n.kind ≠ "EmptyStatement" → (Cloner.clone n).loc = n.loc) ∧
    (n.kind = "EmptyStatement" → (Cloner.clone n).loc = none) ∧
    (n.emptyStatementsBare = true → Cloner.clone n = n) :=
  ⟨clone_kind n, clone_attributes n, clone_children n, clone_loc n, clone_loc_empty n,
    clone_eq_of_bare n⟩

theorem cloner_preserves_structure_witness :
    Cloner.clone exampleStatement = exampleStatement ∧
    (Cloner.clone exampleStatement).loc = exampleStatement.loc ∧
    (Cloner.clone (Node.EmptyStatement (some 7))).loc = none :=
  ⟨(cloner_preserves_structure exampleStatement).2.2.2.2.2 (by rfl),
    (cloner_preserves_structure exampleStatement).2.2.2.1 (by decide),
    (cloner_preserves_structure (Node.EmptyStatement (some 7))).2.2.2.2.1 (by rfl)⟩

/-! ## The clone race -/

theorem holders_set : ∀ (ts : List Thread) (i : Nat) (t t1 : Thread) (a : Nat),
    ts[i]? = some t →
    holders (ts.set i t1) a + (if t.holds a = true then 1 else 0) =
      holders ts a + (if t1.holds a = true then 1 else 0)
  | [], i, t, t1, a => by intro h; simp at h
  | t0 :: ts, 0, t, t1, a => by
    intro h
    simp only [List.getElem?_cons_zero, Option.some.injEq] at h
    subst h
    simp only [holders, List.set_cons_zero, List.countP_cons]
    omega
  | t0 :: ts, i + 1, t, t1, a => by
    intro h
    simp only [List.getElem?_cons_succ] at h
    have ih := holders_set ts i t t1 a h
    simp only [holders, List.set_cons_succ, List.countP_cons] at ih ⊢
    omega

theorem holders_zero (ts : List Thread) (a : Nat) (hz : ∀ t, t ∈ ts → t.holds a = false) :
    holders ts a = 0 := by
  unfold holders
  rw [List.countP_eq_zero]
  intro t ht
  rw [hz t ht]
  simp

theorem holders_pos (ts : List Thread) (a : Nat) (t : Thread) (ht : t ∈ ts)
    (hh : t.holds a = true) : 0 < holders ts a := by
  unfold holders
  rw [List.countP_pos_iff]
  exact ⟨t, ht, hh⟩

theorem holders_same (ts : List Thread) (i : Nat) (t t1 : Thread) (a : Nat)
    (ht : ts[i]? = some t) (hs : t1.holds a = t.holds a) :
    holders (ts.set i t1) a = holders ts a := by
  have := holders_set ts i t t1 a ht
  rw [hs] at this
  omega

theorem mem_of_mem_set (ts : List Thread) (i : Nat) (t t1 : Thread)
    (hm : t ∈ ts.set i t1) : t = t1 ∨ t ∈ ts := by
  rcases List.mem_or_eq_of_mem_set hm with h | h
  · exact Or.inr h
  · exact Or.inl h

theorem objs_setObj (h : Heap) (a b : Nat) (x : LazyAny) (hne : b ≠ a) :
    (h.setObj a x).objs[b]? = h.objs[b]? := by
  simp only [Heap.setObj]
  rw [List.getElem?_set_ne (fun e => hne e.symm)]

theorem objs_setObj_self (h : Heap) (a : Nat) (x : LazyAny) (ha : a < h.objs.length) :
    (h.setObj a x).objs[a]? = some (some x) := by
  simp only [Heap.setObj]
  rw [List.getElem?_set_self ha]

theorem obj_of_objs (h : Heap) (a : Nat) (x : LazyAny) (hx : h.objs[a]? = some (some x)) :
    h.obj a = some x := by
  unfold Heap.obj; rw [hx]; rfl

theorem objs_of_obj (h : Heap) (a : Nat) (x : LazyAny) (hx : h.obj a = some x) :
    h.objs[a]? = some (some x) := by
  unfold Heap.obj at hx
  cases hb : h.objs[a]? with
  | none => rw [hb] at hx; cases hx
  | some b =>
    rw [hb] at hx
    cases b with
    | none => cases hx
    | some y =>
      have : y = x := by simpa using hx
      rw [this]

theorem blockOf_pos (size k : Nat) (hk : 0 < k) :
    blockOf size k = some { frozen := false, size := size, sharedCount := k, memoCount := 0 } := by
  unfold blockOf; rw [if_neg (by omega)]

/-- The step that constructs the duplicate. -/
theorem step_missed (h : Heap) (self o : Nat) (x : LazyAny) (hx : h.obj o = some x)
    (hf : x.frozen = true) :
    ∃ h1, Thread.step h self o .missed = .ok (.cloned h.objs.length, h1) ∧
      h1.memos = h.memos ∧ h1.objs.length = h.objs.length + 1 ∧
      h1.objs[h.objs.length]? = some (blockOf x.size 1) ∧
      ∀ a, a < h.objs.length → h1.objs[a]? = h.objs[a]? := by
  have hfz : h.isFrozen o = some true := by simp [Heap.isFrozen, hx, hf]
  have hcl := clone_spec (h.allocate x.size).2 o (h.allocate x.size).1 x
    (by rw [obj_allocate]; exact hx) (allocate_block h x.size)
  have hlen : (h.allocate x.size).1 < (h.allocate x.size).2.objs.length := by
    rw [allocate_length, allocate_fst]; omega
  have hobj := obj_of_objs _ _ _ (objs_setObj_self (h.allocate x.size).2 (h.allocate x.size).1
    (LazyAny.mk false x.size 0 0) hlen)
  have hstep : Thread.step h self o .missed = .ok (.cloned h.objs.length,
      (((h.allocate x.size).2).setObj h.objs.length (LazyAny.mk false x.size 0 0)).setObj
        h.objs.length (LazyAny.mk false x.size 1 0)) := by
    simp only [Thread.step, hfz, Heap.cloneNew, hx, hcl, incShared_spec _ _ _ hobj]
    rfl
  refine ⟨_, hstep, rfl, ?_, ?_, ?_⟩
  · simp [Heap.setObj, Heap.allocate]
  · rw [blockOf_pos _ _ (by omega)]
    exact objs_setObj_self _ _ _ (by rw [setObj_length]; exact hlen)
  · intro a ha
    rw [objs_setObj _ _ _ _ (by omega), objs_setObj _ _ _ _ (by omega)]
    simp only [Heap.allocate]
    exact List.getElem?_append_left ha

/-- The `put` of a thread that finds the entry set. -/
theorem step_put_hit (h : Heap) (self o c v : Nat) (m : Map) (hm : h.mapOf self = some m)
    (hg : m.get o = some v) :
    Thread.step h self o (.cloned c) = .ok (.inserted v c, h) := by
  simp only [Thread.step, Heap.put, hm, hg]

/-- The `put` of the thread that inserts. -/
theorem step_put_miss (h : Heap) (self o c : Nat) (m : Map) (x y : LazyAny)
    (hm : h.mapOf self = some m) (hg : m.get o = none) (hx : h.obj o = some x)
    (hy : h.obj c = some y) (hne : c ≠ o) :
    ∃ h1, Thread.step h self o (.cloned c) = .ok (.inserted c c, h1) ∧
      (∃ m1, h1.mapOf self = some m1) ∧ h1.entry self o = some c ∧
      h1.objs.length = h.objs.length ∧
      h1.obj o = some { x with memoCount := x.memoCount + 1 } ∧
      h1.objs[c]? = some (some { y with sharedCount := y.sharedCount + 1 }) ∧
      ∀ a, a ≠ o → a ≠ c → h1.objs[a]? = h.objs[a]? := by
  have hol := obj_lt h o x hx
  have hcl := obj_lt h c y hy
  have hv : (h.setObj o { x with memoCount := x.memoCount + 1 }).obj c = some y := by
    rw [obj_setObj, if_neg (fun e => hne e.symm)]; exact hy
  have hp := put_insert h self o c m x y hm hg hx hv
  have hstep : Thread.step h self o (.cloned c) = .ok (.inserted c c,
      ((h.setObj o { x with memoCount := x.memoCount + 1 }).setObj c
        { y with sharedCount := y.sharedCount + 1 }).setMap self
          { entries := (o, c) :: m.entries }) := by
    simp only [Thread.step, hp]
  refine ⟨_, hstep, ?_, ?_, ?_, ?_, ?_, ?_⟩
  · exact ⟨_, setMap_mapOf_self _ self _ m (by simpa [Heap.mapOf, Heap.setObj] using hm)⟩
  · rw [entry_of_mapOf _ self o _
      (setMap_mapOf_self _ self _ m (by simpa [Heap.mapOf, Heap.setObj] using hm))]
    rw [Map.get_cons, if_pos rfl]
  · rw [setMap_objs, setObj_length, setObj_length]
  · rw [setMap_obj, obj_setObj, if_neg hne, obj_setObj, if_pos rfl, if_pos hol]
  · rw [setMap_objs]
    exact objs_setObj_self _ _ _ (by rw [setObj_length]; exact hcl)
  · intro a hao hac
    rw [setMap_objs, objs_setObj _ _ _ _ hac, objs_setObj _ _ _ _ hao]

/-- The destruction of the shared pointer of a thread. -/
theorem step_release (h : Heap) (self o r c : Nat) (y : LazyAny) (hy : h.obj c = some y)
    (hpos : 0 < y.sharedCount) :
    ∃ h1, Thread.step h self o (.inserted r c) = .ok (.returned r, h1) ∧
      h1.memos = h.memos ∧ h1.objs.length = h.objs.length ∧
      h1.objs[c]? = some (if y.sharedCount = 1 then none
        else some { y with sharedCount := y.sharedCount - 1 }) ∧
      ∀ a, a ≠ c → h1.objs[a]? = h.objs[a]? := by
  have hcl := obj_lt h c y hy
  by_cases h1 : y.sharedCount = 1
  · refine ⟨{ h with objs := h.objs.set c none }, ?_, rfl, by simp, ?_, ?_⟩
    · simp only [Thread.step, Heap.decShared, hy, h1]
      simp
    · simp only [h1, if_true]
      rw [List.getElem?_set_self hcl]
    · intro a ha
      simp only
      rw [List.getElem?_set_ne (fun e => ha e.symm)]
  · refine ⟨h.setObj c { y with sharedCount := y.sharedCount - 1 }, ?_, rfl,
      setObj_length _ _ _, ?_, ?_⟩
    · simp only [Thread.step, decShared_spec h c y hy (by omega)]
    · rw [if_neg h1]; exact objs_setObj_self _ _ _ hcl
    · intro a ha
      exact objs_setObj _ _ _ _ ha

theorem step_start_hit (h : Heap) (self o v : Nat) (m : Map) (hm : h.mapOf self = some m)
    (hg : m.get o = some v) : Thread.step h self o .start = .ok (.returned v, h) := by
  simp only [Thread.step, hm, hg]

theorem step_start_miss (h : Heap) (self o : Nat) (m : Map) (x : LazyAny)
    (hm : h.mapOf self = some m) (hg : m.get o = none) (hx : h.obj o = some x)
    (hf : x.frozen = true) : Thread.step h self o .start = .ok (.missed, h) := by
  have hfz : h.isFrozen o = some true := by simp [Heap.isFrozen, hx, hf]
  simp only [Thread.step, hm, hg, hfz]

theorem entry_congr (h h1 : Heap) (self o : Nat) (hm : h1.memos = h.memos) :
    h1.entry self o = h.entry self o := by
  unfold Heap.entry Heap.mapOf; rw [hm]

/-- A step that changes neither the heap nor what the thread holds. -/
theorem raceInv_relabel (h0 : Heap) (self o size : Nat) (h : Heap) (ts : List Thread)
    (i : Nat) (t t1 : Thread) (hinv : RaceInv h0 self o size h ts) (ht : ts[i]? = some t)
    (hh : ∀ a, t1.holds a = t.holds a)
    (hr : ∀ r, t1.result = some r → h.entry self o = some r) :
    RaceInv h0 self o size h (ts.set i t1) := by
  have htm : t ∈ ts := List.getElem?_mem ht
  refine ⟨hinv.map, hinv.key, hinv.low, hinv.len, ?_, hinv.entry, ?_, ?_, hinv.old⟩
  · intro t2 ht2 c hc
    rcases mem_of_mem_set ts i t2 t1 ht2 with e | e
    · rw [e, hh c] at hc; exact hinv.held t htm c hc
    · exact hinv.held t2 e c hc
  · intro t2 ht2 r hres
    rcases mem_of_mem_set ts i t2 t1 ht2 with e | e
    · rw [e] at hres; exact hr r hres
    · exact hinv.results t2 e r hres
  · intro a ha1 ha2
    rw [hinv.blocks a ha1 ha2]
    unfold references
    rw [holders_same ts i t t1 a ht (hh a)]

theorem raceInv_missed (h0 : Heap) (self o size : Nat) (h : Heap) (ts : List Thread)
    (i : Nat) (hinv : RaceInv h0 self o size h ts) (ht : ts[i]? = some .missed) :
    ∃ h1, Thread.step h self o .missed = .ok (.cloned h.objs.length, h1) ∧
      RaceInv h0 self o size h1 (ts.set i (.cloned h.objs.length)) ∧
      h1.objs.length = h.objs.length + 1 := by
  obtain ⟨x, hx, hf, hsz⟩ := hinv.key
  obtain ⟨h1, hstep, hmem, hlen, hnew, hold⟩ := step_missed h self o x hx hf
  have hol := obj_lt h o x hx
  have he := entry_congr h h1 self o hmem
  refine ⟨h1, hstep, ?_, hlen⟩
  refine ⟨?_, ?_, hinv.low, by rw [hlen]; exact Nat.le_succ_of_le hinv.len, ?_, ?_, ?_, ?_, ?_⟩
  · obtain ⟨m, hm⟩ := hinv.map
    exact ⟨m, by unfold Heap.mapOf at hm ⊢; rw [hmem]; exact hm⟩
  · exact ⟨x, obj_of_objs h1 o x (by rw [hold o hol]; exact objs_of_obj h o x hx), hf, hsz⟩
  · intro t2 ht2 c hc
    rw [hlen]
    rcases mem_of_mem_set ts i t2 _ ht2 with e | e
    · rw [e] at hc
      have : h.objs.length = c := by simpa [Thread.holds] using hc
      rw [← this]; exact ⟨hinv.len, Nat.lt_succ_self _⟩
    · have := hinv.held t2 e c hc
      omega
  · intro w hw
    rw [he] at hw
    have := hinv.entry w hw
    omega
  · intro t2 ht2 r hres
    rw [he]
    rcases mem_of_mem_set ts i t2 _ ht2 with e | e
    · rw [e] at hres; cases hres
    · exact hinv.results t2 e r hres
  · intro a ha1 ha2
    rw [he]
    by_cases hal : a < h.objs.length
    · rw [hold a hal, hinv.blocks a ha1 hal]
      unfold references
      rw [holders_same ts i .missed _ a ht (by simp [Thread.holds]; omega)]
    · have hae : a = h.objs.length := by omega
      rw [hae, hnew, hsz]
      have hz : holders ts h.objs.length = 0 := by
        apply holders_zero
        intro t2 ht2
        cases hh : t2.holds h.objs.length with
        | false => rfl
        | true => have := hinv.held t2 ht2 _ hh; omega
      have hs := holders_set ts i .missed (.cloned h.objs.length) h.objs.length ht
      have hne : h.entry self o ≠ some h.objs.length := by
        intro e
        have := hinv.entry _ e
        omega
      unfold references
      rw [if_neg hne]
      simp only [Thread.holds, beq_self_eq_true, if_true, Bool.false_eq_true, if_false] at hs
      have : holders (ts.set i (.cloned h.objs.length)) h.objs.length = 1 := by omega
      rw [this]
  · intro a ha hao
    rw [hold a (by have := hinv.len; omega)]
    exact hinv.old a ha hao

theorem raceInv_put_miss (h0 : Heap) (self o size : Nat) (h : Heap) (ts : List Thread)
    (i c : Nat) (m : Map) (hinv : RaceInv h0 self o size h ts) (ht : ts[i]? = some (.cloned c))
    (hm : h.mapOf self = some m) (hg : m.get o = none) :
    ∃ h1, Thread.step h self o (.cloned c) = .ok (.inserted c c, h1) ∧
      RaceInv h0 self o size h1 (ts.set i (.inserted c c)) ∧
      h1.objs.length = h.objs.length := by
  have htm : Thread.cloned c ∈ ts := List.getElem?_mem ht
  obtain ⟨x, hx, hf, hsz⟩ := hinv.key
  have hc := hinv.held _ htm c (by simp [Thread.holds])
  have hne : c ≠ o := by have := hinv.low; omega
  have he : h.entry self o = none := by rw [entry_of_mapOf h self o m hm]; exact hg
  have hk : 0 < references ts (h.entry self o) c := by
    unfold references
    have := holders_pos ts c _ htm (by simp [Thread.holds])
    omega
  have hb := hinv.blocks c hc.1 hc.2
  rw [blockOf_pos _ _ hk] at hb
  have hy := obj_of_objs h c _ hb
  obtain ⟨h1, hstep, hmap, hent, hlen, hobj, hnew, hold⟩ :=
    step_put_miss h self o c m x _ hm hg hx hy hne
  refine ⟨h1, hstep, ?_, hlen⟩
  refine ⟨hmap, ⟨_, hobj, hf, hsz⟩, hinv.low, by rw [hlen]; exact hinv.len, ?_, ?_, ?_, ?_, ?_⟩
  · intro t2 ht2 a ha
    rw [hlen]
    rcases mem_of_mem_set ts i t2 _ ht2 with e | e
    · rw [e] at ha
      exact hinv.held _ htm a (by simpa [Thread.holds] using ha)
    · exact hinv.held t2 e a ha
  · intro w hw
    rw [hent] at hw
    injection hw with hw
    rw [hlen, ← hw]; exact hc
  · intro t2 ht2 r hres
    rcases mem_of_mem_set ts i t2 _ ht2 with e | e
    · rw [e] at hres
      simp only [Thread.result, Option.some.injEq] at hres
      rw [hent, hres]
    · have := hinv.results t2 e r hres
      rw [he] at this; cases this
  · intro a ha1 ha2
    rw [hlen] at ha2
    have hsame : holders (ts.set i (.inserted c c)) a = holders ts a :=
      holders_same ts i _ _ a ht (by simp [Thread.holds])
    have hao : a ≠ o := by have := hinv.low; omega
    rw [hent]
    by_cases hac : a = c
    · rw [hac, hnew]
      unfold references at hk ⊢
      rw [he] at hk
      simp only [reduceCtorEq, if_false, Nat.add_zero] at hk
      rw [hac] at hsame
      rw [hsame, he, if_pos rfl, blockOf_pos _ _ (by omega)]
      simp [references]
    · rw [hold a hao hac, hinv.blocks a ha1 ha2, he]
      unfold references
      rw [hsame, if_neg (by simp), if_neg (by intro e; injection e with e; exact hac e.symm)]
  · intro a ha hao
    rw [hold a hao (by omega)]
    exact hinv.old a ha hao

theorem raceInv_release (h0 : Heap) (self o size : Nat) (h : Heap) (ts : List Thread)
    (i r c : Nat) (hinv : RaceInv h0 self o size h ts) (ht : ts[i]? = some (.inserted r c)) :
    ∃ h1, Thread.step h self o (.inserted r c) = .ok (.returned r, h1) ∧
      RaceInv h0 self o size h1 (ts.set i (.returned r)) ∧
      h1.objs.length = h.objs.length := by
  have htm : Thread.inserted r c ∈ ts := List.getElem?_mem ht
  obtain ⟨x, hx, hf, hsz⟩ := hinv.key
  have hc := hinv.held _ htm c (by simp [Thread.holds])
  have hne : o ≠ c := by have := hinv.low; omega
  have hp := holders_pos ts c _ htm (by simp [Thread.holds])
  have hk : 0 < references ts (h.entry self o) c := by
    unfold references; omega
  have hb := hinv.blocks c hc.1 hc.2
  rw [blockOf_pos _ _ hk] at hb
  have hy := obj_of_objs h c _ hb
  obtain ⟨h1, hstep, hmem, hlen, hnew, hold⟩ := step_release h self o r c _ hy hk
  have he := entry_congr h h1 self o hmem
  have hs := holders_set ts i (.inserted r c) (.returned r) c ht
  simp only [Thread.holds, beq_self_eq_true, if_true, Bool.false_eq_true, if_false] at hs
  refine ⟨h1, hstep, ?_, hlen⟩
  refine ⟨?_, ?_, hinv.low, by rw [hlen]; exact hinv.len, ?_, ?_, ?_, ?_, ?_⟩
  · obtain ⟨m, hm⟩ := hinv.map
    exact ⟨m, by unfold Heap.mapOf at hm ⊢; rw [hmem]; exact hm⟩
  · exact ⟨x, obj_of_objs h1 o x (by rw [hold o hne]; exact objs_of_obj h o x hx), hf, hsz⟩
  · intro t2 ht2 a ha
    rw [hlen]
    rcases mem_of_mem_set ts i t2 _ ht2 with e | e
    · rw [e] at ha; simp [Thread.holds] at ha
    · exact hinv.held t2 e a ha
  · intro w hw
    rw [he] at hw
    rw [hlen]; exact hinv.entry w hw
  · intro t2 ht2 r2 hres
    rw [he]
    rcases mem_of_mem_set ts i t2 _ ht2 with e | e
    · rw [e] at hres
      exact hinv.results _ htm r2 (by simpa [Thread.result] using hres)
    · exact hinv.results t2 e r2 hres
  · intro a ha1 ha2
    rw [hlen] at ha2
    rw [he]
    by_cases hac : a = c
    · rw [hac, hnew]
      have hr : references (ts.set i (.returned r)) (h.entry self o) c + 1 =
          references ts (h.entry self o) c := by
        unfold references; omega
      by_cases h1c : references ts (h.entry self o) c = 1
      · have : references (ts.set i (.returned r)) (h.entry self o) c = 0 := by omega
        rw [this]
        simp [blockOf, h1c]
      · rw [blockOf_pos _ _ (by omega)]
        simp only [h1c, if_false]
        have : references ts (h.entry self o) c - 1 =
            references (ts.set i (.returned r)) (h.entry self o) c := by omega
        rw [this]
    · rw [hold a hac, hinv.blocks a ha1 ha2]
      unfold references
      rw [holders_same ts i _ _ a ht (by
        simp only [Thread.holds]
        cases hca : (c == a) with
        | false => rfl
        | true =>
          have hca2 : c = a := by simpa using hca
          exact absurd hca2.symm hac)]
  · intro a ha hao
    rw [hold a (by omega)]
    exact hinv.old a ha hao

theorem rank_le_four (t : Thread) : t.rank ≤ 4 := by
  cases t <;> simp [Thread.rank]

/-- Under the invariant every step of a thread succeeds, keeps the invariant
and takes the thread forward. -/
theorem raceInv_step (h0 : Heap) (self o size : Nat) (h : Heap) (ts : List Thread)
    (i : Nat) (t : Thread) (hinv : RaceInv h0 self o size h ts) (ht : ts[i]? = some t) :
    ∃ t1 h1, t.step h self o = .ok (t1, h1) ∧ RaceInv h0 self o size h1 (ts.set i t1) ∧
      min 4 (t.rank + 1) ≤ t1.rank := by
  obtain ⟨m, hm⟩ := hinv.map
  obtain ⟨x, hx, hf, _⟩ := hinv.key
  have he := entry_of_mapOf h self o m hm
  cases t with
  | start =>
    cases hg : m.get o with
    | some v =>
      exact ⟨.returned v, h, step_start_hit h self o v m hm hg,
        raceInv_relabel h0 self o size h ts i _ _ hinv ht (fun a => rfl)
          (fun r hr => by
            simp only [Thread.result, Option.some.injEq] at hr
            rw [he, hg, hr]),
        by simp [Thread.rank]⟩
    | none =>
      exact ⟨.missed, h, step_start_miss h self o m x hm hg hx hf,
        raceInv_relabel h0 self o size h ts i _ _ hinv ht (fun a => rfl)
          (fun r hr => by simp [Thread.result] at hr),
        by simp [Thread.rank]⟩
  | missed =>
    obtain ⟨h1, hs, hi, _⟩ := raceInv_missed h0 self o size h ts i hinv ht
    exact ⟨_, h1, hs, hi, by simp [Thread.rank]⟩
  | cloned c =>
    cases hg : m.get o with
    | some v =>
      exact ⟨.inserted v c, h, step_put_hit h self o c v m hm hg,
        raceInv_relabel h0 self o size h ts i _ _ hinv ht (fun a => rfl)
          (fun r hr => by
            simp only [Thread.result, Option.some.injEq] at hr
            rw [he, hg, hr]),
        by simp [Thread.rank]⟩
    | none =>
      obtain ⟨h1, hs, hi, _⟩ := raceInv_put_miss h0 self o size h ts i c m hinv ht hm hg
      exact ⟨_, h1, hs, hi, by simp [Thread.rank]⟩
  | inserted r c =>
    obtain ⟨h1, hs, hi, _⟩ := raceInv_release h0 self o size h ts i r c hinv ht
    exact ⟨_, h1, hs, hi, by simp [Thread.rank]⟩
  | returned r =>
    exact ⟨.returned r, h, rfl,
      raceInv_relabel h0 self o size h ts i _ _ hinv ht (fun a => rfl)
        (fun r2 hr => hinv.results _ (List.getElem?_mem ht) r2 hr),
      by simp [Thread.rank]⟩

/-- Every schedule runs to its end; the invariant holds then, and a thread that
was scheduled `k` times has taken `k` steps or has returned. -/
theorem runThreads_inv (h0 : Heap) (self o size : Nat) : ∀ (schedule : List Nat) (h : Heap)
    (ts : List Thread), RaceInv h0 self o size h ts →
    ∃ h1 ts1, runThreads self o h ts schedule = .ok (h1, ts1) ∧
      RaceInv h0 self o size h1 ts1 ∧ ts1.length = ts.length ∧
      ∀ i t, ts[i]? = some t →
        ∃ t1, ts1[i]? = some t1 ∧ min 4 (t.rank + schedule.count i) ≤ t1.rank
  | [], h, ts => by
    intro hinv
    exact ⟨h, ts, rfl, hinv, rfl, fun i t ht => ⟨t, ht, by simp⟩⟩
  | j :: schedule, h, ts => by
    intro hinv
    cases hj : ts[j]? with
    | none =>
      obtain ⟨h1, ts1, hr, hi, hl, hk⟩ := runThreads_inv h0 self o size schedule h ts hinv
      refine ⟨h1, ts1, by rw [runThreads]; simp only [hj]; exact hr, hi, hl, ?_⟩
      intro i t ht
      obtain ⟨t1, ht1, hrk⟩ := hk i t ht
      refine ⟨t1, ht1, ?_⟩
      have hne : j ≠ i := by
        intro e; rw [e, ht] at hj; cases hj
      rw [List.count_cons_of_ne (Ne.symm hne)]
      exact hrk
    | some tj =>
      obtain ⟨t1, h1, hs, hi1, hrk1⟩ := raceInv_step h0 self o size h ts j tj hinv hj
      obtain ⟨h2, ts2, hr, hi, hl, hk⟩ :=
        runThreads_inv h0 self o size schedule h1 (ts.set j t1) hi1
      refine ⟨h2, ts2, by rw [runThreads]; simp only [hj, hs]; exact hr, hi,
        by rw [hl, List.length_set], ?_⟩
      intro i t ht
      by_cases hji : j = i
      · subst hji
        rw [hj] at ht; injection ht with ht; subst ht
        have hjl : j < ts.length := by
          rcases Nat.lt_or_ge j ts.length with hlt | hge
          · exact hlt
          · rw [List.getElem?_eq_none hge] at hj; cases hj
        obtain ⟨t2, ht2, hrk2⟩ := hk j t1 (List.getElem?_set_self hjl)
        refine ⟨t2, ht2, ?_⟩
        rw [List.count_cons_self]
        have := rank_le_four t1
        omega
      · obtain ⟨t2, ht2, hrk2⟩ := hk i t (by rw [List.getElem?_set_ne hji]; exact ht)
        refine ⟨t2, ht2, ?_⟩
        rw [List.count_cons_of_ne (Ne.symm hji)]
        exact hrk2

theorem raceInv_init (h : Heap) (self o n : Nat) (m : Map) (x : LazyAny)
    (hm : h.mapOf self = some m) (hg : m.get o = none) (hx : h.obj o = some x)
    (hf : x.frozen = true) : RaceInv h self o x.size h (List.replicate n .start) := by
  have he : h.entry self o = none := by rw [entry_of_mapOf h self o m hm]; exact hg
  refine ⟨⟨m, hm⟩, ⟨x, hx, hf, rfl⟩, obj_lt h o x hx, le_refl _, ?_, ?_, ?_, ?_, fun _ _ _ => rfl⟩
  · intro t ht a ha
    rw [List.eq_of_mem_replicate ht] at ha
    simp [Thread.holds] at ha
  · intro w hw; rw [he] at hw; cases hw
  · intro t ht r hr
    rw [List.eq_of_mem_replicate ht] at hr
    simp [Thread.result] at hr
  · intro a h1 h2; omega

theorem rank_four (t : Thread) (h4 : 4 ≤ t.rank) : ∃ r, t = .returned r := by
  cases t with
  | returned r => exact ⟨r, rfl⟩
  | start => simp [Thread.rank] at h4
  | missed => simp [Thread.rank] at h4
  | cloned c => simp [Thread.rank] at h4
  | inserted r c => simp [Thread.rank] at h4

/-- The three steps of a thread in `copy` are `copy`. -/
theorem run_missed_eq_copy (h : Heap) (self o : Nat) :
    Thread.outcome (Thread.run self o 3 h .missed) = copy h self o := by
  unfold copy
  simp only [Thread.run, Thread.step]
  cases h.isFrozen o with
  | none => rfl
  | some b =>
    cases b with
    | false => rfl
    | true =>
      simp only
      cases h.cloneNew o with
      | abort => rfl
      | timeout => rfl
      | ok p =>
        obtain ⟨c, h1⟩ := p
        simp only
        cases h1.incShared c with
        | none => rfl
        | some h2 =>
          simp only
          cases h2.put self o c with
          | abort => rfl
          | timeout => rfl
          | ok q =>
            obtain ⟨r, h3⟩ := q
            simp only
            cases h3.decShared c with
            | none => rfl
            | some h4 => rfl

/-- The four steps of a thread are the part of `get` that follows the
resolution. -/
theorem run_start_eq_get (cfg : Config) (fuel : Nat) (h : Heap) (self o from' r : Nat)
    (h1 : Heap) (hsf : self ≠ from') (hr : resolve cfg fuel h self o from' = .ok (r, h1)) :
    Thread.outcome (Thread.run self r 4 h1 .start) = get cfg fuel h self o from' := by
  unfold get
  simp only [hsf, if_false, hr]
  rw [Thread.run]
  simp only [Thread.step]
  cases h1.mapOf self with
  | none => rfl
  | some m =>
    simp only
    cases m.get r with
    | some x => rfl
    | none =>
      simp only
      cases hfz : h1.isFrozen r with
      | none => rfl
      | some b =>
        cases b with
        | false => rfl
        | true => exact run_missed_eq_copy h1 self r

/-- C22. Any number `n` of threads run `get` for the same frozen object `o` on
the same context, whose mapping has no entry for `o`, with their steps
interleaved as an arbitrary schedule says (the lookup, the construction of the
duplicate, `m.put` and the destruction of the shared pointer are one step each;
run without interruption the steps of a thread are `get`).  Every schedule runs
to its end without a failed step, so no shared count is taken from a destroyed
or unreferenced block.  When every thread has had its four steps, all threads
have returned the same object `w`, which is the entry of the mapping; `w` is a
block allocated during the race and holds a live object with exactly one
shared reference, that of the mapping; every other block allocated during the
race has been destroyed, and no other object has changed. -/
theorem clone_race_safety (h : Heap) (self o n : Nat) (schedule : List Nat) (m : Map)
    (x : LazyAny) (hm : h.mapOf self = some m) (hg : m.get o = none)
    (hx : h.obj o = some x) (hf : x.frozen = true) (hn : 0 < n) :
    (∀ (cfg : Config) (fuel from' : Nat), self ≠ from' →
      resolve cfg fuel h self o from' = .ok (o, h) →
      Thread.outcome (Thread.run self o 4 h .start) = get cfg fuel h self o from') ∧
    ∃ h1 ts, runThreads self o h (List.replicate n .start) schedule = .ok (h1, ts) ∧
      ts.length = n ∧
      ((∀ i, i < n → 4 ≤ schedule.count i) →
        ∃ w, ts = List.replicate n (.returned w) ∧ h1.entry self o = some w ∧
          h.objs.length ≤ w ∧ w < h1.objs.length ∧
          h1.obj w = some { frozen := false, size := x.size, sharedCount := 1, memoCount := 0 } ∧
          (∀ a, h.objs.length ≤ a → a < h1.objs.length → a ≠ w → h1.objs[a]? = some none) ∧
          (∀ a, a < h.objs.length → a ≠ o → h1.objs[a]? = h.objs[a]?)) := by
  refine ⟨fun cfg fuel from' hsf hr => run_start_eq_get cfg fuel h self o from' o h hsf hr, ?_⟩
  obtain ⟨h1, ts, hrun, hinv, hlen, hk⟩ := runThreads_inv h self o x.size schedule h
    (List.replicate n .start) (raceInv_init h self o n m x hm hg hx hf)
  rw [List.length_replicate] at hlen
  refine ⟨h1, ts, hrun, hlen, ?_⟩
  intro hall
  have hret : ∀ i, i < n → ∃ r, ts[i]? = some (.returned r) := by
    intro i hi
    obtain ⟨t1, ht1, hrk⟩ := hk i .start (by simp [List.getElem?_replicate, hi])
    have h4 := hall i hi
    have h0 : Thread.start.rank = 0 := rfl
    rw [h0] at hrk
    obtain ⟨r, hr⟩ := rank_four t1 (by omega)
    exact ⟨r, by rw [ht1, hr]⟩
  obtain ⟨w, hw⟩ := hret 0 hn
  have hew : h1.entry self o = some w := hinv.results _ (List.getElem?_mem hw) w rfl
  have hts : ∀ t, t ∈ ts → t = .returned w := by
    intro t ht
    obtain ⟨i, hi⟩ := List.mem_iff_getElem?.1 ht
    have hil : i < n := by
      rcases Nat.lt_or_ge i ts.length with hlt | hge
      · omega
      · rw [List.getElem?_eq_none hge] at hi; cases hi
    obtain ⟨r, hr⟩ := hret i hil
    rw [hi] at hr
    injection hr with hr
    have := hinv.results _ ht r (by rw [hr]; rfl)
    rw [hew] at this
    injection this with this
    rw [hr, this]
  have hz : ∀ a, holders ts a = 0 := by
    intro a
    apply holders_zero
    intro t ht
    rw [hts t ht]; rfl
  have hwr := hinv.entry w hew
  refine ⟨w, List.eq_replicate_iff.2 ⟨hlen, hts⟩, hew, hwr.1, hwr.2, ?_, ?_, hinv.old⟩
  · apply obj_of_objs
    rw [hinv.blocks w hwr.1 hwr.2, hew]
    simp [references, hz, blockOf]
  · intro a ha1 ha2 haw
    rw [hinv.blocks a ha1 ha2, hew]
    have : (some w : Option Nat) ≠ some a := by
      intro e; injection e with e; exact haw e.symm
    simp [references, hz, blockOf, this]

theorem clone_race_safety_witness :
    (∀ i, i < 3 → 4 ≤ exampleSchedule.count i) ∧
    ∃ h1 ts, runThreads 1 0 exampleRace (List.replicate 3 .start) exampleSchedule = .ok (h1, ts) ∧
      ts.length = 3 ∧
      ((∀ i, i < 3 → 4 ≤ exampleSchedule.count i) →
        ∃ w, ts = List.replicate 3 (.returned w) ∧ h1.entry 1 0 = some w ∧
          exampleRace.objs.length ≤ w ∧ w < h1.objs.length ∧
          h1.obj w = some { frozen := false, size := 8, sharedCount := 1, memoCount := 0 } ∧
          (∀ a, exampleRace.objs.length ≤ a → a < h1.objs.length → a ≠ w →
            h1.objs[a]? = some none) ∧
          (∀ a, a < exampleRace.objs.length → a ≠ 0 → h1.objs[a]? = exampleRace.objs[a]?)) :=
  ⟨by decide,
    (clone_race_safety exampleRace 1 0 3 exampleSchedule (Map.mk [])
      { frozen := true, size := 8, sharedCount := 1, memoCount := 0 }
      (by rfl) (by rfl) (by rfl) (by rfl) (by decide)).2⟩

end libbirch
